import Mathlib

set_option maxRecDepth 100000

/-!
Verification of the `abstracta` finite-group library (`src/abstracta/Group.py`).

The library's `Set.py` (class `AlgSet`) and `Function.py` (class `Function`)
are not part of the sources under verification, so they are modelled from the
specification (spec.md sections 4.1 and 4.2).  All definitions below are a
shallow embedding of the Python source:

* an `AlgSet` is modelled as a `List α` without duplicates (the spec fixes
  only "unordered, deduplicated, implementation-defined but stable iteration
  order"; the model uses first-occurrence order);
* element equality is an explicit boolean parameter `eq`, because Python
  dispatches to `__eq__` (plain values compare by value, `AlgSet`s compare as
  sets, which matters for quotient groups whose elements are cosets);
* Python exceptions become an `Except PyErr` result;
* unbounded `while` loops become fueled recursion; fuel exhaustion is a
  distinguished `PyErr.nonTermination` outcome, so that a Python-level hang is
  visibly different from any value the Python code can return.
-/

/-- The exception kinds raised by the Python sources (messages dropped).
`nonTermination` is not a Python exception: it marks a `while True:` loop of
the source that runs forever (fuel exhaustion in the model). -/
inductive PyErr where
  | typeError : PyErr
  | valueError : PyErr
  | domainError : PyErr
  | runtimeError : PyErr
  | keyError : PyErr
  | nonTermination : PyErr
deriving DecidableEq, Repr

/-! ## The `AlgSet` model (modelled from the spec)

Modelled from the spec: `Set.py` / class `AlgSet` is missing from `src/`.
Spec 4.1: membership, cardinality, stable iteration, Cartesian product,
union, subset test, difference, arbitrary-element selection (`pick`), and
set equality (same cardinality and mutual membership). -/

/-- Membership with explicit element equality (`x in s`). -/
def amem {α : Type} (eq : α → α → Bool) (a : α) (l : List α) : Bool :=
  l.any (eq a)

/-- First-occurrence deduplication, with an accumulator of the elements kept
so far: an element is dropped when some earlier kept element equals it. -/
def adedupAux {α : Type} (eq : α → α → Bool) : List α → List α → List α
  | _, [] => []
  | seen, a :: l =>
    if seen.any (fun s => eq s a) then adedupAux eq seen l
    else a :: adedupAux eq (seen ++ [a]) l

/-- First-occurrence deduplication: the constructor invariant of `AlgSet`
("unordered, deduplicated"); the model keeps the first occurrence. -/
def adedup {α : Type} (eq : α → α → Bool) (l : List α) : List α :=
  adedupAux eq [] l

/-- Subset test (`s <= t`). -/
def asubset {α : Type} (eq : α → α → Bool) (l₁ l₂ : List α) : Bool :=
  l₁.all (fun a => amem eq a l₂)

/-- `AlgSet.__eq__`: mutual containment (spec: same cardinality and every
element of one is a member of the other; for deduplicated collections this is
mutual containment). -/
def aseteq {α : Type} (eq : α → α → Bool) (l₁ l₂ : List α) : Bool :=
  asubset eq l₁ l₂ && asubset eq l₂ l₁

/-- Union (`s | t`): the left operand's elements first, then the new ones. -/
def aunion {α : Type} (eq : α → α → Bool) (l₁ l₂ : List α) : List α :=
  adedup eq (l₁ ++ l₂)

/-- Difference (`s - t`). -/
def adiff {α : Type} (eq : α → α → Bool) (l₁ l₂ : List α) : List α :=
  l₁.filter (fun a => !(amem eq a l₂))

/-- Cartesian product (`s * t`), in nested iteration order. -/
def aprod {α β : Type} (l₁ : List α) (l₂ : List β) : List (α × β) :=
  l₁.flatMap (fun a => l₂.map (fun b => (a, b)))

/-- Arbitrary-element selection (`s.pick()`): the model's first element. -/
def apick {α : Type} (l : List α) : Option α :=
  l.head?

/-- Equality on ordered pairs, as Python tuple equality over `__eq__`. -/
def peq {α β : Type} (eqa : α → α → Bool) (eqb : β → β → Bool)
    (p q : α × β) : Bool :=
  eqa p.1 q.1 && eqb p.2 q.2

/-! ## The `Function` model (modelled from the spec)

Modelled from the spec: `Function.py` / class `Function` is missing from
`src/`.  Spec 3 and 4.2: a total mapping `(domain, codomain, rule)`; `apply`
fails with a `DomainError` if the argument is not in the domain (the output
is not checked at application time); `new_domains` rebinds the same rule to
a new domain/codomain pair; equality is domain, codomain and pointwise
agreement on the domain. -/

structure PyFunc (α β : Type) where
  domain : List α
  codomain : List β
  rule : α → β

/-- `Function.__call__`: domain-checked application. -/
def PyFunc.apply {α β : Type} (eq : α → α → Bool) (f : PyFunc α β) (x : α) :
    Except PyErr β :=
  if amem eq x f.domain then Except.ok (f.rule x) else Except.error PyErr.domainError

/-- `Function.new_domains`. -/
def PyFunc.new_domains {α β : Type} (f : PyFunc α β) (d : List α) (c : List β) :
    PyFunc α β :=
  { domain := d, codomain := c, rule := f.rule }

/-- `Function.__eq__`: same domain and codomain (as sets) and pointwise
agreement over the domain. -/
def funcEq {α β : Type} (eqa : α → α → Bool) (eqb : β → β → Bool)
    (f g : PyFunc α β) : Bool :=
  aseteq eqa f.domain g.domain && aseteq eqb f.codomain g.codomain &&
    f.domain.all (fun x => eqb (f.rule x) (g.rule x))

/-! ## `Group.py`: the `Group` class -/

/-- The state of a constructed `Group` (`Group.__init__` attributes): the
underlying `AlgSet`, the binary operation, the identity found by the
construction-time search, and the cached abelian flag.  `group_elems` is the
set of wrapped elements; since a `GroupElem` compares and hashes exactly as
its raw value, the model identifies wrapped elements with their values. -/
structure PyGroup (α : Type) where
  Set : List α
  bin_op : PyFunc (α × α) α
  e : α
  abelian : Bool

/-- Monadic `all` over a list (Python `all(...)` over a generator whose body
may raise): stops at the first exception or the first `false`. -/
def allE {α : Type} (p : α → Except PyErr Bool) : List α → Except PyErr Bool
  | [] => Except.ok true
  | a :: l => do
    let b ← p a
    if b then allE p l else Except.ok false

/-- Monadic `any` over a list. -/
def anyE {α : Type} (p : α → Except PyErr Bool) : List α → Except PyErr Bool
  | [] => Except.ok false
  | a :: l => do
    let b ← p a
    if b then Except.ok true else anyE p l

/-- Monadic first-match search (the `for ... if ...: break` identity scan). -/
def findE {α : Type} (p : α → Except PyErr Bool) : List α → Except PyErr (Option α)
  | [] => Except.ok none
  | a :: l => do
    let b ← p a
    if b then Except.ok (some a) else findE p l

/-- One associativity test `bin_op((a, bin_op((b, c)))) == bin_op((bin_op((a, b)), c))`,
with the source's evaluation order of the four applications. -/
def assocTest {α : Type} (eq : α → α → Bool) (f : PyFunc (α × α) α)
    (t : α × α × α) : Except PyErr Bool := do
  let bc ← f.apply (peq eq eq) (t.2.1, t.2.2)
  let l ← f.apply (peq eq eq) (t.1, bc)
  let ab ← f.apply (peq eq eq) (t.1, t.2.1)
  let r ← f.apply (peq eq eq) (ab, t.2.2)
  pure (eq l r)

/-- `Group.__init__`: type checks on the operation's codomain and domain,
exhaustive associativity check, search for a (left) identity, check of
(right) inverses with respect to the found identity, then the cached
abelian-ness; any failure is the corresponding exception. -/
def mkGroup {α : Type} (eq : α → α → Bool) (G : List α)
    (bin_op : PyFunc (α × α) α) : Except PyErr (PyGroup α) := do
  -- "binary operation must have codomain equal to G"
  if !(aseteq eq bin_op.codomain G) then throw PyErr.typeError
  -- "binary operation must have domain equal to G * G"
  else if !(aseteq (peq eq eq) bin_op.domain (aprod G G)) then throw PyErr.typeError
  else do
    -- associativity over all triples, in itertools.product order
    let assocOk ← allE (assocTest eq bin_op)
      ((aprod G (aprod G G)).map (fun t => (t.1, t.2.1, t.2.2)))
    if !assocOk then throw PyErr.valueError
    else do
      -- find the identity (first e with bin_op((e, a)) == a for all a)
      let ident ← findE
        (fun e => allE (fun a => do
          let v ← bin_op.apply (peq eq eq) (e, a)
          pure (eq v a)) G) G
      match ident with
      | none => throw PyErr.valueError
      | some e0 => do
        -- test for inverses: every a has some b with bin_op((a, b)) == e0
        let invOk ← allE (fun a => anyE (fun b => do
          let v ← bin_op.apply (peq eq eq) (a, b)
          pure (eq v e0)) G) G
        if !invOk then throw PyErr.valueError
        else do
          let ab ← allE (fun p => do
            let v₁ ← bin_op.apply (peq eq eq) (p.1, p.2)
            let v₂ ← bin_op.apply (peq eq eq) (p.2, p.1)
            pure (eq v₁ v₂)) (aprod G G)
          pure { Set := G, bin_op := bin_op, e := e0, abelian := ab }

/-- `GroupElem.__mul__` between two wrapped elements of the same group:
`bin_op((a, b))` through the domain-checked `Function` application. -/
def emul {α : Type} (eq : α → α → Bool) (H : PyGroup α) (a b : α) :
    Except PyErr α :=
  H.bin_op.apply (peq eq eq) (a, b)

/-- `Group.__iter__`: the identity first, then the remaining elements in
`group_elems` order. -/
def iterOrder {α : Type} (eq : α → α → Bool) (H : PyGroup α) : List α :=
  H.e :: H.Set.filter (fun g => !(eq g H.e))

/-- `Group.__len__`. -/
def glen {α : Type} (H : PyGroup α) : Nat := H.Set.length

/-- `Group.inverse`: `TypeError` if the argument is not a group element, then
a scan in iteration order for the first `a` with `g * a == e`; the scan
cannot fail for a constructed group, but the source's `RuntimeError`
fall-through is kept. -/
def ginverse {α : Type} (eq : α → α → Bool) (H : PyGroup α) (g : α) :
    Except PyErr α := do
  if !(amem eq g H.Set) then throw PyErr.typeError
  else do
    let r ← findE (fun a => do
      let v ← emul eq H g a
      pure (eq v H.e)) (iterOrder eq H)
    match r with
    | some a => pure a
    | none => throw PyErr.runtimeError

/-- `Zn(n)`: the cyclic group of order `n`, carrier `range(n)`, operation
`(x + y) % n`. -/
def ZnF (n : Nat) : PyFunc (Nat × Nat) Nat :=
  { domain := aprod (List.range n) (List.range n)
    codomain := List.range n
    rule := fun x => (x.1 + x.2) % n }

def Zn (n : Nat) : Except PyErr (PyGroup Nat) :=
  mkGroup Nat.beq (List.range n) (ZnF n)

/-! ## `GroupElem.__pow__` -/

/-- The dynamic type of the exponent: Python `int` or `float`.  `n / 2` on two
Python 3 ints is *true division* and produces a `float`, which the model
records exactly as a rational. -/
inductive PyNum where
  | int : Int → PyNum
  | float : Rat → PyNum

/-- `GroupElem.__pow__`: `isinstance(n, int)` fails on a float; `n == 0`
yields the identity; `n < 0` dispatches to `inverse` then the positive power;
odd `n` to `self * (self ** (n - 1))`; even `n` to `(self * self) ** (n / 2)`
where `n / 2` is Python 3 true division. -/
def gpow {α : Type} (eq : α → α → Bool) (H : PyGroup α) (g : α) (n : PyNum) :
    Except PyErr α :=
  match n with
  | .float _ => throw PyErr.typeError
  | .int n =>
    if n = 0 then pure H.e
    else if n < 0 then do
      let i ← ginverse eq H g
      gpow eq H i (.int (-n))
    else if n % 2 = 1 then do
      let p ← gpow eq H g (.int (n - 1))
      emul eq H g p
    else do
      let s ← emul eq H g g
      gpow eq H s (.float ((n : Rat) / 2))
termination_by
  match n with
  | .float _ => 0
  | .int n => 2 * n.natAbs + (if n < 0 then 1 else 0)
decreasing_by
  all_goals first
    | (simp only [Int.natAbs_neg]; split_ifs <;> omega)
    | (split_ifs <;> omega)

/-! ## `Group.generate`: closure of a generating set -/

/-- Monadic `map` (a Python comprehension whose body may raise). -/
def mapE {α β : Type} (f : α → Except PyErr β) : List α → Except PyErr (List β)
  | [] => Except.ok []
  | a :: l => do
    let b ← f a
    let r ← mapE f l
    pure (b :: r)

/-- Monadic filter (a Python comprehension with an `if` clause). -/
def filterE {α : Type} (p : α → Except PyErr Bool) : List α → Except PyErr (List α)
  | [] => Except.ok []
  | a :: l => do
    let b ← p a
    let r ← filterE p l
    pure (if b then a :: r else r)

/-- The `while True` closure loop of `Group.generate`:
`newG = oldG | AlgSet(a * b for a, b in product(oldG, oldG))` until
`oldG == newG`.  The source loop is unbounded; fuel exhaustion is the model
of non-termination. -/
def closureLoop {α : Type} (eq : α → α → Bool) (H : PyGroup α) :
    Nat → List α → Except PyErr (List α)
  | 0, _ => throw PyErr.nonTermination
  | fuel + 1, oldG => do
    let prods ← mapE (fun p => emul eq H p.1 p.2) (aprod oldG oldG)
    let newG := aunion eq oldG prods
    if aseteq eq oldG newG then pure oldG else closureLoop eq H fuel newG

/-- `Group.generate` on a collection of (wrapped) elements, given by their
values: deduplicate, check containment (`ValueError`), check non-emptiness
(`ValueError`), run the closure loop, then construct the subgroup with the
domain-restricted operation (full re-verification by `mkGroup`). -/
def generate {α : Type} (eq : α → α → Bool) (H : PyGroup α) (elems : List α) :
    Except PyErr (PyGroup α) := do
  let elems := adedup eq elems
  if !(asubset eq elems H.Set) then throw PyErr.valueError
  else if elems.length == 0 then throw PyErr.valueError
  else do
    let cl ← closureLoop eq H (glen H + 1) elems
    mkGroup eq cl (H.bin_op.new_domains (aprod cl cl) cl)

/-! ## Subgroup and normality tests, quotient -/

/-- `Group.__le__`: subset of the carrier and pointwise agreement of the two
operations on all pairs (short-circuiting: the operations are only applied
when the subset test holds). -/
def gle {α : Type} (eq : α → α → Bool) (H K : PyGroup α) : Except PyErr Bool :=
  if !(asubset eq H.Set K.Set) then pure false
  else allE (fun p => do
    let v₁ ← H.bin_op.apply (peq eq eq) p
    let v₂ ← K.bin_op.apply (peq eq eq) p
    pure (eq v₁ v₂)) (aprod H.Set H.Set)

/-- `GroupElem.__mul__` between elements wrapped in possibly different
groups: try the left operand's group operation; on the out-of-domain error
(`TypeError` from `Function.__call__`, caught by `__mul__`), fall back to
`__rmul__`, which applies the right operand's group operation to the same
ordered pair. -/
def gemul {α : Type} (eq : α → α → Bool) (Hg Hh : PyGroup α) (g h : α) :
    Except PyErr α :=
  match Hg.bin_op.apply (peq eq eq) (g, h) with
  | Except.error PyErr.domainError => Hh.bin_op.apply (peq eq eq) (g, h)
  | r => r

/-- `N.is_normal_subgroup(H)`: `N ≤ H` and, for every `g` in `H` (iteration
order), set equality of the left coset `{g*h : h in N}` and the right coset
`{h*g : h in N}` (both iterating `N` via `__iter__`). -/
def isNormal {α : Type} (eq : α → α → Bool) (N H : PyGroup α) :
    Except PyErr Bool := do
  let le ← gle eq N H
  if !le then pure false
  else allE (fun g => do
    let l ← mapE (fun h => gemul eq H N g h) (iterOrder eq N)
    let r ← mapE (fun h => gemul eq N H h g) (iterOrder eq N)
    pure (aseteq eq (adedup eq l) (adedup eq r))) (iterOrder eq H)

/-- The body of `Group.__div__` (quotient group): check normality
(`ValueError` otherwise), build the `AlgSet` of left cosets, and construct a
group of cosets whose operation multiplies an arbitrary representative
(`pick`) of the first coset with every element of the second.  The inner
`bin_op` applications use the raw rule: their domain checks succeed on every
reachable argument once normality holds (both factors lie in `H.Set`). -/
def gdiv {α : Type} (eq : α → α → Bool) (H N : PyGroup α) :
    Except PyErr (PyGroup (List α)) := do
  let nrm ← isNormal eq N H
  if !nrm then throw PyErr.valueError
  else
    let cosets := adedup (aseteq eq)
      (H.Set.map (fun g => adedup eq (N.Set.map (fun h => H.bin_op.rule (g, h)))))
    let mulc : PyFunc (List α × List α) (List α) :=
      { domain := aprod cosets cosets
        codomain := cosets
        rule := fun x =>
          match apick x.1 with
          | some h => adedup eq (x.2.map (fun g => H.bin_op.rule (h, g)))
          | none => [] }
    mkGroup (aseteq eq) cosets mulc

/-! ## `Group.generators` -/

/-- The `while len(H) < len(self)` loop of `Group.generators`: append an
arbitrary not-yet-generated element (`pick` of the set difference) and
regenerate.  Fueled; the source loop is bounded by the strict growth of `H`. -/
def generatorsLoop {α : Type} (eq : α → α → Bool) (H : PyGroup α) :
    Nat → List α → PyGroup α → Except PyErr (List α)
  | 0, _, _ => throw PyErr.nonTermination
  | fuel + 1, result, Hsub =>
    if glen Hsub < glen H then do
      match apick (adiff eq H.Set Hsub.Set) with
      | none => throw PyErr.runtimeError
      | some g => do
        let result := result ++ [g]
        let Hsub ← generate eq H result
        generatorsLoop eq H fuel result Hsub
    else pure result

/-- `Group.generators`: greedy generator discovery seeded with the identity;
the identity is dropped from the result unless the group is trivial. -/
def generators {α : Type} (eq : α → α → Bool) (H : PyGroup α) :
    Except PyErr (List α) := do
  let result := [H.e]
  let Hsub ← generate eq H result
  let r ← generatorsLoop eq H (glen H + 1) result Hsub
  pure (if glen H != 1 then r.drop 1 else r)

/-! ## `Group.subgroups` -/

/-- `Group.__eq__` (without the identity shortcut): equal underlying sets and
equal binary operations, where `Function.__eq__` compares domains and
codomains as sets and the rules pointwise on the domain. -/
def groupEqB {α : Type} (eq : α → α → Bool) (H K : PyGroup α) : Bool :=
  aseteq eq H.Set K.Set && funcEq (peq eq eq) eq H.bin_op K.bin_op

/-- The breadth-first closure loop of `Group.subgroups`: extend every known
subgroup by every group element outside it, union into the known set, stop at
a fixed point.  Fueled model of the unbounded `while True` loop. -/
def subgroupsLoop {α : Type} (eq : α → α → Bool) (H : PyGroup α) :
    Nat → List (PyGroup α) → Except PyErr (List (PyGroup α))
  | 0, _ => throw PyErr.nonTermination
  | fuel + 1, old => do
    let fresh ← mapE (fun p => generate eq H (p.1.Set ++ [p.2]))
      (old.flatMap (fun sg => (iterOrder eq H).filterMap
        (fun g => if amem eq g sg.Set then none else some (sg, g))))
    let newSgs := aunion (groupEqB eq) old fresh
    if aseteq (groupEqB eq) old newSgs then pure old
    else subgroupsLoop eq H fuel newSgs

/-- `Group.subgroups`: start from the trivial subgroup generated by the
identity and run the breadth-first closure. -/
def subgroups {α : Type} (eq : α → α → Bool) (H : PyGroup α) :
    Except PyErr (List (PyGroup α)) := do
  let triv ← generate eq H [H.e]
  subgroupsLoop eq H (2 ^ glen H + 1) [triv]

/-! ## `GroupHomomorphism` -/

/-- A constructed `GroupHomomorphism`.  The mapping is partial at the Python
level (`find_isomorphism` passes a dict lookup that can raise `KeyError`), so
the model's `function` returns `Except`. -/
structure PyHom (α β : Type) where
  domain : PyGroup α
  codomain : PyGroup β
  function : α → Except PyErr β

/-- `GroupHomomorphism.__init__`: every image must lie in the codomain
(`TypeError` otherwise), and the homomorphism law `f(a*b) == f(a)*f(b)` must
hold on all pairs (`ValueError` otherwise); iteration over a `Group` is
`__iter__` order. -/
def mkHom {α β : Type} (eqa : α → α → Bool) (eqb : β → β → Bool)
    (dom : PyGroup α) (cod : PyGroup β) (f : α → Except PyErr β) :
    Except PyErr (PyHom α β) := do
  let ok₁ ← allE (fun g => do
    let v ← f g
    pure (amem eqb v cod.Set)) (iterOrder eqa dom)
  if !ok₁ then throw PyErr.typeError
  else do
    let ok₂ ← allE (fun p => do
      let ab ← emul eqa dom p.1 p.2
      let l ← f ab
      let fa ← f p.1
      let fb ← f p.2
      let r ← emul eqb cod fa fb
      pure (eqb l r)) (aprod (iterOrder eqa dom) (iterOrder eqa dom))
    if !ok₂ then throw PyErr.valueError
    else pure { domain := dom, codomain := cod, function := f }

/-- `GroupHomomorphism.kernel`: the elements mapping to the codomain's
identity, constructed as a group with the domain-restricted operation. -/
def kernel {α β : Type} (eqa : α → α → Bool) (eqb : β → β → Bool)
    (h : PyHom α β) : Except PyErr (PyGroup α) := do
  let l ← filterE (fun g => do
    let v ← h.function g
    pure (eqb v h.codomain.e)) (iterOrder eqa h.domain)
  let G := adedup eqa l
  mkGroup eqa G (h.domain.bin_op.new_domains (aprod G G) G)

/-- `GroupHomomorphism.image`.  Modelled from the spec: `Function._image` is
in the missing `Function.py`; spec 3 and 4.9 define the image as the
mapping's range over the domain. -/
def image {α β : Type} (eqa : α → α → Bool) (eqb : β → β → Bool)
    (h : PyHom α β) : Except PyErr (PyGroup β) := do
  let l ← mapE h.function (iterOrder eqa h.domain)
  let G := adedup eqb l
  mkGroup eqb G (h.codomain.bin_op.new_domains (aprod G G) G)

/-! ## `Group.find_isomorphism` -/

/-- Ordered dictionary lookup (`func[x]`): `KeyError` when absent. -/
def dlookup {α β : Type} (eq : α → α → Bool) (d : List (α × β)) (x : α) :
    Except PyErr β :=
  match d.find? (fun p => eq p.1 x) with
  | some p => pure p.2
  | none => throw PyErr.keyError

/-- Ordered dictionary insertion: overwrite in place if the key is present,
append otherwise (Python dict assignment semantics). -/
def dinsert {α β : Type} (eq : α → α → Bool) (d : List (α × β)) (k : α) (v : β) :
    List (α × β) :=
  if d.any (fun p => eq p.1 k) then
    d.map (fun p => if eq p.1 k then (k, v) else p)
  else d ++ [(k, v)]

/-- `dict(zip(A, B))`. -/
def dzip {α β : Type} (eq : α → α → Bool) : List α → List β → List (α × β)
  | a :: as', b :: bs => dinsert eq (dzip eq as' bs) a b
  | _, _ => []

/-- One `for g, h in itertools.product(func, func)` pass of the isomorphism
search: accumulate forced extensions (`noobs`) and stop at the first
counterexample to the homomorphism law. -/
def isoPassAux {α β : Type} (eqa : α → α → Bool) (eqb : β → β → Bool)
    (Hs : PyGroup α) (Ho : PyGroup β) (func : List (α × β)) :
    List (α × α) → List (α × β) → Except PyErr (List (α × β) × Bool)
  | [], noobs => pure (noobs, false)
  | (g, h) :: rest, noobs => do
    let gh ← emul eqa Hs g h
    match (dlookup eqa func gh).toOption with
    | some v => do
      let fg ← dlookup eqa func g
      let fh ← dlookup eqa func h
      let prod ← emul eqb Ho fg fh
      if !(eqb prod v) then pure (noobs, true)
      else isoPassAux eqa eqb Hs Ho func rest noobs
    | none => do
      let fg ← dlookup eqa func g
      let fh ← dlookup eqa func h
      let prod ← emul eqb Ho fg fh
      isoPassAux eqa eqb Hs Ho func rest (dinsert eqa noobs gh prod)

/-- One full pass over the current mapping's key pairs. -/
def isoPass {α β : Type} (eqa : α → α → Bool) (eqb : β → β → Bool)
    (Hs : PyGroup α) (Ho : PyGroup β) (func : List (α × β)) :
    Except PyErr (List (α × β) × Bool) :=
  isoPassAux eqa eqb Hs Ho func
    (aprod (func.map Prod.fst) (func.map Prod.fst)) []

/-- The `while not counterexample` extension loop for one candidate generator
assignment: `some func` on success (the mapping covers the whole first group
with no counterexample), `none` when the candidate is abandoned.  The source
loop is unbounded; fuel exhaustion is the model of non-termination (it really
occurs: see the right-zero groups below). -/
def isoExtend {α β : Type} (eqa : α → α → Bool) (eqb : β → β → Bool)
    (Hs : PyGroup α) (Ho : PyGroup β) :
    Nat → List (α × β) → Except PyErr (Option (List (α × β)))
  | 0, _ => throw PyErr.nonTermination
  | fuel + 1, func => do
    let pr ← isoPass eqa eqb Hs Ho func
    let noobs := pr.1
    let cex := pr.2
    if func.length == glen Hs then
      if cex then pure none else pure (some func)
    else
      let imagelen := (adedup eqb (noobs.map Prod.snd ++ func.map Prod.snd)).length
      let cex := cex || !(imagelen == noobs.length + func.length)
      let func := func ++ noobs
      if cex then pure none else isoExtend eqa eqb Hs Ho fuel func

/-- All arrangements (ordered selections without repetition) of `r` elements
of a list, in `itertools.permutations` order (lexicographic by index). -/
def arrangements {β : Type} : Nat → List β → List (List β)
  | 0, _ => [[]]
  | r + 1, l =>
    l.enum.flatMap (fun p =>
      (arrangements r (l.eraseIdx p.1)).map (fun t => p.2 :: t))

/-- The `for B in itertools.permutations(other, len(A))` candidate loop. -/
def isoCandidates {α β : Type} (eqa : α → α → Bool) (eqb : β → β → Bool)
    (Hs : PyGroup α) (Ho : PyGroup β) (A : List α) :
    List (List β) → Except PyErr (Option (PyHom α β))
  | [] => pure none
  | B :: rest => do
    let func := dzip eqa A B
    let r ← isoExtend eqa eqb Hs Ho (glen Hs + 2) func
    match r with
    | some func => do
      let h ← mkHom eqa eqb Hs Ho (fun x => dlookup eqa func x)
      pure (some h)
    | none => isoCandidates eqa eqb Hs Ho A rest

/-- `Group.find_isomorphism`: fast rejection on order or abelian-ness, then
the backtracking search over candidate images of a minimal generating set. -/
def find_isomorphism {α β : Type} (eqa : α → α → Bool) (eqb : β → β → Bool)
    (Hs : PyGroup α) (Ho : PyGroup β) : Except PyErr (Option (PyHom α β)) := do
  if !(glen Hs == glen Ho) || !(Hs.abelian == Ho.abelian) then pure none
  else do
    let A ← generators eqa Hs
    isoCandidates eqa eqb Hs Ho A (arrangements A.length (iterOrder eqb Ho))

/-- `Group.is_isomorphic`: the boolean form of the search. -/
def is_isomorphic {α β : Type} (eqa : α → α → Bool) (eqb : β → β → Bool)
    (Hs : PyGroup α) (Ho : PyGroup β) : Except PyErr Bool := do
  let r ← find_isomorphism eqa eqb Hs Ho
  pure r.isSome

/-! ## The standard families used by the claims -/

/-- Equality of permutation tuples (Python tuple equality). -/
def tupEq (a b : List Nat) : Bool := a == b

/-- `Sn(n)`: the symmetric group; elements are the permutation tuples of
`range(n)` in `itertools.permutations` order, the operation composes by
indexing: `tuple(x[0][j] for j in x[1])`. -/
def SnF (n : Nat) : PyFunc (List Nat × List Nat) (List Nat) :=
  { domain := aprod (arrangements n (List.range n)) (arrangements n (List.range n))
    codomain := arrangements n (List.range n)
    rule := fun x => x.2.map (fun j => x.1.getD j 0) }

def Sn (n : Nat) : Except PyErr (PyGroup (List Nat)) :=
  mkGroup tupEq (arrangements n (List.range n)) (SnF n)

/-- The right-zero magma `op(a, b) = b` on `range(n)`: associative, every
element is a left identity, and every element has a right inverse with
respect to any left identity, so `Group.__init__` accepts it although it is
not a group for `n ≥ 2` (no two-sided identity). -/
def rzF (n : Nat) : PyFunc (Nat × Nat) Nat :=
  { domain := aprod (List.range n) (List.range n)
    codomain := List.range n
    rule := fun x => x.2 }

def rz (n : Nat) : Except PyErr (PyGroup Nat) :=
  mkGroup Nat.beq (List.range n) (rzF n)

/-!
# Proof layer

Everything below is reasoning about the embedding above.  The boolean
equality parameter `eq` is related to propositional equality through
`LawEq`; Python guarantees this for the value types the claims use
(integers, tuples of integers). -/

/-- The boolean equality faithfully decides propositional equality. -/
def LawEq {α : Type} (eq : α → α → Bool) : Prop :=
  ∀ a b : α, eq a b = true ↔ a = b

theorem lawEq_nat : LawEq Nat.beq := by
  intro a b
  simp [Nat.beq_eq]

theorem lawEq_tup : LawEq tupEq := by
  intro a b
  simp [tupEq]

theorem lawEq_refl {α : Type} {eq : α → α → Bool} (h : LawEq eq) (a : α) :
    eq a a = true := (h a a).mpr rfl

theorem lawEq_peq {α β : Type} {eqa : α → α → Bool} {eqb : β → β → Bool}
    (ha : LawEq eqa) (hb : LawEq eqb) : LawEq (peq eqa eqb) := by
  intro p q
  cases p with
  | mk p1 p2 =>
    cases q with
    | mk q1 q2 =>
      simp only [peq, Bool.and_eq_true, Prod.mk.injEq]
      rw [ha, hb]

/-! ## Set-layer lemmas -/

section SetLayer

variable {α : Type} {eq : α → α → Bool}

theorem amem_iff (heq : LawEq eq) {a : α} {l : List α} : amem eq a l = true ↔ a ∈ l := by
  simp only [amem, List.any_eq_true]
  constructor
  · rintro ⟨b, hb, he⟩
    rwa [(heq a b).mp he]
  · intro h
    exact ⟨a, h, lawEq_refl heq a⟩

theorem amem_false_iff (heq : LawEq eq) {a : α} {l : List α} : amem eq a l = false ↔ a ∉ l := by
  rw [← Bool.not_eq_true, not_iff_not]
  exact amem_iff heq

theorem adedupAux_cons_mem {seen : List α} {b : α} {l : List α}
    (hb : seen.any (fun s => eq s b) = true) :
    adedupAux eq seen (b :: l) = adedupAux eq seen l := by
  simp only [adedupAux, hb, if_true]

theorem adedupAux_cons_not_mem {seen : List α} {b : α} {l : List α}
    (hb : seen.any (fun s => eq s b) = false) :
    adedupAux eq seen (b :: l) = b :: adedupAux eq (seen ++ [b]) l := by
  simp only [adedupAux, hb, Bool.false_eq_true, if_false]

theorem mem_adedupAux (heq : LawEq eq) {a : α} {seen l : List α} :
    a ∈ adedupAux eq seen l ↔ a ∈ l ∧ a ∉ seen := by
  induction l generalizing seen with
  | nil => simp [adedupAux]
  | cons b l ih =>
    cases hb : seen.any (fun s => eq s b) with
    | true =>
      have hbseen : b ∈ seen := by
        rcases List.any_eq_true.mp hb with ⟨s, hs, hsb⟩
        rwa [← (heq s b).mp hsb]
      rw [adedupAux_cons_mem hb, ih]
      constructor
      · rintro ⟨h1, h2⟩
        exact ⟨List.mem_cons_of_mem _ h1, h2⟩
      · rintro ⟨h1, h2⟩
        rcases List.mem_cons.mp h1 with rfl | h
        · exact absurd hbseen h2
        · exact ⟨h, h2⟩
    | false =>
      have hbseen : b ∉ seen := by
        intro hmem
        have : seen.any (fun s => eq s b) = true :=
          List.any_eq_true.mpr ⟨b, hmem, lawEq_refl heq b⟩
        rw [hb] at this
        exact Bool.false_ne_true this
      rw [adedupAux_cons_not_mem hb, List.mem_cons]
      rw [ih]
      constructor
      · rintro (rfl | ⟨h1, h2⟩)
        · exact ⟨List.mem_cons_self _ _, hbseen⟩
        · refine ⟨List.mem_cons_of_mem _ h1, fun hs => ?_⟩
          exact h2 (List.mem_append_left _ hs)
      · rintro ⟨h1, h2⟩
        by_cases hab : a = b
        · exact Or.inl hab
        · rcases List.mem_cons.mp h1 with rfl | h
          · exact absurd rfl hab
          · refine Or.inr ⟨h, fun hs => ?_⟩
            rcases List.mem_append.mp hs with hs | hs
            · exact h2 hs
            · exact hab (List.mem_singleton.mp hs)

theorem mem_adedup (heq : LawEq eq) {a : α} {l : List α} : a ∈ adedup eq l ↔ a ∈ l := by
  simp [adedup, mem_adedupAux heq]

theorem nodup_adedupAux (heq : LawEq eq) {seen l : List α} : (adedupAux eq seen l).Nodup := by
  induction l generalizing seen with
  | nil => simp [adedupAux]
  | cons b l ih =>
    cases hb : seen.any (fun s => eq s b) with
    | true => rw [adedupAux_cons_mem hb]; exact ih
    | false =>
      rw [adedupAux_cons_not_mem hb, List.nodup_cons]
      refine ⟨fun hmem => ?_, ih⟩
      have := (mem_adedupAux heq).mp hmem
      exact this.2 (List.mem_append_right _ (List.mem_singleton.mpr rfl))

theorem nodup_adedup (heq : LawEq eq) {l : List α} : (adedup eq l).Nodup :=
  nodup_adedupAux heq

theorem asubset_iff (heq : LawEq eq) {l₁ l₂ : List α} : asubset eq l₁ l₂ = true ↔ l₁ ⊆ l₂ := by
  simp only [asubset, List.all_eq_true]
  constructor
  · intro h a ha
    exact (amem_iff heq).mp (h a ha)
  · intro h a ha
    exact (amem_iff heq).mpr (h ha)

theorem aseteq_iff (heq : LawEq eq) {l₁ l₂ : List α} :
    aseteq eq l₁ l₂ = true ↔ (∀ a, a ∈ l₁ ↔ a ∈ l₂) := by
  simp only [aseteq, Bool.and_eq_true, asubset_iff heq]
  constructor
  · rintro ⟨h1, h2⟩ a
    exact ⟨fun h => h1 h, fun h => h2 h⟩
  · intro h
    exact ⟨fun a ha => (h a).mp ha, fun a ha => (h a).mpr ha⟩

theorem mem_aunion (heq : LawEq eq) {a : α} {l₁ l₂ : List α} :
    a ∈ aunion eq l₁ l₂ ↔ a ∈ l₁ ∨ a ∈ l₂ := by
  simp [aunion, mem_adedup heq]

theorem nodup_aunion (heq : LawEq eq) {l₁ l₂ : List α} : (aunion eq l₁ l₂).Nodup :=
  nodup_adedup heq

theorem mem_adiff (heq : LawEq eq) {a : α} {l₁ l₂ : List α} :
    a ∈ adiff eq l₁ l₂ ↔ a ∈ l₁ ∧ a ∉ l₂ := by
  simp [adiff, List.mem_filter, amem_false_iff heq, ← Bool.not_eq_true,
    amem_iff heq]

theorem mem_aprod {β : Type} {p : α × β} {l₁ : List α} {l₂ : List β} :
    p ∈ aprod l₁ l₂ ↔ p.1 ∈ l₁ ∧ p.2 ∈ l₂ := by
  cases p with
  | mk a b => simp [aprod, List.mem_flatMap, List.mem_map]

end SetLayer

/-! ## Transfer lemmas: the monadic combinators on non-raising bodies -/

theorem ok_bind {α β : Type} (a : α) (f : α → Except PyErr β) :
    (Except.ok a >>= f : Except PyErr β) = f a := rfl

theorem error_bind {α β : Type} (e : PyErr) (f : α → Except PyErr β) :
    (Except.error e >>= f : Except PyErr β) = Except.error e := rfl

theorem allE_ok {α : Type} {p : α → Except PyErr Bool} {q : α → Bool}
    {l : List α} (h : ∀ a ∈ l, p a = Except.ok (q a)) :
    allE p l = Except.ok (l.all q) := by
  induction l with
  | nil => simp [allE]
  | cons a l ih =>
    have ha := h a (List.mem_cons_self _ _)
    rw [allE, ha, ok_bind, List.all_cons]
    cases hq : q a with
    | true =>
      simp only [if_true, Bool.true_and]
      exact ih (fun b hb => h b (List.mem_cons_of_mem _ hb))
    | false => simp

theorem anyE_ok {α : Type} {p : α → Except PyErr Bool} {q : α → Bool}
    {l : List α} (h : ∀ a ∈ l, p a = Except.ok (q a)) :
    anyE p l = Except.ok (l.any q) := by
  induction l with
  | nil => simp [anyE]
  | cons a l ih =>
    have ha := h a (List.mem_cons_self _ _)
    rw [anyE, ha, ok_bind, List.any_cons]
    cases hq : q a with
    | true => simp
    | false =>
      simp only [if_false, Bool.false_or, Bool.false_eq_true]
      exact ih (fun b hb => h b (List.mem_cons_of_mem _ hb))

theorem findE_ok {α : Type} {p : α → Except PyErr Bool} {q : α → Bool}
    {l : List α} (h : ∀ a ∈ l, p a = Except.ok (q a)) :
    findE p l = Except.ok (l.find? q) := by
  induction l with
  | nil => simp [findE, List.find?]
  | cons a l ih =>
    have ha := h a (List.mem_cons_self _ _)
    rw [findE, ha, ok_bind]
    cases hq : q a with
    | true => simp [List.find?_cons_of_pos _ hq]
    | false =>
      rw [List.find?_cons_of_neg _ (by simp [hq])]
      simp only [Bool.false_eq_true, if_false]
      exact ih (fun b hb => h b (List.mem_cons_of_mem _ hb))

theorem mapE_ok {α β : Type} {p : α → Except PyErr β} {q : α → β}
    {l : List α} (h : ∀ a ∈ l, p a = Except.ok (q a)) :
    mapE p l = Except.ok (l.map q) := by
  induction l with
  | nil => simp [mapE]
  | cons a l ih =>
    have ha := h a (List.mem_cons_self _ _)
    rw [mapE, ha, ok_bind, ih (fun b hb => h b (List.mem_cons_of_mem _ hb)),
      List.map_cons]
    rfl

theorem filterE_ok {α : Type} {p : α → Except PyErr Bool} {q : α → Bool}
    {l : List α} (h : ∀ a ∈ l, p a = Except.ok (q a)) :
    filterE p l = Except.ok (l.filter q) := by
  induction l with
  | nil => simp [filterE, List.filter]
  | cons a l ih =>
    have ha := h a (List.mem_cons_self _ _)
    rw [filterE, ha, ok_bind, ih (fun b hb => h b (List.mem_cons_of_mem _ hb)),
      List.filter_cons]
    cases hq : q a with
    | true => simp
    | false => simp

theorem allE_true_iff {α : Type} {p : α → Except PyErr Bool} {l : List α} :
    allE p l = Except.ok true ↔ ∀ a ∈ l, p a = Except.ok true := by
  induction l with
  | nil => simp [allE]
  | cons a l ih =>
    constructor
    · intro h
      cases hpa : p a with
      | error e => rw [allE, hpa, error_bind] at h; exact absurd h (by simp)
      | ok b =>
        rw [allE, hpa, ok_bind] at h
        cases b with
        | false => exact absurd h (by simp)
        | true =>
          simp only [if_true] at h
          intro x hx
          rcases List.mem_cons.mp hx with rfl | hx
          · exact hpa
          · exact ih.mp h x hx
    · intro h
      rw [allE, h a (List.mem_cons_self _ _), ok_bind]
      simp only [if_true]
      exact ih.mpr (fun x hx => h x (List.mem_cons_of_mem _ hx))

/-! ## `mkGroup` characterization -/

/-- The (left) identity found by the construction scan: the first element of
`G` that is a left identity for the rule. -/
def leftIdFind {α : Type} (eq : α → α → Bool) (G : List α)
    (f : PyFunc (α × α) α) : Option α :=
  G.find? (fun e => G.all (fun a => eq (f.rule (e, a)) a))

/-- The triple list scanned by the associativity check. -/
def triples {α : Type} (G : List α) : List (α × α × α) :=
  (aprod G (aprod G G)).map (fun t => (t.1, t.2.1, t.2.2))

/-- The pure value of the associativity scan. -/
def assocB {α : Type} (eq : α → α → Bool) (G : List α)
    (f : PyFunc (α × α) α) : Bool :=
  (triples G).all (fun t =>
    eq (f.rule (t.1, f.rule (t.2.1, t.2.2))) (f.rule (f.rule (t.1, t.2.1), t.2.2)))

/-- The pure value of the inverse scan relative to an identity. -/
def invB {α : Type} (eq : α → α → Bool) (G : List α)
    (f : PyFunc (α × α) α) (e₀ : α) : Bool :=
  G.all (fun a => G.any (fun b => eq (f.rule (a, b)) e₀))

/-- The pure value of the abelian scan. -/
def abelB {α : Type} (eq : α → α → Bool) (G : List α)
    (f : PyFunc (α × α) α) : Bool :=
  (aprod G G).all (fun p => eq (f.rule (p.1, p.2)) (f.rule (p.2, p.1)))

theorem mem_triples {α : Type} {t : α × α × α} {G : List α} :
    t ∈ triples G ↔ t.1 ∈ G ∧ t.2.1 ∈ G ∧ t.2.2 ∈ G := by
  cases t with
  | mk a bc =>
    cases bc with
    | mk b c =>
      simp only [triples, List.mem_map]
      constructor
      · rintro ⟨u, hu, hmap⟩
        have h1 := (mem_aprod.mp hu).1
        have h2 := mem_aprod.mp (mem_aprod.mp hu).2
        cases hmap
        exact ⟨h1, h2.1, h2.2⟩
      · rintro ⟨ha, hb, hc⟩
        exact ⟨(a, (b, c)), mem_aprod.mpr ⟨ha, mem_aprod.mpr ⟨hb, hc⟩⟩, rfl⟩

section MkGroupSpec

variable {α : Type} {eq : α → α → Bool} {G : List α} {f : PyFunc (α × α) α}

theorem apply_ok (heq : LawEq eq)
    (hdom : aseteq (peq eq eq) f.domain (aprod G G) = true)
    {a b : α} (ha : a ∈ G) (hb : b ∈ G) :
    f.apply (peq eq eq) (a, b) = Except.ok (f.rule (a, b)) := by
  have hmem : (a, b) ∈ f.domain :=
    ((aseteq_iff (lawEq_peq heq heq)).mp hdom (a, b)).mpr (mem_aprod.mpr ⟨ha, hb⟩)
  rw [PyFunc.apply, if_pos ((amem_iff (lawEq_peq heq heq)).mpr hmem)]

theorem apply_error (heq : LawEq eq)
    (hdom : aseteq (peq eq eq) f.domain (aprod G G) = true)
    {a b : α} (hb : b ∉ G) :
    f.apply (peq eq eq) (a, b) = Except.error PyErr.domainError := by
  have hmem : (a, b) ∉ f.domain := by
    intro hmem
    exact hb (mem_aprod.mp (((aseteq_iff (lawEq_peq heq heq)).mp hdom (a, b)).mp hmem)).2
  rw [PyFunc.apply, if_neg]
  intro hc
  exact hmem ((amem_iff (lawEq_peq heq heq)).mp hc)

theorem assocTest_ok (heq : LawEq eq)
    (hdom : aseteq (peq eq eq) f.domain (aprod G G) = true)
    (hclosed : ∀ a ∈ G, ∀ b ∈ G, f.rule (a, b) ∈ G)
    {t : α × α × α} (ht : t ∈ triples G) :
    assocTest eq f t = Except.ok
      (eq (f.rule (t.1, f.rule (t.2.1, t.2.2))) (f.rule (f.rule (t.1, t.2.1), t.2.2))) := by
  obtain ⟨h1, h2, h3⟩ := mem_triples.mp ht
  rw [assocTest, apply_ok heq hdom h2 h3, ok_bind,
    apply_ok heq hdom h1 (hclosed _ h2 _ h3), ok_bind,
    apply_ok heq hdom h1 h2, ok_bind,
    apply_ok heq hdom (hclosed _ h1 _ h2) h3, ok_bind]
  rfl

/-- Under the type checks and closedness, `mkGroup` runs the pure checks. -/
theorem mkGroup_run (heq : LawEq eq)
    (hcod : aseteq eq f.codomain G = true)
    (hdom : aseteq (peq eq eq) f.domain (aprod G G) = true)
    (hclosed : ∀ a ∈ G, ∀ b ∈ G, f.rule (a, b) ∈ G) :
    mkGroup eq G f =
      if assocB eq G f then
        match leftIdFind eq G f with
        | none => Except.error PyErr.valueError
        | some e₀ =>
          if invB eq G f e₀ then
            Except.ok { Set := G, bin_op := f, e := e₀, abelian := abelB eq G f }
          else Except.error PyErr.valueError
      else Except.error PyErr.valueError := by
  have hassoc : allE (assocTest eq f)
      ((aprod G (aprod G G)).map (fun t => (t.1, t.2.1, t.2.2))) =
      Except.ok (assocB eq G f) := by
    exact allE_ok (fun t ht => assocTest_ok heq hdom hclosed ht)
  have hident : findE
      (fun e => allE (fun a => do
        let v ← f.apply (peq eq eq) (e, a)
        pure (eq v a)) G) G = Except.ok (leftIdFind eq G f) := by
    refine findE_ok (fun e he => ?_)
    refine allE_ok (fun a ha => ?_)
    rw [apply_ok heq hdom he ha, ok_bind]
    rfl
  have hinv : ∀ e₀, allE (fun a => anyE (fun b => do
      let v ← f.apply (peq eq eq) (a, b)
      pure (eq v e₀)) G) G = Except.ok (invB eq G f e₀) := by
    intro e₀
    refine allE_ok (fun a ha => ?_)
    refine anyE_ok (fun b hb => ?_)
    rw [apply_ok heq hdom ha hb, ok_bind]
    rfl
  have habel : allE (fun p : α × α => do
      let v₁ ← f.apply (peq eq eq) (p.1, p.2)
      let v₂ ← f.apply (peq eq eq) (p.2, p.1)
      pure (eq v₁ v₂)) (aprod G G) = Except.ok (abelB eq G f) := by
    refine allE_ok (fun p hp => ?_)
    obtain ⟨h1, h2⟩ := mem_aprod.mp hp
    rw [apply_ok heq hdom h1 h2, ok_bind, apply_ok heq hdom h2 h1, ok_bind]
    rfl
  rw [mkGroup, hcod, hdom]
  simp only [Bool.not_true, Bool.false_eq_true, if_false]
  rw [hassoc, ok_bind]
  cases hA : assocB eq G f with
  | false => simp; rfl
  | true =>
    simp only [Bool.not_true, Bool.false_eq_true, if_false, if_true]
    rw [hident, ok_bind]
    cases hI : leftIdFind eq G f with
    | none => simp; rfl
    | some e₀ =>
      simp only []
      rw [hinv e₀, ok_bind]
      cases hV : invB eq G f e₀ with
      | false => simp; rfl
      | true =>
        simp only [Bool.not_true, Bool.false_eq_true, if_false, if_true]
        rw [habel, ok_bind]
        rfl

end MkGroupSpec

theorem bind_ok_inv {α β : Type} {x : Except PyErr α} {g : α → Except PyErr β}
    {b : β} (h : (x >>= g) = Except.ok b) : ∃ a, x = Except.ok a ∧ g a = Except.ok b := by
  cases x with
  | error e => rw [error_bind] at h; exact absurd h (by simp)
  | ok a => exact ⟨a, rfl, by rwa [ok_bind] at h⟩

/-- The conditions under which `Group.__init__` succeeds, in propositional
form: type checks, closedness of the rule on `G`, associativity, a first
(left) identity in scan order, and a right inverse for every element with
respect to that identity. -/
structure GChecks {α : Type} (eq : α → α → Bool) (G : List α)
    (f : PyFunc (α × α) α) : Prop where
  codEq : aseteq eq f.codomain G = true
  domEq : aseteq (peq eq eq) f.domain (aprod G G) = true
  closed : ∀ a ∈ G, ∀ b ∈ G, f.rule (a, b) ∈ G
  assoc : ∀ a ∈ G, ∀ b ∈ G, ∀ c ∈ G,
    f.rule (a, f.rule (b, c)) = f.rule (f.rule (a, b), c)
  identFound : ∃ e₀, leftIdFind eq G f = some e₀ ∧
    ∀ a ∈ G, ∃ b ∈ G, f.rule (a, b) = e₀

/-- What is true of a `Group` object that came out of a successful
construction. -/
structure IsConstrG {α : Type} (eq : α → α → Bool) (H : PyGroup α) : Prop where
  codEq : aseteq eq H.bin_op.codomain H.Set = true
  domEq : aseteq (peq eq eq) H.bin_op.domain (aprod H.Set H.Set) = true
  closed : ∀ a ∈ H.Set, ∀ b ∈ H.Set, H.bin_op.rule (a, b) ∈ H.Set
  assoc : ∀ a ∈ H.Set, ∀ b ∈ H.Set, ∀ c ∈ H.Set,
    H.bin_op.rule (a, H.bin_op.rule (b, c)) =
      H.bin_op.rule (H.bin_op.rule (a, b), c)
  e_find : leftIdFind eq H.Set H.bin_op = some H.e
  e_mem : H.e ∈ H.Set
  e_left : ∀ a ∈ H.Set, H.bin_op.rule (H.e, a) = a
  inv : ∀ a ∈ H.Set, ∃ b ∈ H.Set, H.bin_op.rule (a, b) = H.e
  abel : H.abelian = true ↔ ∀ a ∈ H.Set, ∀ b ∈ H.Set,
    H.bin_op.rule (a, b) = H.bin_op.rule (b, a)

section MkGroupIff

variable {α : Type} {eq : α → α → Bool} {G : List α} {f : PyFunc (α × α) α}

theorem assocB_iff (heq : LawEq eq) :
    assocB eq G f = true ↔ ∀ a ∈ G, ∀ b ∈ G, ∀ c ∈ G,
      f.rule (a, f.rule (b, c)) = f.rule (f.rule (a, b), c) := by
  simp only [assocB, List.all_eq_true]
  constructor
  · intro h a ha b hb c hc
    exact (heq _ _).mp (h (a, b, c) (mem_triples.mpr ⟨ha, hb, hc⟩))
  · intro h t ht
    obtain ⟨h1, h2, h3⟩ := mem_triples.mp ht
    exact (heq _ _).mpr (h _ h1 _ h2 _ h3)

theorem invB_iff (heq : LawEq eq) {e₀ : α} :
    invB eq G f e₀ = true ↔ ∀ a ∈ G, ∃ b ∈ G, f.rule (a, b) = e₀ := by
  simp only [invB, List.all_eq_true, List.any_eq_true]
  constructor
  · intro h a ha
    obtain ⟨b, hb, he⟩ := h a ha
    exact ⟨b, hb, (heq _ _).mp he⟩
  · intro h a ha
    obtain ⟨b, hb, he⟩ := h a ha
    exact ⟨b, hb, (heq _ _).mpr he⟩

theorem abelB_iff (heq : LawEq eq) :
    abelB eq G f = true ↔ ∀ a ∈ G, ∀ b ∈ G,
      f.rule (a, b) = f.rule (b, a) := by
  simp only [abelB, List.all_eq_true]
  constructor
  · intro h a ha b hb
    exact (heq _ _).mp (h (a, b) (mem_aprod.mpr ⟨ha, hb⟩))
  · intro h p hp
    obtain ⟨h1, h2⟩ := mem_aprod.mp hp
    exact (heq _ _).mpr (h _ h1 _ h2)

theorem leftIdFind_some (heq : LawEq eq) {e₀ : α}
    (h : leftIdFind eq G f = some e₀) :
    e₀ ∈ G ∧ ∀ a ∈ G, f.rule (e₀, a) = a := by
  refine ⟨List.mem_of_find?_eq_some h, ?_⟩
  have := List.find?_some h
  simp only [List.all_eq_true] at this
  intro a ha
  exact (heq _ _).mp (this a ha)

theorem leftIdFind_isSome (heq : LawEq eq) {e₀ : α} (he : e₀ ∈ G)
    (h : ∀ a ∈ G, f.rule (e₀, a) = a) : ∃ e₁, leftIdFind eq G f = some e₁ := by
  rw [leftIdFind]
  have : G.find? (fun e => G.all (fun a => eq (f.rule (e, a)) a)) ≠ none := by
    intro hn
    have := List.find?_eq_none.mp hn e₀ he
    refine this (List.all_eq_true.mpr (fun a ha => (heq _ _).mpr (h a ha)))
  cases hr : G.find? (fun e => G.all (fun a => eq (f.rule (e, a)) a)) with
  | none => exact absurd hr this
  | some e₁ => exact ⟨e₁, rfl⟩

theorem mkGroup_ok_of_checks (heq : LawEq eq) (hc : GChecks eq G f) {e₀ : α}
    (he : leftIdFind eq G f = some e₀) :
    mkGroup eq G f = Except.ok
      { Set := G, bin_op := f, e := e₀, abelian := abelB eq G f } := by
  obtain ⟨e₁, he₁, hinv⟩ := hc.identFound
  have he' : e₁ = e₀ := by
    rw [he₁] at he
    exact Option.some.inj he
  subst he'
  rw [mkGroup_run heq hc.codEq hc.domEq hc.closed,
    if_pos ((assocB_iff heq).mpr hc.assoc), he₁]
  exact if_pos ((invB_iff heq).mpr hinv)

theorem mkGroup_ok_inv (heq : LawEq eq) {H : PyGroup α}
    (h : mkGroup eq G f = Except.ok H) :
    GChecks eq G f ∧ H.Set = G ∧ H.bin_op = f ∧
      leftIdFind eq G f = some H.e ∧ H.abelian = abelB eq G f := by
  -- the two type gates must have passed
  have hcod : aseteq eq f.codomain G = true := by
    by_contra hc
    rw [mkGroup] at h
    rw [Bool.not_eq_true] at hc
    rw [hc] at h
    exact absurd h (by simp [throw, throwThe, MonadExceptOf.throw])
  have hdom : aseteq (peq eq eq) f.domain (aprod G G) = true := by
    by_contra hc
    rw [mkGroup, hcod] at h
    rw [Bool.not_eq_true] at hc
    rw [hc] at h
    exact absurd h (by simp [throw, throwThe, MonadExceptOf.throw])
  -- expose the rest of the computation
  rw [mkGroup, hcod, hdom] at h
  simp only [Bool.not_true, Bool.false_eq_true, if_false] at h
  obtain ⟨assocOk, hassoc, h⟩ := bind_ok_inv h
  have hassocTrue : assocOk = true := by
    cases assocOk with
    | true => rfl
    | false => exact absurd h (by simp [throw, throwThe, MonadExceptOf.throw])
  subst hassocTrue
  simp only [Bool.not_true, Bool.false_eq_true, if_false] at h
  obtain ⟨ident, hident, h⟩ := bind_ok_inv h
  -- the identity search transfers to `leftIdFind`
  have hidentEq : findE
      (fun e => allE (fun a => do
        let v ← f.apply (peq eq eq) (e, a)
        pure (eq v a)) G) G = Except.ok (leftIdFind eq G f) := by
    refine findE_ok (fun e he => ?_)
    refine allE_ok (fun a ha => ?_)
    rw [apply_ok heq hdom he ha, ok_bind]
    rfl
  rw [hidentEq] at hident
  have hident' : ident = leftIdFind eq G f := by
    injection hident with h'
    exact h'.symm
  subst hident'
  cases hfind : leftIdFind eq G f with
  | none =>
    rw [hfind] at h
    exact absurd h (by simp [throw, throwThe, MonadExceptOf.throw])
  | some e₀ =>
    rw [hfind] at h
    obtain ⟨he₀mem, he₀left⟩ := leftIdFind_some heq hfind
    -- closedness: every product appears inside a successful application
    have hclosed : ∀ a ∈ G, ∀ b ∈ G, f.rule (a, b) ∈ G := by
      intro a ha b hb
      have ht : (e₀, a, b) ∈ triples G := mem_triples.mpr ⟨he₀mem, ha, hb⟩
      have := allE_true_iff.mp hassoc _ (by
        simpa [triples] using ht)
      rw [assocTest, apply_ok heq hdom ha hb, ok_bind] at this
      cases happ : f.apply (peq eq eq) (e₀, f.rule (a, b)) with
      | error er => rw [happ, error_bind] at this; exact absurd this (by simp)
      | ok v =>
        have hmem : amem (peq eq eq) (e₀, f.rule (a, b)) f.domain = true := by
          by_contra hm
          rw [Bool.not_eq_true] at hm
          rw [PyFunc.apply, hm] at happ
          exact absurd happ (by simp)
        have : (e₀, f.rule (a, b)) ∈ f.domain :=
          (amem_iff (lawEq_peq heq heq)).mp hmem
        exact (mem_aprod.mp (((aseteq_iff (lawEq_peq heq heq)).mp hdom _).mp this)).2
    -- with closedness the remaining scans transfer to their pure values
    have hassocAllE : allE (assocTest eq f)
        ((aprod G (aprod G G)).map (fun t => (t.1, t.2.1, t.2.2))) =
        Except.ok (assocB eq G f) :=
      allE_ok (fun t ht => assocTest_ok heq hdom hclosed ht)
    have hassocB : assocB eq G f = true := by
      rw [hassocAllE] at hassoc
      exact Except.ok.inj hassoc
    obtain ⟨invOk, hinvOk, h⟩ := bind_ok_inv h
    have hinvAllE : allE (fun a => anyE (fun b => do
        let v ← f.apply (peq eq eq) (a, b)
        pure (eq v e₀)) G) G = Except.ok (invB eq G f e₀) := by
      refine allE_ok (fun a ha => ?_)
      refine anyE_ok (fun b hb => ?_)
      rw [apply_ok heq hdom ha hb, ok_bind]
      rfl
    rw [hinvAllE] at hinvOk
    have hinvOk' : invOk = invB eq G f e₀ := (Except.ok.inj hinvOk).symm
    subst hinvOk'
    have hinvB : invB eq G f e₀ = true := by
      cases hI : invB eq G f e₀ with
      | true => rfl
      | false =>
        rw [hI] at h
        exact absurd h (by simp [throw, throwThe, MonadExceptOf.throw])
    rw [hinvB] at h
    simp only [Bool.not_true, Bool.false_eq_true, if_false] at h
    obtain ⟨ab, hab, h⟩ := bind_ok_inv h
    have habelAllE : allE (fun p : α × α => do
        let v₁ ← f.apply (peq eq eq) (p.1, p.2)
        let v₂ ← f.apply (peq eq eq) (p.2, p.1)
        pure (eq v₁ v₂)) (aprod G G) = Except.ok (abelB eq G f) := by
      refine allE_ok (fun p hp => ?_)
      obtain ⟨h1, h2⟩ := mem_aprod.mp hp
      rw [apply_ok heq hdom h1 h2, ok_bind, apply_ok heq hdom h2 h1, ok_bind]
      rfl
    rw [habelAllE] at hab
    have hab' : ab = abelB eq G f := (Except.ok.inj hab).symm
    subst hab'
    have hH : H = { Set := G, bin_op := f, e := e₀, abelian := abelB eq G f } := by
      have hpure : (pure { Set := G, bin_op := f, e := e₀, abelian := abelB eq G f } :
          Except PyErr (PyGroup α)) =
          Except.ok { Set := G, bin_op := f, e := e₀, abelian := abelB eq G f } := rfl
      rw [hpure] at h
      exact (Except.ok.inj h).symm
    subst hH
    refine ⟨⟨hcod, hdom, hclosed, (assocB_iff heq).mp hassocB,
      ⟨e₀, hfind, (invB_iff heq).mp hinvB⟩⟩, rfl, rfl, rfl, rfl⟩

theorem isConstrG_of_ok (heq : LawEq eq) {H : PyGroup α}
    (h : mkGroup eq G f = Except.ok H) : IsConstrG eq H := by
  obtain ⟨hc, hSet, hop, hfind, habel⟩ := mkGroup_ok_inv heq h
  subst hSet hop
  obtain ⟨hemem, heleft⟩ := leftIdFind_some heq hfind
  obtain ⟨e₁, hfind', hinv'⟩ := hc.identFound
  have : e₁ = H.e := by rw [hfind'] at hfind; injection hfind
  subst this
  exact ⟨hc.codEq, hc.domEq, hc.closed, hc.assoc, hfind, hemem, heleft, hinv',
    by rw [habel]; exact abelB_iff heq⟩

end MkGroupIff

section ErrClassify

variable {α : Type} {eq : α → α → Bool} {G : List α} {f : PyFunc (α × α) α}

theorem mkGroup_codEq_false (hc : aseteq eq f.codomain G = false) :
    mkGroup eq G f = Except.error PyErr.typeError := by
  rw [mkGroup, hc]
  rfl

theorem mkGroup_domEq_false (hc : aseteq eq f.codomain G = true)
    (hd : aseteq (peq eq eq) f.domain (aprod G G) = false) :
    mkGroup eq G f = Except.error PyErr.typeError := by
  rw [mkGroup, hc, hd]
  rfl

theorem mkGroup_valueError (heq : LawEq eq)
    (hcod : aseteq eq f.codomain G = true)
    (hdom : aseteq (peq eq eq) f.domain (aprod G G) = true)
    (hclosed : ∀ a ∈ G, ∀ b ∈ G, f.rule (a, b) ∈ G)
    (hng : ¬ GChecks eq G f) :
    mkGroup eq G f = Except.error PyErr.valueError := by
  rw [mkGroup_run heq hcod hdom hclosed]
  cases hA : assocB eq G f with
  | false => simp
  | true =>
    simp only [if_true]
    cases hI : leftIdFind eq G f with
    | none => rfl
    | some e₀ =>
      cases hV : invB eq G f e₀ with
      | false => simp [hV]
      | true =>
        exact absurd ⟨hcod, hdom, hclosed, (assocB_iff heq).mp hA,
          ⟨e₀, hI, (invB_iff heq).mp hV⟩⟩ hng

end ErrClassify

/-! ## Consequences of construction, and genuine (two-sided) groups -/

section ConstrFacts

variable {α : Type} {eq : α → α → Bool} {H : PyGroup α}

theorem emul_ok (heq : LawEq eq) (hG : IsConstrG eq H) {a b : α}
    (ha : a ∈ H.Set) (hb : b ∈ H.Set) :
    emul eq H a b = Except.ok (H.bin_op.rule (a, b)) :=
  apply_ok heq hG.domEq ha hb

theorem mem_iterOrder (heq : LawEq eq) (hG : IsConstrG eq H) {a : α} :
    a ∈ iterOrder eq H ↔ a ∈ H.Set := by
  simp only [iterOrder, List.mem_cons, List.mem_filter]
  constructor
  · rintro (rfl | ⟨h, _⟩)
    · exact hG.e_mem
    · exact h
  · intro ha
    by_cases hae : a = H.e
    · exact Or.inl hae
    · refine Or.inr ⟨ha, ?_⟩
      simp only [Bool.not_eq_eq_eq_not, Bool.not_true]
      rw [← Bool.not_eq_true]
      intro hc
      exact hae ((heq _ _).mp hc)

theorem nodup_iterOrder (heq : LawEq eq) (hG : IsConstrG eq H)
    (hnd : H.Set.Nodup) : (iterOrder eq H).Nodup := by
  rw [iterOrder, List.nodup_cons]
  constructor
  · intro hc
    have := (List.mem_filter.mp hc).2
    rw [Bool.not_eq_eq_eq_not, Bool.not_true, ← Bool.not_eq_true] at this
    exact this (lawEq_refl heq H.e)
  · exact hnd.filter _

theorem length_iterOrder (heq : LawEq eq) (hG : IsConstrG eq H)
    (hnd : H.Set.Nodup) : (iterOrder eq H).length = H.Set.length := by
  have h1 : (iterOrder eq H).length = 1 + (H.Set.filter (fun g => !(eq g H.e))).length := by
    simp [iterOrder, Nat.add_comm]
  have key : ∀ (z : α) (l : List α), l.Nodup → z ∈ l →
      l.length = 1 + (l.filter (fun g => !(eq g z))).length := by
    intro z l
    induction l with
    | nil => intro _ hel; cases hel
    | cons x l ih =>
      intro hl hel
      rcases List.mem_cons.mp hel with rfl | hel'
      · have hrest : ∀ g ∈ l, (!(eq g z)) = true := by
          intro g hg
          have hgz : g ≠ z := by
            intro hgx
            exact (List.nodup_cons.mp hl).1 (hgx ▸ hg)
          simp only [Bool.not_eq_eq_eq_not, Bool.not_true, ← Bool.not_eq_true]
          intro hc
          exact hgz ((heq _ _).mp hc)
        rw [List.filter_cons]
        have hx : (!(eq z z)) = false := by
          simp [lawEq_refl heq z]
        rw [hx]
        simp only [Bool.false_eq_true, if_false, List.length_cons]
        rw [List.filter_eq_self.mpr hrest]
        omega
      · have hx : (!(eq x z)) = true := by
          have hxz : x ≠ z := by
            intro hxe
            exact (List.nodup_cons.mp hl).1 (hxe ▸ hel')
          simp only [Bool.not_eq_eq_eq_not, Bool.not_true, ← Bool.not_eq_true]
          intro hc
          exact hxz ((heq _ _).mp hc)
        rw [List.filter_cons, hx]
        simp only [if_true, List.length_cons]
        rw [ih (List.nodup_cons.mp hl).2 hel']
        omega
  rw [h1, ← key H.e H.Set hnd hG.e_mem]

/-- Genuineness: the identity found by the construction scan is also a right
identity (this is exactly what the one-sided axiom check does not verify). -/
def TwoSided {α : Type} (H : PyGroup α) : Prop :=
  ∀ a ∈ H.Set, H.bin_op.rule (a, H.e) = a

theorem left_inv_of_right (hG : IsConstrG eq H) (ht : TwoSided H) {a b : α}
    (ha : a ∈ H.Set) (hb : b ∈ H.Set)
    (hab : H.bin_op.rule (a, b) = H.e) :
    H.bin_op.rule (b, a) = H.e := by
  obtain ⟨c, hc, hbc⟩ := hG.inv b hb
  have hba : H.bin_op.rule (b, a) ∈ H.Set := hG.closed b hb a ha
  calc H.bin_op.rule (b, a)
      = H.bin_op.rule (H.bin_op.rule (b, a), H.e) := (ht _ hba).symm
    _ = H.bin_op.rule (H.bin_op.rule (b, a), H.bin_op.rule (b, c)) := by rw [hbc]
    _ = H.bin_op.rule (H.bin_op.rule (H.bin_op.rule (b, a), b), c) := by
        rw [hG.assoc _ hba _ hb _ hc]
    _ = H.bin_op.rule (H.bin_op.rule (b, H.bin_op.rule (a, b)), c) := by
        rw [hG.assoc _ hb _ ha _ hb]
    _ = H.bin_op.rule (H.bin_op.rule (b, H.e), c) := by rw [hab]
    _ = H.bin_op.rule (b, c) := by rw [ht _ hb]
    _ = H.e := hbc

theorem cancel_left (hG : IsConstrG eq H) (ht : TwoSided H) {a x y : α}
    (ha : a ∈ H.Set) (hx : x ∈ H.Set) (hy : y ∈ H.Set)
    (h : H.bin_op.rule (a, x) = H.bin_op.rule (a, y)) : x = y := by
  obtain ⟨b, hb, hab⟩ := hG.inv a ha
  have hba : H.bin_op.rule (b, a) = H.e := left_inv_of_right hG ht ha hb hab
  calc x = H.bin_op.rule (H.e, x) := (hG.e_left x hx).symm
    _ = H.bin_op.rule (H.bin_op.rule (b, a), x) := by rw [hba]
    _ = H.bin_op.rule (b, H.bin_op.rule (a, x)) := (hG.assoc _ hb _ ha _ hx).symm
    _ = H.bin_op.rule (b, H.bin_op.rule (a, y)) := by rw [h]
    _ = H.bin_op.rule (H.bin_op.rule (b, a), y) := hG.assoc _ hb _ ha _ hy
    _ = H.bin_op.rule (H.e, y) := by rw [hba]
    _ = y := hG.e_left y hy

theorem cancel_right (hG : IsConstrG eq H) (ht : TwoSided H) {a x y : α}
    (ha : a ∈ H.Set) (hx : x ∈ H.Set) (hy : y ∈ H.Set)
    (h : H.bin_op.rule (x, a) = H.bin_op.rule (y, a)) : x = y := by
  obtain ⟨b, hb, hab⟩ := hG.inv a ha
  calc x = H.bin_op.rule (x, H.e) := (ht x hx).symm
    _ = H.bin_op.rule (x, H.bin_op.rule (a, b)) := by rw [hab]
    _ = H.bin_op.rule (H.bin_op.rule (x, a), b) := hG.assoc _ hx _ ha _ hb
    _ = H.bin_op.rule (H.bin_op.rule (y, a), b) := by rw [h]
    _ = H.bin_op.rule (y, H.bin_op.rule (a, b)) := (hG.assoc _ hy _ ha _ hb).symm
    _ = H.bin_op.rule (y, H.e) := by rw [hab]
    _ = y := ht y hy

/-- `Group.inverse` on a constructed group: it always returns the first
element `a` (in iteration order) with `g * a == e`, and such an element
exists. -/
theorem ginverse_ok (heq : LawEq eq) (hG : IsConstrG eq H) {g : α}
    (hg : g ∈ H.Set) :
    ∃ a, ginverse eq H g = Except.ok a ∧ a ∈ H.Set ∧
      H.bin_op.rule (g, a) = H.e := by
  have hmem : amem eq g H.Set = true := (amem_iff heq).mpr hg
  have hfindE : findE (fun a => do
      let v ← emul eq H g a
      pure (eq v H.e)) (iterOrder eq H) =
      Except.ok ((iterOrder eq H).find? (fun a => eq (H.bin_op.rule (g, a)) H.e)) := by
    refine findE_ok (fun a ha => ?_)
    rw [emul_ok heq hG hg ((mem_iterOrder heq hG).mp ha), ok_bind]
    rfl
  obtain ⟨b, hb, hgb⟩ := hG.inv g hg
  have hex : ∃ a ∈ iterOrder eq H, (fun a => eq (H.bin_op.rule (g, a)) H.e) a = true :=
    ⟨b, (mem_iterOrder heq hG).mpr hb, (heq _ _).mpr hgb⟩
  cases hf : (iterOrder eq H).find? (fun a => eq (H.bin_op.rule (g, a)) H.e) with
  | none =>
    obtain ⟨a, hao, hpa⟩ := hex
    exact absurd hpa (by
      have := List.find?_eq_none.mp hf a hao
      simpa using this)
  | some a =>
    refine ⟨a, ?_, ?_, ?_⟩
    · rw [ginverse, hmem]
      simp only [Bool.not_true, Bool.false_eq_true, if_false]
      rw [hfindE, ok_bind, hf]
      rfl
    · exact (mem_iterOrder heq hG).mp
        (List.mem_of_find?_eq_some (p := fun a => eq (H.bin_op.rule (g, a)) H.e) hf)
    · exact (heq _ _).mp
        (List.find?_some (p := fun a => eq (H.bin_op.rule (g, a)) H.e) hf)

end ConstrFacts

/-! ## Concrete instances used as witnesses and counterexamples -/

/-- The value of `Zn(1)`. -/
def zn1V : PyGroup Nat :=
  { Set := List.range 1, bin_op := ZnF 1, e := 0, abelian := true }

/-- The value of `Zn(3)`. -/
def zn3V : PyGroup Nat :=
  { Set := List.range 3, bin_op := ZnF 3, e := 0, abelian := true }

/-- The value of `Zn(6)`. -/
def zn6V : PyGroup Nat :=
  { Set := List.range 6, bin_op := ZnF 6, e := 0, abelian := true }

/-- The value of the constructed right-zero structure on two elements. -/
def rz2V : PyGroup Nat :=
  { Set := List.range 2, bin_op := rzF 2, e := 0, abelian := false }

/-- The value of the constructed right-zero structure on three elements. -/
def rz3V : PyGroup Nat :=
  { Set := List.range 3, bin_op := rzF 3, e := 0, abelian := false }

/-- The value of the constructed right-zero structure on five elements. -/
def rz5V : PyGroup Nat :=
  { Set := List.range 5, bin_op := rzF 5, e := 0, abelian := false }

/-- The value of `Sn(3)`. -/
def sn3V : PyGroup (List Nat) :=
  { Set := arrangements 3 (List.range 3), bin_op := SnF 3, e := [0, 1, 2],
    abelian := false }

theorem Zn1_ok : Zn 1 = Except.ok zn1V := by rfl

theorem Zn3_ok : Zn 3 = Except.ok zn3V := by rfl

theorem Zn6_ok : Zn 6 = Except.ok zn6V := by rfl

theorem rz2_ok : rz 2 = Except.ok rz2V := by rfl

theorem rz3_ok : rz 3 = Except.ok rz3V := by rfl

theorem rz5_ok : rz 5 = Except.ok rz5V := by rfl

theorem Sn3_ok : Sn 3 = Except.ok sn3V := by rfl

theorem zn3_constr : IsConstrG Nat.beq zn3V :=
  isConstrG_of_ok lawEq_nat Zn3_ok

theorem zn3_twoSided : TwoSided zn3V := by unfold TwoSided; decide

theorem zn3_nodup : zn3V.Set.Nodup := by decide

theorem zn6_constr : IsConstrG Nat.beq zn6V :=
  isConstrG_of_ok lawEq_nat Zn6_ok

theorem zn6_twoSided : TwoSided zn6V := by unfold TwoSided; decide

theorem zn6_nodup : zn6V.Set.Nodup := by decide

/-! ## Claim C3 -/

/-- C3 (amended).  `Group` construction raises a `TypeError` when the
operation's codomain is not (set-)equal to `G` or its domain is not
(set-)equal to `G × G`; given the type checks and a rule that is closed on
`G` (the honest-`TotalFunction` precondition of spec 3), it raises a
`ValueError` exactly when the remaining checks fail; it succeeds exactly when
all the checks pass, where the identity check finds a *left* identity (the
first one in scan order) and the inverse check finds a *right* inverse with
respect to that left identity; and a constructed `Group` always satisfies
those checked (one-sided) axioms.  The original claim's two-sided reading of
"identity element" is refuted by `claimC3_counterexample`. -/
theorem claimC3 {α : Type} {eq : α → α → Bool} (heq : LawEq eq)
    (G : List α) (f : PyFunc (α × α) α) :
    (aseteq eq f.codomain G = false →
      mkGroup eq G f = Except.error PyErr.typeError) ∧
    (aseteq eq f.codomain G = true →
      aseteq (peq eq eq) f.domain (aprod G G) = false →
      mkGroup eq G f = Except.error PyErr.typeError) ∧
    ((∃ H, mkGroup eq G f = Except.ok H) ↔ GChecks eq G f) ∧
    (∀ H, mkGroup eq G f = Except.ok H →
      IsConstrG eq H ∧ H.Set = G ∧ H.bin_op = f) ∧
    (aseteq eq f.codomain G = true →
      aseteq (peq eq eq) f.domain (aprod G G) = true →
      (∀ a ∈ G, ∀ b ∈ G, f.rule (a, b) ∈ G) → ¬ GChecks eq G f →
      mkGroup eq G f = Except.error PyErr.valueError) := by
  refine ⟨mkGroup_codEq_false, mkGroup_domEq_false, ⟨?_, ?_⟩, ?_, ?_⟩
  · rintro ⟨H, hH⟩
    exact (mkGroup_ok_inv heq hH).1
  · intro hc
    obtain ⟨e₀, he, _⟩ := hc.identFound
    exact ⟨_, mkGroup_ok_of_checks heq hc he⟩
  · intro H hH
    obtain ⟨hc, h1, h2, _, _⟩ := mkGroup_ok_inv heq hH
    exact ⟨isConstrG_of_ok heq hH, h1, h2⟩
  · exact mkGroup_valueError heq

/-- Witness for C3 at `Zn(3)`. -/
theorem claimC3_witness :
    (aseteq Nat.beq (ZnF 3).codomain (List.range 3) = false →
      mkGroup Nat.beq (List.range 3) (ZnF 3) = Except.error PyErr.typeError) ∧
    (aseteq Nat.beq (ZnF 3).codomain (List.range 3) = true →
      aseteq (peq Nat.beq Nat.beq) (ZnF 3).domain
        (aprod (List.range 3) (List.range 3)) = false →
      mkGroup Nat.beq (List.range 3) (ZnF 3) = Except.error PyErr.typeError) ∧
    ((∃ H, mkGroup Nat.beq (List.range 3) (ZnF 3) = Except.ok H) ↔
      GChecks Nat.beq (List.range 3) (ZnF 3)) ∧
    (∀ H, mkGroup Nat.beq (List.range 3) (ZnF 3) = Except.ok H →
      IsConstrG Nat.beq H ∧ H.Set = List.range 3 ∧ H.bin_op = ZnF 3) ∧
    (aseteq Nat.beq (ZnF 3).codomain (List.range 3) = true →
      aseteq (peq Nat.beq Nat.beq) (ZnF 3).domain
        (aprod (List.range 3) (List.range 3)) = true →
      (∀ a ∈ List.range 3, ∀ b ∈ List.range 3, (ZnF 3).rule (a, b) ∈ List.range 3) →
      ¬ GChecks Nat.beq (List.range 3) (ZnF 3) →
      mkGroup Nat.beq (List.range 3) (ZnF 3) = Except.error PyErr.valueError) :=
  claimC3 lawEq_nat (List.range 3) (ZnF 3)

/-- C3 counterexample: the right-zero operation `op(a, b) = b` on `{0, 1}`
has no (two-sided) identity element, yet `Group` construction succeeds —
refuting "raises a ValueError if no identity element exists" and "never
silently produces a Group violating these axioms". -/
theorem claimC3_counterexample :
    rz 2 = Except.ok rz2V ∧
    ¬ ∃ e ∈ List.range 2, ∀ a ∈ List.range 2,
        (rzF 2).rule (e, a) = a ∧ (rzF 2).rule (a, e) = a := by
  exact ⟨rz2_ok, by decide⟩

/-! ## Claim C7 -/

/-- C7 (amended).  For every constructed `Group` and every element `g`,
`Group.inverse` succeeds and returns an `a` with `g * a == e` (the scan for
a right inverse cannot fail, because construction verified right
inverses).  When the construction-found identity is additionally a right
identity (a genuine group), whatever `inverse` returns is also a left
inverse: `inverse(g) * g == e`.  On constructed Groups that only satisfy
the one-sided checks the left-inverse half fails
(`claimC7_counterexample`). -/
theorem claimC7 {α : Type} {eq : α → α → Bool} {H : PyGroup α}
    (heq : LawEq eq) (hG : IsConstrG eq H) {g : α} (hg : g ∈ H.Set) :
    (∃ a, ginverse eq H g = Except.ok a ∧ a ∈ H.Set ∧
      H.bin_op.rule (g, a) = H.e) ∧
    (TwoSided H → ∀ a, ginverse eq H g = Except.ok a →
      a ∈ H.Set ∧ H.bin_op.rule (g, a) = H.e ∧
      H.bin_op.rule (a, g) = H.e) := by
  obtain ⟨a, hrun, hmem, hga⟩ := ginverse_ok heq hG hg
  refine ⟨⟨a, hrun, hmem, hga⟩, ?_⟩
  intro ht a' hrun'
  rw [hrun] at hrun'
  obtain rfl := Except.ok.inj hrun'
  exact ⟨hmem, hga, left_inv_of_right hG ht hg hmem hga⟩

/-- Witness for C7: the inverse of `1` in `Zn(3)`. -/
theorem claimC7_witness :
    (∃ a, ginverse Nat.beq zn3V 1 = Except.ok a ∧ a ∈ zn3V.Set ∧
      zn3V.bin_op.rule (1, a) = zn3V.e) ∧
    (TwoSided zn3V → ∀ a, ginverse Nat.beq zn3V 1 = Except.ok a →
      a ∈ zn3V.Set ∧ zn3V.bin_op.rule (1, a) = zn3V.e ∧
      zn3V.bin_op.rule (a, 1) = zn3V.e) :=
  claimC7 lawEq_nat zn3_constr (by decide)

/-- C7 counterexample: in the constructed right-zero Group on `{0, 1}`
(a "valid Group" in the sense that `Group.__init__` accepts it),
`inverse(1)` is `0` and `1 * 0 == e` holds, but `0 * 1 = 1 ≠ e`: the inverse
found by searching for a right inverse is *not* a left inverse. -/
theorem claimC7_counterexample :
    rz 2 = Except.ok rz2V ∧
    ginverse Nat.beq rz2V 1 = Except.ok 0 ∧
    rz2V.bin_op.rule (1, 0) = rz2V.e ∧
    rz2V.bin_op.rule (0, 1) ≠ rz2V.e := by
  exact ⟨rz2_ok, by rfl, by rfl, by decide⟩

/-! ## Claim C10 -/

/-- C10.  Iterating over a constructed `Group` yields the identity first and
then the remaining elements; every element of the group appears exactly once
(the iteration list has no duplicates and ranges over exactly the carrier). -/
theorem claimC10 {α : Type} {eq : α → α → Bool} {H : PyGroup α}
    (heq : LawEq eq) (hG : IsConstrG eq H) (hnd : H.Set.Nodup) :
    (iterOrder eq H).head? = some H.e ∧
    (iterOrder eq H).Nodup ∧
    (∀ a, a ∈ iterOrder eq H ↔ a ∈ H.Set) ∧
    (iterOrder eq H).length = H.Set.length := by
  exact ⟨rfl, nodup_iterOrder heq hG hnd,
    fun a => mem_iterOrder heq hG, length_iterOrder heq hG hnd⟩

/-- Witness for C10 at `Zn(3)`. -/
theorem claimC10_witness :
    (iterOrder Nat.beq zn3V).head? = some zn3V.e ∧
    (iterOrder Nat.beq zn3V).Nodup ∧
    (∀ a, a ∈ iterOrder Nat.beq zn3V ↔ a ∈ zn3V.Set) ∧
    (iterOrder Nat.beq zn3V).length = zn3V.Set.length :=
  claimC10 lawEq_nat zn3_constr zn3_nodup

/-! ## Claim C2 (`GroupElem.__pow__`) -/

theorem gpow_float_err {α : Type} (eq : α → α → Bool) (H : PyGroup α)
    (g : α) (q : Rat) : gpow eq H g (.float q) = Except.error PyErr.typeError := by
  rw [gpow]
  rfl

theorem gpow_int_zero {α : Type} (eq : α → α → Bool) (H : PyGroup α)
    (g : α) : gpow eq H g (.int 0) = Except.ok H.e := by
  rw [gpow]
  norm_num
  rfl

/-- C2.  `__pow__` dispatches the even case to `(self * self) ** (n / 2)`
where `n / 2` is Python 3 float division, so the recursive call receives a
`float` and fails the `isinstance(n, int)` check: in `Zn(3)`, `1 ** 2`,
`1 ** 3` and `1 ** (-2)` all raise `TypeError` although the correct powers
exist (`1 ** 2` should be `(1 + 1) % 3 = 2`); only exponents `0`, `1` and
`-1` return values. -/
theorem claimC2_bug :
    gpow Nat.beq zn3V 1 (.int 2) = Except.error PyErr.typeError ∧
    gpow Nat.beq zn3V 1 (.int 3) = Except.error PyErr.typeError ∧
    gpow Nat.beq zn3V 1 (.int (-2)) = Except.error PyErr.typeError ∧
    zn3V.bin_op.rule (1, 1) = 2 ∧
    gpow Nat.beq zn3V 1 (.int 0) = Except.ok zn3V.e ∧
    gpow Nat.beq zn3V 1 (.int 1) = Except.ok 1 ∧
    gpow Nat.beq zn3V 1 (.int (-1)) = Except.ok 2 := by
  have h2 : gpow Nat.beq zn3V 1 (.int 2) = Except.error PyErr.typeError := by
    rw [gpow]
    norm_num
    rw [show emul Nat.beq zn3V 1 1 = Except.ok 2 from rfl, ok_bind,
      gpow_float_err]
  have h22 : gpow Nat.beq zn3V 2 (.int 2) = Except.error PyErr.typeError := by
    rw [gpow]
    norm_num
    rw [show emul Nat.beq zn3V 2 2 = Except.ok 1 from rfl, ok_bind,
      gpow_float_err]
  refine ⟨h2, ?_, ?_, rfl, gpow_int_zero _ _ _, ?_, ?_⟩
  · rw [gpow]
    norm_num
    rw [h2, error_bind]
  · rw [gpow]
    norm_num
    exact h22
  · rw [gpow]
    norm_num
    rw [gpow_int_zero, ok_bind]
    rfl
  · rw [gpow]
    norm_num
    rw [show ginverse Nat.beq zn3V 1 = Except.ok 2 from rfl, ok_bind,
      gpow.eq_def]
    norm_num
    rw [gpow_int_zero, ok_bind]
    rfl

/-! ## Claim C6 (`Group.__div__`) -/

/-- C6.  The body of `Group.__div__` does implement the quotient: for `Zn(6)`
and the normal subgroup generated by `2` (order 3), it returns the group of
the two cosets `{2, 4, 0}` and `{3, 5, 1}`, and for a non-normal subgroup
(the subgroup of `Sn(3)` generated by the transposition `(0 1)`) it raises
`ValueError`.  The claim's operation `G / N` itself never reaches this body
in Python 3, because `__div__` is a Python 2 operator hook (`__truediv__` is
required), so `G / N` raises `TypeError: unsupported operand type(s)`. -/
theorem claimC6_bug :
    ((Zn 6).bind (fun H => (generate Nat.beq H [2]).bind
        (fun N => (gdiv Nat.beq H N).map (fun q => (q.Set, q.Set.length, q.abelian))))) =
      Except.ok ([[2, 4, 0], [3, 5, 1]], 2, true) ∧
    ((Sn 3).bind (fun H => (generate tupEq H [[1, 0, 2]]).bind
        (fun N => (gdiv tupEq H N).map (fun q => q.Set)))) =
      Except.error PyErr.valueError := by
  exact ⟨by rfl, by rfl⟩

/-! ## Closure theory: `Group.generate` -/

/-- The subsemigroup generated by a seed list: everything reachable from the
seeds by the binary operation.  This is the mathematical description of the
closure loop of `Group.generate`. -/
inductive GenBy {α : Type} (op : α × α → α) (S : List α) : α → Prop where
  | base {x : α} : x ∈ S → GenBy op S x
  | mul {x y : α} : GenBy op S x → GenBy op S y → GenBy op S (op (x, y))

theorem GenBy_congr {α : Type} {op : α × α → α} {S S' : List α}
    (h : ∀ x, x ∈ S ↔ x ∈ S') {x : α} (hx : GenBy op S x) : GenBy op S' x := by
  induction hx with
  | base hmem => exact GenBy.base ((h _).mp hmem)
  | mul _ _ ihx ihy => exact GenBy.mul ihx ihy

section ClosureTheory

variable {α : Type} {eq : α → α → Bool} {H : PyGroup α}

def lawEq_decEq {eq : α → α → Bool} (heq : LawEq eq) : DecidableEq α :=
  fun a b => decidable_of_iff (eq a b = true) (heq a b)

theorem La_surj (hG : IsConstrG eq H) {a t : α}
    (ha : a ∈ H.Set) (ht : t ∈ H.Set) :
    ∃ w ∈ H.Set, H.bin_op.rule (a, w) = t := by
  obtain ⟨b, hb, hab⟩ := hG.inv a ha
  refine ⟨H.bin_op.rule (b, t), hG.closed _ hb _ ht, ?_⟩
  rw [hG.assoc _ ha _ hb _ ht, hab, hG.e_left _ ht]

theorem La_inj (heq : LawEq eq) (hG : IsConstrG eq H) (hnd : H.Set.Nodup)
    {a : α} (ha : a ∈ H.Set) :
    ∀ x ∈ H.Set, ∀ y ∈ H.Set,
      H.bin_op.rule (a, x) = H.bin_op.rule (a, y) → x = y := by
  haveI : DecidableEq α := lawEq_decEq heq
  intro x hx y hy hxy
  have hmaps : ∀ (z : α) (_ : z ∈ H.Set.toFinset),
      H.bin_op.rule (a, z) ∈ H.Set.toFinset := by
    intro z hz
    exact List.mem_toFinset.mpr (hG.closed _ ha _ (List.mem_toFinset.mp hz))
  have hsurj : ∀ b ∈ H.Set.toFinset, ∃ z, ∃ (hz : z ∈ H.Set.toFinset),
      (fun (z : α) (_ : z ∈ H.Set.toFinset) => H.bin_op.rule (a, z)) z hz = b := by
    intro b hb
    obtain ⟨w, hw, hrw⟩ := La_surj hG ha (List.mem_toFinset.mp hb)
    exact ⟨w, List.mem_toFinset.mpr hw, hrw⟩
  exact Finset.inj_on_of_surj_on_of_card_le
    (fun (z : α) (_ : z ∈ H.Set.toFinset) => H.bin_op.rule (a, z))
    hmaps hsurj le_rfl (List.mem_toFinset.mpr hx) (List.mem_toFinset.mpr hy) hxy

/-- One pure closure step: `oldG | {a * b : a, b in oldG}`. -/
def pstep (eq : α → α → Bool) (H : PyGroup α) (S : List α) : List α :=
  aunion eq S ((aprod S S).map (fun p => H.bin_op.rule (p.1, p.2)))

theorem mem_pstep (heq : LawEq eq) {S : List α} {x : α} :
    x ∈ pstep eq H S ↔ x ∈ S ∨ ∃ a ∈ S, ∃ b ∈ S, x = H.bin_op.rule (a, b) := by
  simp only [pstep, mem_aunion heq, List.mem_map]
  constructor
  · rintro (h | ⟨p, hp, rfl⟩)
    · exact Or.inl h
    · obtain ⟨h1, h2⟩ := mem_aprod.mp hp
      exact Or.inr ⟨p.1, h1, p.2, h2, rfl⟩
  · rintro (h | ⟨a, ha, b, hb, rfl⟩)
    · exact Or.inl h
    · exact Or.inr ⟨(a, b), mem_aprod.mpr ⟨ha, hb⟩, rfl⟩

theorem closureLoop_step (heq : LawEq eq) (hG : IsConstrG eq H) {S : List α}
    (hsub : ∀ x ∈ S, x ∈ H.Set) (fuel : Nat) :
    closureLoop eq H (fuel + 1) S =
      if aseteq eq S (pstep eq H S) then Except.ok S
      else closureLoop eq H fuel (pstep eq H S) := by
  have hmap : mapE (fun p => emul eq H p.1 p.2) (aprod S S) =
      Except.ok ((aprod S S).map (fun p => H.bin_op.rule (p.1, p.2))) := by
    refine mapE_ok (fun p hp => ?_)
    obtain ⟨h1, h2⟩ := mem_aprod.mp hp
    exact emul_ok heq hG (hsub _ h1) (hsub _ h2)
  rw [closureLoop, hmap, ok_bind]
  rfl

/-- The closure loop, when given enough fuel, returns the least
product-closed superset of the seeds, characterized by `GenBy`. -/
theorem closureLoop_spec (heq : LawEq eq) (hG : IsConstrG eq H)
    (hnd : H.Set.Nodup) (S₀ : List α) :
    ∀ (fuel : Nat) (S : List α), S ≠ [] → (∀ x ∈ S, x ∈ H.Set) → S.Nodup →
    (∀ x ∈ S₀, x ∈ S) → (∀ x ∈ S, GenBy H.bin_op.rule S₀ x) →
    H.Set.length + 1 - S.length ≤ fuel →
    ∃ T, closureLoop eq H fuel S = Except.ok T ∧ T.Nodup ∧ T ≠ [] ∧
      (∀ x ∈ S, x ∈ T) ∧ (∀ x ∈ T, x ∈ H.Set) ∧
      (∀ x, x ∈ T ↔ GenBy H.bin_op.rule S₀ x) ∧
      (∀ a ∈ T, ∀ b ∈ T, H.bin_op.rule (a, b) ∈ T) := by
  haveI : DecidableEq α := lawEq_decEq heq
  intro fuel
  induction fuel with
  | zero =>
    intro S hne hsub hnodup hseed hgen hfuel
    exfalso
    have h1 : S.length ≤ H.Set.length := by
      have : S.toFinset ⊆ H.Set.toFinset := by
        intro x hx
        exact List.mem_toFinset.mpr (hsub _ (List.mem_toFinset.mp hx))
      have := Finset.card_le_card this
      rwa [List.toFinset_card_of_nodup hnodup,
        List.toFinset_card_of_nodup hnd] at this
    omega
  | succ fuel ih =>
    intro S hne hsub hnodup hseed hgen hfuel
    rw [closureLoop_step heq hG hsub]
    by_cases hfix : aseteq eq S (pstep eq H S) = true
    · rw [if_pos hfix]
      have hfix' := (aseteq_iff heq).mp hfix
      have hclosed : ∀ a ∈ S, ∀ b ∈ S, H.bin_op.rule (a, b) ∈ S := by
        intro a ha b hb
        exact (hfix' _).mpr ((mem_pstep heq).mpr (Or.inr ⟨a, ha, b, hb, rfl⟩))
      refine ⟨S, rfl, hnodup, hne, fun x hx => hx, hsub, ?_, hclosed⟩
      intro x
      constructor
      · exact hgen x
      · intro hx
        induction hx with
        | base hmem => exact hseed _ hmem
        | mul _ _ ihx ihy => exact hclosed _ ihx _ ihy
    · rw [if_neg hfix]
      have hsub' : ∀ x ∈ pstep eq H S, x ∈ H.Set := by
        intro x hx
        rcases (mem_pstep heq).mp hx with h | ⟨a, ha, b, hb, rfl⟩
        · exact hsub _ h
        · exact hG.closed _ (hsub _ ha) _ (hsub _ hb)
      have hmono : ∀ x ∈ S, x ∈ pstep eq H S := by
        intro x hx
        exact (mem_pstep heq).mpr (Or.inl hx)
      have hnodup' : (pstep eq H S).Nodup := nodup_aunion heq
      have hne' : pstep eq H S ≠ [] := by
        intro hc
        cases S with
        | nil => exact hne rfl
        | cons a l =>
          have hmem := hmono a (List.mem_cons_self _ _)
          rw [hc] at hmem
          cases hmem
      have hgen' : ∀ x ∈ pstep eq H S, GenBy H.bin_op.rule S₀ x := by
        intro x hx
        rcases (mem_pstep heq).mp hx with h | ⟨a, ha, b, hb, rfl⟩
        · exact hgen _ h
        · exact GenBy.mul (hgen _ ha) (hgen _ hb)
      have hlen : S.length < (pstep eq H S).length := by
        have hssub : S.toFinset ⊂ (pstep eq H S).toFinset := by
          have hsubF : S.toFinset ⊆ (pstep eq H S).toFinset := by
            intro x hx
            exact List.mem_toFinset.mpr (hmono _ (List.mem_toFinset.mp hx))
          rw [Finset.ssubset_iff_of_subset hsubF]
          by_contra hall
          push_neg at hall
          refine hfix ((aseteq_iff heq).mpr (fun x => ⟨hmono x, fun hx => ?_⟩))
          exact List.mem_toFinset.mp (hall x (List.mem_toFinset.mpr hx))
        have := Finset.card_lt_card hssub
        rwa [List.toFinset_card_of_nodup hnodup,
          List.toFinset_card_of_nodup hnodup'] at this
      have hlen' : (pstep eq H S).length ≤ H.Set.length := by
        have : (pstep eq H S).toFinset ⊆ H.Set.toFinset := by
          intro x hx
          exact List.mem_toFinset.mpr (hsub' _ (List.mem_toFinset.mp hx))
        have := Finset.card_le_card this
        rwa [List.toFinset_card_of_nodup hnodup',
          List.toFinset_card_of_nodup hnd] at this
      have hfuel' : H.Set.length + 1 - (pstep eq H S).length ≤ fuel := by omega
      obtain ⟨T, hT, h1, h2, h3, h4, h5, h6⟩ :=
        ih (pstep eq H S) hne' hsub' hnodup' (fun x hx => hmono _ (hseed _ hx))
          hgen' hfuel'
      exact ⟨T, hT, h1, h2, fun x hx => h3 _ (hmono _ hx), h4, h5, h6⟩

end ClosureTheory

/-- Iterated powers: `pw H a n = a^(n+1)`. -/
def pw {α : Type} (H : PyGroup α) (a : α) : Nat → α
  | 0 => a
  | n + 1 => H.bin_op.rule (a, pw H a n)

section ClosurePasses

variable {α : Type} {eq : α → α → Bool} {H : PyGroup α}

theorem pw_mem (hG : IsConstrG eq H) {T : List α} {a : α}
    (hTsub : ∀ x ∈ T, x ∈ H.Set)
    (hTclosed : ∀ x ∈ T, ∀ y ∈ T, H.bin_op.rule (x, y) ∈ T)
    (ha : a ∈ T) : ∀ n, pw H a n ∈ T := by
  intro n
  induction n with
  | zero => exact ha
  | succ n ih => exact hTclosed _ ha _ ih

theorem pw_memSet (hG : IsConstrG eq H) {a : α} (ha : a ∈ H.Set) :
    ∀ n, pw H a n ∈ H.Set := by
  intro n
  induction n with
  | zero => exact ha
  | succ n ih => exact hG.closed _ ha _ ih

theorem pw_add (hG : IsConstrG eq H) {a : α} (ha : a ∈ H.Set) :
    ∀ m n, pw H a (m + n + 1) = H.bin_op.rule (pw H a m, pw H a n) := by
  intro m
  induction m with
  | zero =>
    intro n
    simp only [Nat.zero_add, pw]
  | succ m ih =>
    intro n
    have h1 : m + 1 + n + 1 = (m + n + 1) + 1 := by omega
    rw [h1]
    show H.bin_op.rule (a, pw H a (m + n + 1)) = _
    rw [ih n]
    rw [hG.assoc _ ha _ (pw_memSet hG ha m) _ (pw_memSet hG ha n)]
    rfl

theorem pw_cancel_down (heq : LawEq eq) (hG : IsConstrG eq H)
    (hnd : H.Set.Nodup) {a : α} (ha : a ∈ H.Set) :
    ∀ i j, pw H a (i + 1) = pw H a (j + 1) → pw H a i = pw H a j := by
  intro i j hij
  exact La_inj heq hG hnd ha _ (pw_memSet hG ha i) _ (pw_memSet hG ha j) hij

/-- From a repeated power, the element returns to itself: `a = a^(p+1)` for
some `p ≥ 1` positive shift. -/
theorem pw_returns (heq : LawEq eq) (hG : IsConstrG eq H)
    (hnd : H.Set.Nodup) {a : α} (ha : a ∈ H.Set)
    {i j : Nat} (hij : i < j) (hpw : pw H a i = pw H a j) :
    a = pw H a (j - i) := by
  induction i generalizing j with
  | zero =>
    exact hpw
  | succ i ih =>
    cases j with
    | zero => omega
    | succ j =>
      have h1 : i < j := by omega
      have h2 : pw H a i = pw H a j := pw_cancel_down heq hG hnd ha i j hpw
      have := ih h1 h2
      simpa using this

theorem pw_period (hG : IsConstrG eq H) {a : α} (ha : a ∈ H.Set)
    {p : Nat} (hp : a = pw H a p) : ∀ n, pw H a (n + p) = pw H a n := by
  intro n
  induction n with
  | zero => simpa using hp.symm
  | succ n ih =>
    have h1 : n + 1 + p = (n + p) + 1 := by omega
    rw [h1]
    show H.bin_op.rule (a, pw H a (n + p)) = _
    rw [ih]
    rfl

/-- Any nonempty product-closed subset of a constructed group contains a
left identity for itself. -/
theorem closed_has_leftId (heq : LawEq eq) (hG : IsConstrG eq H)
    (hnd : H.Set.Nodup) {T : List α} (hTne : T ≠ [])
    (hTsub : ∀ x ∈ T, x ∈ H.Set) (hTnd : T.Nodup)
    (hTclosed : ∀ x ∈ T, ∀ y ∈ T, H.bin_op.rule (x, y) ∈ T) :
    ∃ f ∈ T, ∀ t ∈ T, H.bin_op.rule (f, t) = t := by
  haveI : DecidableEq α := lawEq_decEq heq
  obtain ⟨a, ha⟩ := List.exists_mem_of_ne_nil T hTne
  have haS : a ∈ H.Set := hTsub _ ha
  -- pigeonhole on the powers of a
  have hcard : T.toFinset.card < (Finset.range (T.length + 1)).card := by
    rw [Finset.card_range, List.toFinset_card_of_nodup hTnd]
    omega
  have hmaps : ∀ n ∈ Finset.range (T.length + 1), pw H a n ∈ T.toFinset := by
    intro n _
    exact List.mem_toFinset.mpr (pw_mem hG hTsub hTclosed ha n)
  obtain ⟨i, _, j, _, hne, hpw⟩ :=
    Finset.exists_ne_map_eq_of_card_lt_of_maps_to hcard hmaps
  -- reduce to i < j, giving a period a = a^(p+1)
  have hret : ∃ p, 1 ≤ p ∧ a = pw H a p := by
    rcases Nat.lt_or_ge i j with hij | hij
    · exact ⟨j - i, by omega, pw_returns heq hG hnd haS hij hpw⟩
    · have hji : j < i := by omega
      exact ⟨i - j, by omega, pw_returns heq hG hnd haS hji hpw.symm⟩
  obtain ⟨p, hp1, hp⟩ := hret
  -- f := a^p (that is, pw (p-1)) is idempotent
  set f := pw H a (p - 1) with hf
  have hfT : f ∈ T := pw_mem hG hTsub hTclosed ha (p - 1)
  have hfS : f ∈ H.Set := hTsub _ hfT
  have hidem : H.bin_op.rule (f, f) = f := by
    rw [hf, ← pw_add hG haS (p - 1) (p - 1)]
    have h1 : p - 1 + (p - 1) + 1 = (p - 1) + p := by omega
    rw [h1, pw_period hG haS hp]
  -- an idempotent whose left translation is injective is a left identity
  refine ⟨f, hfT, fun t ht => ?_⟩
  have htS : t ∈ H.Set := hTsub _ ht
  have hft : H.bin_op.rule (f, t) ∈ H.Set := hG.closed _ hfS _ htS
  refine La_inj heq hG hnd hfS _ hft _ htS ?_
  rw [hG.assoc _ hfS _ hfS _ htS, hidem]

end ClosurePasses

section GenerateSpec

variable {α : Type} {eq : α → α → Bool} {H : PyGroup α}

/-- Every nonempty product-closed subset of a constructed group passes the
full `Group.__init__` re-verification with the domain-restricted operation:
this is why `Group.generate` never fails after its two input checks. -/
theorem closure_GChecks (heq : LawEq eq) (hG : IsConstrG eq H)
    (hnd : H.Set.Nodup) {T : List α} (hTne : T ≠ [])
    (hTsub : ∀ x ∈ T, x ∈ H.Set) (hTnd : T.Nodup)
    (hTclosed : ∀ x ∈ T, ∀ y ∈ T, H.bin_op.rule (x, y) ∈ T) :
    GChecks eq T (H.bin_op.new_domains (aprod T T) T) := by
  haveI : DecidableEq α := lawEq_decEq heq
  have hrule : (H.bin_op.new_domains (aprod T T) T).rule = H.bin_op.rule := rfl
  refine ⟨?_, ?_, ?_, ?_, ?_⟩
  · exact (aseteq_iff heq).mpr (fun x => Iff.rfl)
  · exact (aseteq_iff (lawEq_peq heq heq)).mpr (fun x => Iff.rfl)
  · intro a ha b hb
    exact hTclosed _ ha _ hb
  · intro a ha b hb c hc
    exact hG.assoc _ (hTsub _ ha) _ (hTsub _ hb) _ (hTsub _ hc)
  · obtain ⟨f, hfT, hfid⟩ := closed_has_leftId heq hG hnd hTne hTsub hTnd hTclosed
    obtain ⟨e₁, he₁⟩ := leftIdFind_isSome (G := T)
      (f := H.bin_op.new_domains (aprod T T) T) heq hfT hfid
    obtain ⟨he₁T, he₁id⟩ := leftIdFind_some heq he₁
    refine ⟨e₁, he₁, ?_⟩
    -- right inverses with respect to e₁, by surjectivity of left translations on T
    intro a ha
    have hinj : ∀ x ∈ T, ∀ y ∈ T,
        H.bin_op.rule (a, x) = H.bin_op.rule (a, y) → x = y := by
      intro x hx y hy
      exact La_inj heq hG hnd (hTsub _ ha) _ (hTsub _ hx) _ (hTsub _ hy)
    have hsurj := Finset.surj_on_of_inj_on_of_card_le
      (s := T.toFinset) (t := T.toFinset)
      (fun (z : α) (_ : z ∈ T.toFinset) => H.bin_op.rule (a, z))
      (fun z hz => List.mem_toFinset.mpr
        (hTclosed _ ha _ (List.mem_toFinset.mp hz)))
      (fun x y hx hy hxy => hinj x (List.mem_toFinset.mp hx) y
        (List.mem_toFinset.mp hy) hxy)
      le_rfl
    obtain ⟨b, hb, hab⟩ := hsurj e₁ (List.mem_toFinset.mpr he₁T)
    exact ⟨b, List.mem_toFinset.mp hb, hab.symm⟩

theorem adedup_ne_nil (heq : LawEq eq) {S : List α} (hne : S ≠ []) :
    adedup eq S ≠ [] := by
  cases S with
  | nil => exact absurd rfl hne
  | cons a l =>
    intro hc
    have : a ∈ adedup eq (a :: l) := (mem_adedup heq).mpr (List.mem_cons_self _ _)
    rw [hc] at this
    cases this

theorem generate_err_not_subset (heq : LawEq eq) {S : List α}
    (h : ¬ ∀ x ∈ S, x ∈ H.Set) :
    generate eq H S = Except.error PyErr.valueError := by
  have hsub : asubset eq (adedup eq S) H.Set = false := by
    rw [← Bool.not_eq_true]
    intro hc
    refine h (fun x hx => ?_)
    exact (asubset_iff heq).mp hc ((mem_adedup heq).mpr hx)
  rw [generate, hsub]
  rfl

theorem generate_err_nil : generate eq H ([] : List α) =
    Except.error PyErr.valueError := by
  rfl

/-- `Group.generate` on a valid input: it succeeds and returns the smallest
product-closed subset containing the seeds, reconstructed as a `Group`. -/
theorem generate_ok_spec (heq : LawEq eq) (hG : IsConstrG eq H)
    (hnd : H.Set.Nodup) {S : List α} (hsub : ∀ x ∈ S, x ∈ H.Set)
    (hne : S ≠ []) :
    ∃ K, generate eq H S = Except.ok K ∧
      IsConstrG eq K ∧ K.Set.Nodup ∧
      (∀ x ∈ S, x ∈ K.Set) ∧ (∀ x ∈ K.Set, x ∈ H.Set) ∧
      (∀ x, x ∈ K.Set ↔ GenBy H.bin_op.rule S x) ∧
      (∀ a ∈ K.Set, ∀ b ∈ K.Set, H.bin_op.rule (a, b) ∈ K.Set) ∧
      K.bin_op = H.bin_op.new_domains (aprod K.Set K.Set) K.Set := by
  have hS' : ∀ x ∈ adedup eq S, x ∈ H.Set :=
    fun x hx => hsub _ ((mem_adedup heq).mp hx)
  have hne' : adedup eq S ≠ [] := adedup_ne_nil heq hne
  have hsubB : asubset eq (adedup eq S) H.Set = true :=
    (asubset_iff heq).mpr (fun x hx => hS' x hx)
  have hlen : ((adedup eq S).length == 0) = false := by
    cases hd : adedup eq S with
    | nil => exact absurd hd hne'
    | cons a l => rfl
  obtain ⟨T, hT, hTnd, hTne, hTseed, hTsub, hTgen, hTclosed⟩ :=
    closureLoop_spec heq hG hnd (adedup eq S) (glen H + 1) (adedup eq S)
      hne' hS' (nodup_adedup heq) (fun x hx => hx)
      (fun x hx => GenBy.base hx) (by simp [glen])
  have hchecks := closure_GChecks heq hG hnd hTne hTsub hTnd hTclosed
  obtain ⟨e₁, he₁, _⟩ := hchecks.identFound
  have hmk := mkGroup_ok_of_checks heq hchecks he₁
  refine ⟨_, ?_, isConstrG_of_ok heq hmk, hTnd, ?_, hTsub, ?_, hTclosed, rfl⟩
  · rw [generate, hsubB, hlen]
    simp only [Bool.not_true, Bool.false_eq_true, if_false]
    rw [hT, ok_bind]
    exact hmk
  · intro x hx
    exact hTseed _ ((mem_adedup heq).mpr hx)
  · intro x
    rw [hTgen x]
    constructor
    · exact GenBy_congr (fun y => mem_adedup heq)
    · exact GenBy_congr (fun y => (mem_adedup heq).symm)

theorem GenBy_minimal {α : Type} {op : α × α → α} {S T' : List α}
    (hc : ∀ a ∈ T', ∀ b ∈ T', op (a, b) ∈ T')
    (hs : ∀ x ∈ S, x ∈ T') : ∀ x, GenBy op S x → x ∈ T' := by
  intro x hx
  induction hx with
  | base hmem => exact hs _ hmem
  | mul _ _ ihx ihy => exact hc _ ihx _ ihy

theorem GenBy_single_e (hG : IsConstrG eq H) {x : α}
    (hx : GenBy H.bin_op.rule [H.e] x) : x = H.e := by
  induction hx with
  | base hmem => exact List.mem_singleton.mp hmem
  | mul _ _ ihx ihy =>
    case _ a b _ _ =>
      rw [ihx, ihy]
      exact hG.e_left _ hG.e_mem

theorem gle_ok (heq : LawEq eq) (hG : IsConstrG eq H) {K : PyGroup α}
    (hKsub : ∀ x ∈ K.Set, x ∈ H.Set)
    (hrule : K.bin_op = H.bin_op.new_domains (aprod K.Set K.Set) K.Set) :
    gle eq K H = Except.ok true := by
  have hsubB : asubset eq K.Set H.Set = true := (asubset_iff heq).mpr hKsub
  rw [gle, hsubB]
  simp only [Bool.not_true, Bool.false_eq_true, if_false]
  rw [allE_true_iff]
  intro p hp
  obtain ⟨h1, h2⟩ := mem_aprod.mp hp
  have happK : K.bin_op.apply (peq eq eq) p = Except.ok (H.bin_op.rule p) := by
    rw [hrule, PyFunc.apply,
      if_pos ((amem_iff (lawEq_peq heq heq)).mpr (by
        exact mem_aprod.mpr ⟨h1, h2⟩))]
    rfl
  have happH : H.bin_op.apply (peq eq eq) p = Except.ok (H.bin_op.rule p) := by
    have := apply_ok (G := H.Set) heq hG.domEq (hKsub _ h1) (hKsub _ h2)
    simpa using this
  rw [happK, ok_bind, happH, ok_bind, lawEq_refl heq]
  rfl

end GenerateSpec

/-! ## Claim C4 -/

/-- C4.  On every constructed `Group`, `generate` raises `ValueError` when
the input collection (of wrapped elements) is not a subset of the group's
elements or is empty; on a non-empty subset it succeeds and returns the
smallest subgroup containing the seeds, in the sense of the code: a
constructed `Group` on the least product-closed subset containing the seeds,
which is a subgroup of the ambient group (`__le__` holds) and is contained in
every product-closed subset containing the seeds.  In particular
`generate([e])` returns a subgroup of order 1. -/
theorem claimC4 {α : Type} {eq : α → α → Bool} {H : PyGroup α}
    (heq : LawEq eq) (hG : IsConstrG eq H) (hnd : H.Set.Nodup) (S : List α) :
    ((¬ ∀ x ∈ S, x ∈ H.Set) → generate eq H S = Except.error PyErr.valueError) ∧
    (S = [] → generate eq H S = Except.error PyErr.valueError) ∧
    ((∀ x ∈ S, x ∈ H.Set) → S ≠ [] →
      ∃ K, generate eq H S = Except.ok K ∧
        IsConstrG eq K ∧ K.Set.Nodup ∧
        (∀ x ∈ S, x ∈ K.Set) ∧ (∀ x ∈ K.Set, x ∈ H.Set) ∧
        (∀ a ∈ K.Set, ∀ b ∈ K.Set, H.bin_op.rule (a, b) ∈ K.Set) ∧
        gle eq K H = Except.ok true ∧
        (∀ T' : List α, (∀ a ∈ T', ∀ b ∈ T', H.bin_op.rule (a, b) ∈ T') →
          (∀ x ∈ S, x ∈ T') → ∀ x ∈ K.Set, x ∈ T')) ∧
    (∃ K₁, generate eq H [H.e] = Except.ok K₁ ∧ glen K₁ = 1) := by
  refine ⟨generate_err_not_subset heq, ?_, ?_, ?_⟩
  · rintro rfl
    exact generate_err_nil
  · intro hsub hne
    obtain ⟨K, hK, hKc, hKnd, hKseed, hKsub, hKgen, hKclosed, hKop⟩ :=
      generate_ok_spec heq hG hnd hsub hne
    refine ⟨K, hK, hKc, hKnd, hKseed, hKsub, hKclosed,
      gle_ok heq hG hKsub hKop, ?_⟩
    intro T' hT'c hT's x hx
    exact GenBy_minimal hT'c hT's x ((hKgen x).mp hx)
  · obtain ⟨K₁, hK₁, hKc, hKnd, hKseed, hKsub, hKgen, _, _⟩ :=
      generate_ok_spec heq hG hnd (S := [H.e])
        (by intro x hx; rw [List.mem_singleton.mp hx]; exact hG.e_mem)
        (by simp)
    refine ⟨K₁, hK₁, ?_⟩
    have hmem : ∀ x, x ∈ K₁.Set ↔ x = H.e := by
      intro x
      rw [hKgen x]
      constructor
      · exact GenBy_single_e hG
      · rintro rfl
        exact GenBy.base (List.mem_singleton.mpr rfl)
    haveI : DecidableEq α := lawEq_decEq heq
    have : K₁.Set.toFinset = {H.e} := by
      ext x
      simp [List.mem_toFinset, hmem x]
    have hcard := List.toFinset_card_of_nodup hKnd
    rw [this, Finset.card_singleton] at hcard
    rw [glen, ← hcard]

/-- Witness for C4 at `Zn(3)` with seed `{1}`. -/
theorem claimC4_witness :
    ((¬ ∀ x ∈ [1], x ∈ zn3V.Set) →
      generate Nat.beq zn3V [1] = Except.error PyErr.valueError) ∧
    ([1] = ([] : List Nat) →
      generate Nat.beq zn3V [1] = Except.error PyErr.valueError) ∧
    ((∀ x ∈ [1], x ∈ zn3V.Set) → [1] ≠ ([] : List Nat) →
      ∃ K, generate Nat.beq zn3V [1] = Except.ok K ∧
        IsConstrG Nat.beq K ∧ K.Set.Nodup ∧
        (∀ x ∈ [1], x ∈ K.Set) ∧ (∀ x ∈ K.Set, x ∈ zn3V.Set) ∧
        (∀ a ∈ K.Set, ∀ b ∈ K.Set, zn3V.bin_op.rule (a, b) ∈ K.Set) ∧
        gle Nat.beq K zn3V = Except.ok true ∧
        (∀ T' : List Nat, (∀ a ∈ T', ∀ b ∈ T', zn3V.bin_op.rule (a, b) ∈ T') →
          (∀ x ∈ [1], x ∈ T') → ∀ x ∈ K.Set, x ∈ T')) ∧
    (∃ K₁, generate Nat.beq zn3V [zn3V.e] = Except.ok K₁ ∧ glen K₁ = 1) :=
  claimC4 lawEq_nat zn3_constr zn3_nodup [1]

/-! ## Genuine groups: subgroup carriers and the generator-doubling bound -/

theorem GenBy_mono {α : Type} {op : α × α → α} {S S' : List α}
    (h : ∀ x ∈ S, x ∈ S') {x : α} (hx : GenBy op S x) : GenBy op S' x := by
  induction hx with
  | base hmem => exact GenBy.base (h _ hmem)
  | mul _ _ ihx ihy => exact GenBy.mul ihx ihy

section GenuineSubgroups

variable {α : Type} {eq : α → α → Bool} {H : PyGroup α}

theorem nodup_sub_length (heq : LawEq eq) {T U : List α}
    (hT : T.Nodup) (hU : U.Nodup) (hsub : ∀ x ∈ T, x ∈ U) :
    T.length ≤ U.length := by
  haveI : DecidableEq α := lawEq_decEq heq
  have : T.toFinset ⊆ U.toFinset := by
    intro x hx
    exact List.mem_toFinset.mpr (hsub _ (List.mem_toFinset.mp hx))
  have := Finset.card_le_card this
  rwa [List.toFinset_card_of_nodup hT, List.toFinset_card_of_nodup hU] at this

theorem nodup_seteq_length (heq : LawEq eq) {T U : List α}
    (hT : T.Nodup) (hU : U.Nodup) (h1 : ∀ x ∈ T, x ∈ U) (h2 : ∀ x ∈ U, x ∈ T) :
    T.length = U.length :=
  Nat.le_antisymm (nodup_sub_length heq hT hU h1) (nodup_sub_length heq hU hT h2)

/-- In a genuine (two-sided) group, every nonempty product-closed subset
contains the identity and right inverses for its elements: it is a genuine
subgroup. -/
theorem closed_contains_e (heq : LawEq eq) (hG : IsConstrG eq H)
    (hnd : H.Set.Nodup) (ht : TwoSided H) {T : List α} (hTne : T ≠ [])
    (hTsub : ∀ x ∈ T, x ∈ H.Set) (hTnd : T.Nodup)
    (hTclosed : ∀ x ∈ T, ∀ y ∈ T, H.bin_op.rule (x, y) ∈ T) :
    H.e ∈ T ∧ ∀ a ∈ T, ∃ b ∈ T, H.bin_op.rule (a, b) = H.e := by
  haveI : DecidableEq α := lawEq_decEq heq
  obtain ⟨f, hfT, hfid⟩ := closed_has_leftId heq hG hnd hTne hTsub hTnd hTclosed
  have hfS : f ∈ H.Set := hTsub _ hfT
  -- the idempotent left identity of T must be the group identity
  have hfe : f = H.e := by
    have h1 : H.bin_op.rule (f, f) = f := hfid _ hfT
    have h2 : H.bin_op.rule (f, H.e) = f := ht _ hfS
    exact cancel_left hG ht hfS hfS hG.e_mem (h1.trans h2.symm)
  have heT : H.e ∈ T := hfe ▸ hfT
  refine ⟨heT, fun a ha => ?_⟩
  -- right inverses inside T by surjectivity of the left translation on T
  have hinj : ∀ x ∈ T, ∀ y ∈ T,
      H.bin_op.rule (a, x) = H.bin_op.rule (a, y) → x = y := by
    intro x hx y hy
    exact La_inj heq hG hnd (hTsub _ ha) _ (hTsub _ hx) _ (hTsub _ hy)
  have hsurj := Finset.surj_on_of_inj_on_of_card_le
    (s := T.toFinset) (t := T.toFinset)
    (fun (z : α) (_ : z ∈ T.toFinset) => H.bin_op.rule (a, z))
    (fun z hz => List.mem_toFinset.mpr
      (hTclosed _ ha _ (List.mem_toFinset.mp hz)))
    (fun x y hx hy hxy => hinj x (List.mem_toFinset.mp hx) y
      (List.mem_toFinset.mp hy) hxy)
    le_rfl
  obtain ⟨b, hb, hab⟩ := hsurj H.e (List.mem_toFinset.mpr heT)
  exact ⟨b, List.mem_toFinset.mp hb, hab.symm⟩

/-- The doubling bound: in a genuine group, a product-closed set `K`
containing a subgroup carrier `Hc` and an element `g` outside it has at
least `2 * |Hc|` elements (it contains the disjoint coset `g·Hc`). -/
theorem doubling (heq : LawEq eq) (hG : IsConstrG eq H)
    (hnd : H.Set.Nodup) (ht : TwoSided H) {Hc K : List α} {g : α}
    (hHcne : Hc ≠ []) (hHcsub : ∀ x ∈ Hc, x ∈ H.Set) (hHcnd : Hc.Nodup)
    (hHcclosed : ∀ x ∈ Hc, ∀ y ∈ Hc, H.bin_op.rule (x, y) ∈ Hc)
    (hgS : g ∈ H.Set) (hgHc : g ∉ Hc)
    (hKsub : ∀ x ∈ K, x ∈ H.Set) (hKnd : K.Nodup)
    (hKclosed : ∀ x ∈ K, ∀ y ∈ K, H.bin_op.rule (x, y) ∈ K)
    (hHcK : ∀ x ∈ Hc, x ∈ K) (hgK : g ∈ K) :
    2 * Hc.length ≤ K.length := by
  haveI : DecidableEq α := lawEq_decEq heq
  obtain ⟨heHc, hinvHc⟩ := closed_contains_e heq hG hnd ht hHcne hHcsub hHcnd hHcclosed
  set coset : Finset α := Hc.toFinset.image (fun h => H.bin_op.rule (g, h)) with hcoset
  have hcosetK : coset ⊆ K.toFinset := by
    intro x hx
    obtain ⟨h, hh, rfl⟩ := Finset.mem_image.mp hx
    exact List.mem_toFinset.mpr
      (hKclosed _ hgK _ (hHcK _ (List.mem_toFinset.mp hh)))
  have hHcKF : Hc.toFinset ⊆ K.toFinset := by
    intro x hx
    exact List.mem_toFinset.mpr (hHcK _ (List.mem_toFinset.mp hx))
  have hdisj : Disjoint Hc.toFinset coset := by
    rw [Finset.disjoint_right]
    intro x hx hxHc
    obtain ⟨h, hh, hghx⟩ := Finset.mem_image.mp hx
    have hhHc : h ∈ Hc := List.mem_toFinset.mp hh
    obtain ⟨h', hh', hhh'⟩ := hinvHc h hhHc
    -- g = (g·h)·h' lies in Hc, contradiction
    have hgval : g = H.bin_op.rule (H.bin_op.rule (g, h), h') := by
      rw [← hG.assoc _ hgS _ (hHcsub _ hhHc) _ (hHcsub _ hh'), hhh', ht _ hgS]
    rw [hghx] at hgval
    exact hgHc (hgval ▸ hHcclosed _ (List.mem_toFinset.mp hxHc) _ hh')
  have hcosetcard : coset.card = Hc.toFinset.card := by
    rw [hcoset]
    refine Finset.card_image_of_injOn ?_
    intro x hx y hy hxy
    exact La_inj heq hG hnd hgS _ (hHcsub _ (List.mem_toFinset.mp hx)) _
      (hHcsub _ (List.mem_toFinset.mp hy)) hxy
  have hunion : Hc.toFinset ∪ coset ⊆ K.toFinset :=
    Finset.union_subset hHcKF hcosetK
  have hcard := Finset.card_le_card hunion
  rw [Finset.card_union_of_disjoint hdisj, hcosetcard,
    List.toFinset_card_of_nodup hHcnd, List.toFinset_card_of_nodup hKnd] at hcard
  omega

end GenuineSubgroups

section GeneratorsSpec

variable {α : Type} {eq : α → α → Bool} {H : PyGroup α}

/-- The facts `generate_ok_spec` gives about a group already known to be the
result of a successful `generate`. -/
theorem generate_result_facts (heq : LawEq eq) (hG : IsConstrG eq H)
    (hnd : H.Set.Nodup) {S : List α} {K : PyGroup α}
    (hsub : ∀ x ∈ S, x ∈ H.Set) (hne : S ≠ [])
    (hgen : generate eq H S = Except.ok K) :
    IsConstrG eq K ∧ K.Set.Nodup ∧
      (∀ x ∈ S, x ∈ K.Set) ∧ (∀ x ∈ K.Set, x ∈ H.Set) ∧
      (∀ x, x ∈ K.Set ↔ GenBy H.bin_op.rule S x) ∧
      (∀ a ∈ K.Set, ∀ b ∈ K.Set, H.bin_op.rule (a, b) ∈ K.Set) := by
  obtain ⟨K', hK', h1, h2, h3, h4, h5, h6, _⟩ :=
    generate_ok_spec heq hG hnd hsub hne
  rw [hgen] at hK'
  have : K' = K := (Except.ok.inj hK').symm
  subst this
  exact ⟨h1, h2, h3, h4, h5, h6⟩

theorem generatorsLoop_spec (heq : LawEq eq) (hG : IsConstrG eq H)
    (hnd : H.Set.Nodup) (ht : TwoSided H) :
    ∀ (fuel : Nat) (result : List α) (Hsub : PyGroup α),
    (∀ x ∈ result, x ∈ H.Set) → result ≠ [] → result.Nodup →
    generate eq H result = Except.ok Hsub →
    2 ^ (result.length - 1) ≤ glen Hsub →
    glen H + 1 - glen Hsub ≤ fuel →
    ∃ A, generatorsLoop eq H fuel result Hsub = Except.ok A ∧
      (∃ t, A = result ++ t) ∧
      (∀ x ∈ A, x ∈ H.Set) ∧ A ≠ [] ∧ A.Nodup ∧
      2 ^ (A.length - 1) ≤ glen H ∧
      (∃ K, generate eq H A = Except.ok K ∧ glen K = glen H ∧
        (∀ x ∈ K.Set, x ∈ H.Set) ∧ (∀ x ∈ H.Set, x ∈ K.Set)) ∧
      (∀ x ∈ A.drop result.length, x ∉ Hsub.Set) := by
  intro fuel
  induction fuel with
  | zero =>
    intro result Hsub hsub hne hnodup hgen hpow hfuel
    exfalso
    obtain ⟨_, hKnd, _, hKsub, _, _⟩ :=
      generate_result_facts heq hG hnd hsub hne hgen
    have := nodup_sub_length heq hKnd hnd hKsub
    simp only [glen] at hfuel
    omega
  | succ fuel ih =>
    intro result Hsub hsub hne hnodup hgen hpow hfuel
    obtain ⟨hHc, hHcnd, hseedHc, hHcsub, hHcgen, hHcclosed⟩ :=
      generate_result_facts heq hG hnd hsub hne hgen
    rw [generatorsLoop]
    by_cases hlt : glen Hsub < glen H
    · rw [if_pos hlt]
      -- the difference is non-empty; its first element is picked
      have hdiffne : adiff eq H.Set Hsub.Set ≠ [] := by
        intro hc
        have hall : ∀ x ∈ H.Set, x ∈ Hsub.Set := by
          intro x hx
          by_contra hxn
          have : x ∈ adiff eq H.Set Hsub.Set := (mem_adiff heq).mpr ⟨hx, hxn⟩
          rw [hc] at this
          cases this
        have := nodup_sub_length heq hnd hHcnd hall
        simp only [glen] at hlt
        omega
      cases hdiff : adiff eq H.Set Hsub.Set with
      | nil => exact absurd hdiff hdiffne
      | cons g rest =>
        have hgmem : g ∈ adiff eq H.Set Hsub.Set := by
          rw [hdiff]
          exact List.mem_cons_self _ _
        obtain ⟨hgS, hgHsub⟩ := (mem_adiff heq).mp hgmem
        have hsub' : ∀ x ∈ result ++ [g], x ∈ H.Set := by
          intro x hx
          rcases List.mem_append.mp hx with hx | hx
          · exact hsub _ hx
          · rw [List.mem_singleton.mp hx]
            exact hgS
        have hne' : result ++ [g] ≠ [] := by simp
        have hnodup' : (result ++ [g]).Nodup := by
          rw [List.nodup_append]
          refine ⟨hnodup, List.nodup_singleton _, ?_⟩
          intro x hx
          rw [List.mem_singleton]
          intro hxg
          exact hgHsub (hxg ▸ hseedHc _ hx)
        obtain ⟨Hsub', hgen', hHc', hHcnd', hseedHc', hHcsub', hHcgen',
          hHcclosed', _⟩ := generate_ok_spec heq hG hnd hsub' hne'
        -- the old carrier is contained in the new one
        have hmono : ∀ x ∈ Hsub.Set, x ∈ Hsub'.Set := by
          intro x hx
          rw [hHcgen' x]
          refine GenBy_mono ?_ ((hHcgen x).mp hx)
          intro y hy
          exact List.mem_append_left _ hy
        -- doubling
        have hHcne : Hsub.Set ≠ [] := by
          cases result with
          | nil => exact absurd rfl hne
          | cons a l =>
            exact List.ne_nil_of_mem (hseedHc a (List.mem_cons_self _ _))
        have hdouble : 2 * Hsub.Set.length ≤ Hsub'.Set.length :=
          doubling heq hG hnd ht hHcne hHcsub hHcnd hHcclosed hgS
            (fun hc => hgHsub ((hHcgen g).mpr ((hHcgen g).mp hc)))
            hHcsub' hHcnd' hHcclosed' hmono
            (hseedHc' g (List.mem_append_right _ (List.mem_singleton.mpr rfl)))
        have hpow' : 2 ^ ((result ++ [g]).length - 1) ≤ glen Hsub' := by
          rw [List.length_append, List.length_singleton]
          have h1 : result.length + 1 - 1 = (result.length - 1) + 1 := by
            cases result with
            | nil => exact absurd rfl hne
            | cons a l => simp
          rw [h1, pow_succ]
          have hmul : 2 ^ (result.length - 1) * 2 ≤ Hsub.Set.length * 2 :=
            Nat.mul_le_mul_right 2 hpow
          show 2 ^ (result.length - 1) * 2 ≤ Hsub'.Set.length
          omega
        have hlen1 : 1 ≤ glen Hsub := by
          have := List.length_pos.mpr hHcne
          simp only [glen]
          omega
        have hfuel' : glen H + 1 - glen Hsub' ≤ fuel := by
          have hfuel2 : H.Set.length + 1 - Hsub.Set.length ≤ fuel + 1 := hfuel
          have hlen2 : 1 ≤ Hsub.Set.length := hlen1
          have hlt2 : Hsub.Set.length < H.Set.length := hlt
          show H.Set.length + 1 - Hsub'.Set.length ≤ fuel
          omega
        obtain ⟨A, hA, ⟨t, hAt⟩, q2, q3, q4, q5, q6, q7⟩ :=
          ih (result ++ [g]) Hsub' hsub' hne' hnodup' hgen' hpow' hfuel'
        refine ⟨A, ?_, ⟨[g] ++ t, by rw [hAt, List.append_assoc]⟩,
          q2, q3, q4, q5, q6, ?_⟩
        · show (do
            let Hsub ← generate eq H (result ++ [g])
            generatorsLoop eq H fuel (result ++ [g]) Hsub) = Except.ok A
          rw [hgen', ok_bind]
          exact hA
        · -- the dropped part starts at g, and everything there avoids Hsub
          intro x hx
          rw [hAt, List.append_assoc, List.drop_left] at hx
          rcases List.mem_append.mp hx with hx | hx
          · rw [List.mem_singleton.mp hx]
            exact hgHsub
          · have hxA : x ∈ A.drop (result ++ [g]).length := by
              rw [hAt, List.drop_left]
              exact hx
            intro hxHsub
            exact q7 x hxA (hmono _ hxHsub)
    · rw [if_neg hlt]
      have hle : glen Hsub ≤ glen H := by
        have := nodup_sub_length heq hHcnd hnd hHcsub
        simp only [glen]
        omega
      have heqlen : glen Hsub = glen H := by omega
      haveI : DecidableEq α := lawEq_decEq heq
      have hall : ∀ x ∈ H.Set, x ∈ Hsub.Set := by
        have hFsub : Hsub.Set.toFinset ⊆ H.Set.toFinset := by
          intro x hx
          exact List.mem_toFinset.mpr (hHcsub _ (List.mem_toFinset.mp hx))
        have hcard : H.Set.toFinset.card ≤ Hsub.Set.toFinset.card := by
          rw [List.toFinset_card_of_nodup hHcnd, List.toFinset_card_of_nodup hnd]
          simp only [glen] at heqlen
          omega
        have := Finset.eq_of_subset_of_card_le hFsub hcard
        intro x hx
        exact List.mem_toFinset.mp (this ▸ List.mem_toFinset.mpr hx)
      exact ⟨result, rfl, ⟨[], by simp⟩, hsub, hne, hnodup,
        heqlen ▸ hpow, ⟨Hsub, hgen, heqlen, hHcsub, hall⟩, by simp⟩

end GeneratorsSpec

theorem length_one_eq {α : Type} {l : List α} (hl : l.length = 1) {a b : α}
    (ha : a ∈ l) (hb : b ∈ l) : a = b := by
  cases l with
  | nil => cases ha
  | cons x t =>
    cases t with
    | nil =>
      rw [List.mem_singleton.mp ha, List.mem_singleton.mp hb]
    | cons y t => simp at hl

section GeneratorsMain

variable {α : Type} {eq : α → α → Bool} {H : PyGroup α}

/-- Full specification of `Group.generators` on a genuine group: the greedy
loop succeeds, the result has at most `log₂|G| + 1` elements, generates the
whole group, starts from (and then drops) the identity, and consists of
distinct group elements. -/
theorem generators_spec (heq : LawEq eq) (hG : IsConstrG eq H)
    (hnd : H.Set.Nodup) (ht : TwoSided H) :
    ∃ A, generators eq H = Except.ok A ∧
      A.length ≤ Nat.log 2 (glen H) + 1 ∧
      (∃ K, generate eq H A = Except.ok K ∧ glen K = glen H) ∧
      (glen H ≠ 1 → H.e ∉ A) ∧ (glen H = 1 → A = [H.e]) ∧
      A ≠ [] ∧ (∀ x ∈ A, x ∈ H.Set) ∧ A.Nodup := by
  have hsub0 : ∀ x ∈ [H.e], x ∈ H.Set := by
    intro x hx
    rw [List.mem_singleton.mp hx]
    exact hG.e_mem
  have hne0 : [H.e] ≠ ([] : List α) := by simp
  obtain ⟨K₀, hgen₀, hK₀c, hK₀nd, hK₀seed, hK₀sub, hK₀gen, _, _⟩ :=
    generate_ok_spec heq hG hnd hsub0 hne0
  have heK₀ : H.e ∈ K₀.Set := hK₀seed _ (List.mem_singleton.mpr rfl)
  have hK₀len : glen K₀ = 1 := by
    have hmem : ∀ x, x ∈ K₀.Set ↔ x = H.e := by
      intro x
      rw [hK₀gen x]
      constructor
      · exact GenBy_single_e hG
      · rintro rfl
        exact GenBy.base (List.mem_singleton.mpr rfl)
    exact nodup_seteq_length heq hK₀nd (List.nodup_singleton _)
      (fun x hx => List.mem_singleton.mpr ((hmem x).mp hx))
      (fun x hx => (hmem x).mpr (List.mem_singleton.mp hx))
  have hlenH : 1 ≤ glen H := by
    have := List.ne_nil_of_mem hG.e_mem
    have := List.length_pos.mpr this
    simpa [glen] using this
  obtain ⟨A, hloop, ⟨t, hAt⟩, hAsub, hAne, hAnd, hApow, ⟨K, hKgen, hKlen,
      hKsub, hKall⟩, hAdrop⟩ :=
    generatorsLoop_spec heq hG hnd ht (glen H + 1) [H.e] K₀ hsub0 hne0
      (List.nodup_singleton _) hgen₀ (by simp [hK₀len]) (by omega)
  have hArun : generators eq H =
      Except.ok (if glen H != 1 then A.drop 1 else A) := by
    rw [generators, hgen₀, ok_bind, hloop, ok_bind]
    rfl
  have hdropA : A.drop 1 = t := by
    rw [hAt]
    rfl
  have hAcons : A = H.e :: t := by
    rw [hAt]
    rfl
  by_cases h1 : glen H = 1
  · -- trivial group: the loop exits immediately with [e]
    have htnil : t = [] := by
      cases ht' : t with
      | nil => rfl
      | cons y s =>
        exfalso
        have hyA : y ∈ A.drop 1 := by
          rw [hdropA, ht']
          exact List.mem_cons_self _ _
        have hyd := hAdrop y (by simpa [List.length_singleton] using hyA)
        have hyS : y ∈ H.Set := hAsub y (by
          rw [hAcons, ht']
          exact List.mem_cons_of_mem _ (List.mem_cons_self _ _))
        -- |G| = 1 forces y = e, which lies in K₀
        have : y = H.e := length_one_eq h1 hyS hG.e_mem
        exact hyd (this ▸ heK₀)
    have hA1 : A = [H.e] := by rw [hAcons, htnil]
    refine ⟨A, ?_, ?_, ⟨K, hKgen, hKlen⟩, fun hc => absurd h1 hc, fun _ => hA1,
      hAne, hAsub, hAnd⟩
    · rw [hArun, if_neg]
      simp [h1]
    · rw [hA1, h1]
      simp
  · -- non-trivial group: the identity is dropped
    have hAif : (if glen H != 1 then A.drop 1 else A) = t := by
      rw [if_pos (by simpa using h1), hdropA]
    have htne : t ≠ [] := by
      intro hc
      have hAe : A = [H.e] := by rw [hAcons, hc]
      rw [hAe] at hKgen
      rw [hgen₀] at hKgen
      have : K₀ = K := Except.ok.inj hKgen
      rw [← this] at hKlen
      exact h1 (hKlen ▸ hK₀len.symm ▸ hK₀len)
    have htsub : ∀ x ∈ t, x ∈ H.Set := by
      intro x hx
      exact hAsub x (by rw [hAcons]; exact List.mem_cons_of_mem _ hx)
    obtain ⟨K', hK'gen, hK'c, hK'nd, hK'seed, hK'sub, hK'gench, hK'closed, _⟩ :=
      generate_ok_spec heq hG hnd htsub htne
    -- the closure of t is still the whole group: it contains e and all of t
    have heK' : H.e ∈ K'.Set :=
      (closed_contains_e heq hG hnd ht
        (by
          intro hc
          rw [hc] at hK'seed
          cases t with
          | nil => exact htne rfl
          | cons y s =>
            have := hK'seed y (List.mem_cons_self _ _)
            cases this)
        hK'sub hK'nd hK'closed).1
    have hKinK' : ∀ x ∈ K.Set, x ∈ K'.Set := by
      have hfacts := generate_result_facts heq hG hnd
        (S := A) hAsub hAne hKgen
      intro x hx
      have hgen := (hfacts.2.2.2.2.1 x).mp hx
      refine GenBy_minimal hK'closed ?_ x hgen
      intro y hy
      rw [hAcons] at hy
      rcases List.mem_cons.mp hy with rfl | hy
      · exact heK'
      · exact hK'seed _ hy
    have hK'all : ∀ x ∈ H.Set, x ∈ K'.Set := fun x hx => hKinK' _ (hKall _ hx)
    have hK'len : glen K' = glen H :=
      nodup_seteq_length heq hK'nd hnd hK'sub hK'all
    have hlenbound : t.length ≤ Nat.log 2 (glen H) + 1 := by
      have hA1 : A.length = t.length + 1 := by
        rw [hAcons]
        simp
      have hpow2 : 2 ^ t.length ≤ glen H := by
        have : A.length - 1 = t.length := by omega
        rwa [this] at hApow
      have := (Nat.pow_le_iff_le_log (by norm_num) (by omega)).mp hpow2
      omega
    have hte : H.e ∉ t := by
      intro hc
      have := hAdrop H.e (by simpa [hdropA] using hc)
      exact this heK₀
    refine ⟨t, by rw [hArun, hAif], hlenbound, ⟨K', hK'gen, hK'len⟩,
      fun _ => hte, fun hc => absurd hc h1, htne, htsub, ?_⟩
    exact hdropA ▸ ((List.drop_sublist 1 A).nodup hAnd)

end GeneratorsMain

/-! ## Claim C5 -/

/-- C5 (amended).  For every constructed Group whose identity is two-sided
(a genuine group), `generators()` succeeds with a list of at most
`floor(log2(|G|)) + 1` elements, the subgroup it generates has the same
order as the group, and the identity is dropped from the list unless the
group is trivial.  On constructed Groups that only satisfy the one-sided
checks both the length bound and the same-order property can fail
(`claimC5_counterexample`). -/
theorem claimC5 {α : Type} {eq : α → α → Bool} {H : PyGroup α}
    (heq : LawEq eq) (hG : IsConstrG eq H) (hnd : H.Set.Nodup)
    (ht : TwoSided H) :
    ∃ A, generators eq H = Except.ok A ∧
      A.length ≤ Nat.log 2 (glen H) + 1 ∧
      (∃ K, generate eq H A = Except.ok K ∧ glen K = glen H) ∧
      (glen H ≠ 1 → H.e ∉ A) ∧ (glen H = 1 → A = [H.e]) := by
  obtain ⟨A, h1, h2, h3, h4, h5, _, _, _⟩ := generators_spec heq hG hnd ht
  exact ⟨A, h1, h2, h3, h4, h5⟩

/-- Witness for C5 at `Zn(6)`. -/
theorem claimC5_witness :
    ∃ A, generators Nat.beq zn6V = Except.ok A ∧
      A.length ≤ Nat.log 2 (glen zn6V) + 1 ∧
      (∃ K, generate Nat.beq zn6V A = Except.ok K ∧ glen K = glen zn6V) ∧
      (glen zn6V ≠ 1 → zn6V.e ∉ A) ∧ (glen zn6V = 1 → A = [zn6V.e]) :=
  claimC5 lawEq_nat zn6_constr zn6_nodup zn6_twoSided

/-- C5 counterexample: on the constructed right-zero Group on five elements
(accepted by `Group.__init__`), `generators()` returns `[1, 2, 3, 4]`: its
length 4 exceeds the claimed bound `floor(log2(5)) + 1 = 3`, and the subgroup
generated by the returned list has order 4, not 5. -/
theorem claimC5_counterexample :
    rz 5 = Except.ok rz5V ∧
    generators Nat.beq rz5V = Except.ok [1, 2, 3, 4] ∧
    Nat.log 2 (glen rz5V) + 1 = 3 ∧
    ¬ ([1, 2, 3, 4] : List Nat).length ≤ 3 ∧
    (generate Nat.beq rz5V [1, 2, 3, 4]).map glen = Except.ok 4 ∧
    glen rz5V = 5 := by
  have hlog : Nat.log 2 5 = 2 :=
    Nat.log_eq_of_pow_le_of_lt_pow (by norm_num) (by norm_num)
  refine ⟨rz5_ok, by rfl, ?_, by decide, by rfl, rfl⟩
  show Nat.log 2 5 + 1 = 3
  omega

/-! ## Homomorphisms: kernel and image (claim C8) -/

section HomSpec

variable {α β : Type} {eqa : α → α → Bool} {eqb : β → β → Bool}
variable {D : PyGroup α} {C : PyGroup β} {f : α → Except PyErr β}

theorem allE_bool_inv {γ : Type} {p : γ → Except PyErr Bool} {l : List γ}
    {b : Bool} (h : allE p l = Except.ok b) (hb : b = true) :
    ∀ a ∈ l, p a = Except.ok true := by
  subst hb
  exact allE_true_iff.mp h

/-- Inversion of a successful `GroupHomomorphism.__init__`: the stored data,
totality of the mapping into the codomain, and the homomorphism law. -/
theorem mkHom_ok_inv (heqa : LawEq eqa) (heqb : LawEq eqb)
    (hD : IsConstrG eqa D) (hC : IsConstrG eqb C) {h : PyHom α β}
    (hmk : mkHom eqa eqb D C f = Except.ok h) :
    h.domain = D ∧ h.codomain = C ∧ h.function = f ∧
    (∀ g ∈ D.Set, ∃ v, f g = Except.ok v ∧ v ∈ C.Set) ∧
    (∀ a ∈ D.Set, ∀ b ∈ D.Set, ∀ va vb vab, f a = Except.ok va →
      f b = Except.ok vb → f (D.bin_op.rule (a, b)) = Except.ok vab →
      vab = C.bin_op.rule (va, vb)) := by
  rw [mkHom] at hmk
  obtain ⟨ok₁, hok₁, hmk⟩ := bind_ok_inv hmk
  have hok₁T : ok₁ = true := by
    cases ok₁ with
    | true => rfl
    | false => exact absurd hmk (by simp [throw, throwThe, MonadExceptOf.throw])
  subst hok₁T
  simp only [Bool.not_true, Bool.false_eq_true, if_false] at hmk
  obtain ⟨ok₂, hok₂, hmk⟩ := bind_ok_inv hmk
  have hok₂T : ok₂ = true := by
    cases ok₂ with
    | true => rfl
    | false => exact absurd hmk (by simp [throw, throwThe, MonadExceptOf.throw])
  subst hok₂T
  simp only [Bool.not_true, Bool.false_eq_true, if_false] at hmk
  have hh : h = { domain := D, codomain := C, function := f } := by
    have hpure : (pure { domain := D, codomain := C, function := f } :
        Except PyErr (PyHom α β)) =
        Except.ok { domain := D, codomain := C, function := f } := rfl
    rw [hpure] at hmk
    exact (Except.ok.inj hmk).symm
  have htot : ∀ g ∈ D.Set, ∃ v, f g = Except.ok v ∧ v ∈ C.Set := by
    intro g hg
    have := allE_true_iff.mp hok₁ g ((mem_iterOrder heqa hD).mpr hg)
    obtain ⟨v, hv, hrest⟩ := bind_ok_inv this
    refine ⟨v, hv, ?_⟩
    have : amem eqb v C.Set = true := by
      have hp : (pure (amem eqb v C.Set) : Except PyErr Bool) =
          Except.ok (amem eqb v C.Set) := rfl
      rw [hp] at hrest
      exact (Except.ok.inj hrest).symm ▸ rfl
    exact (amem_iff heqb).mp this
  refine ⟨by rw [hh], by rw [hh], by rw [hh], htot, ?_⟩
  intro a ha b hb va vb vab hva hvb hvab
  have hpair : (a, b) ∈ aprod (iterOrder eqa D) (iterOrder eqa D) :=
    mem_aprod.mpr ⟨(mem_iterOrder heqa hD).mpr ha, (mem_iterOrder heqa hD).mpr hb⟩
  have hlaw := allE_true_iff.mp hok₂ (a, b) hpair
  rw [show emul eqa D a b = Except.ok (D.bin_op.rule (a, b)) from
      emul_ok heqa hD ha hb, ok_bind] at hlaw
  rw [hvab, ok_bind, hva, ok_bind, hvb, ok_bind] at hlaw
  have hvaC : va ∈ C.Set := by
    obtain ⟨v, hv, hvC⟩ := htot a ha
    rw [hva] at hv
    rwa [Except.ok.inj hv]
  have hvbC : vb ∈ C.Set := by
    obtain ⟨v, hv, hvC⟩ := htot b hb
    rw [hvb] at hv
    rwa [Except.ok.inj hv]
  rw [show emul eqb C va vb = Except.ok (C.bin_op.rule (va, vb)) from
      emul_ok heqb hC hvaC hvbC, ok_bind] at hlaw
  have : eqb vab (C.bin_op.rule (va, vb)) = true := by
    have hp : (pure (eqb vab (C.bin_op.rule (va, vb))) : Except PyErr Bool) =
        Except.ok (eqb vab (C.bin_op.rule (va, vb))) := rfl
    rw [hp] at hlaw
    exact (Except.ok.inj hlaw).symm ▸ rfl
  exact (heqb _ _).mp this

end HomSpec

/-! ## Claim C8 -/

/-- C8 (amended).  For every `GroupHomomorphism` successfully constructed
between two genuine groups (constructed Groups whose identities are
two-sided), `kernel()` and `image()` succeed and
`len(kernel) * len(image) = len(domain)` (the order form of the first
isomorphism theorem).  For homomorphisms between constructed Groups that
only satisfy the one-sided checks the equation can fail
(`claimC8_counterexample`). -/
theorem claimC8 {α β : Type} {eqa : α → α → Bool} {eqb : β → β → Bool}
    {D : PyGroup α} {C : PyGroup β} {f : α → Except PyErr β} {h : PyHom α β}
    (heqa : LawEq eqa) (heqb : LawEq eqb)
    (hD : IsConstrG eqa D) (hndD : D.Set.Nodup) (htD : TwoSided D)
    (hC : IsConstrG eqb C) (hndC : C.Set.Nodup) (htC : TwoSided C)
    (hmk : mkHom eqa eqb D C f = Except.ok h) :
    ∃ K I, kernel eqa eqb h = Except.ok K ∧ image eqa eqb h = Except.ok I ∧
      glen K * glen I = glen h.domain := by
  haveI : DecidableEq α := lawEq_decEq heqa
  haveI : DecidableEq β := lawEq_decEq heqb
  obtain ⟨hhd, hhc, hhf, htot, hlaw⟩ := mkHom_ok_inv heqa heqb hD hC hmk
  -- the pure view of the mapping
  set F : α → β := fun g => match f g with | .ok v => v | .error _ => C.e with hFdef
  have hF : ∀ g ∈ D.Set, f g = Except.ok (F g) ∧ F g ∈ C.Set := by
    intro g hg
    obtain ⟨v, hv, hvC⟩ := htot g hg
    have : F g = v := by rw [hFdef]; simp only [hv]
    rw [this]
    exact ⟨hv, hvC⟩
  have hhom : ∀ a ∈ D.Set, ∀ b ∈ D.Set,
      F (D.bin_op.rule (a, b)) = C.bin_op.rule (F a, F b) := by
    intro a ha b hb
    exact hlaw a ha b hb (F a) (F b) (F (D.bin_op.rule (a, b)))
      (hF a ha).1 (hF b hb).1 (hF _ (hD.closed _ ha _ hb)).1
  have hFeC : F D.e ∈ C.Set := (hF _ hD.e_mem).2
  have hFe : F D.e = C.e := by
    have h1 : C.bin_op.rule (F D.e, F D.e) = F D.e := by
      have := hhom D.e hD.e_mem D.e hD.e_mem
      rw [hD.e_left _ hD.e_mem] at this
      exact this.symm
    have h2 : C.bin_op.rule (F D.e, C.e) = F D.e := htC _ hFeC
    exact cancel_left hC htC hFeC hFeC hC.e_mem (h1.trans h2.symm)
  -- the kernel list
  set q : α → Bool := fun g => eqb (F g) C.e with hqdef
  have hkfilter : filterE (fun g => do
      let v ← h.function g
      pure (eqb v h.codomain.e)) (iterOrder eqa h.domain) =
      Except.ok ((iterOrder eqa D).filter q) := by
    rw [hhd, hhc, hhf]
    refine filterE_ok (fun g hg => ?_)
    rw [(hF g ((mem_iterOrder heqa hD).mp hg)).1, ok_bind]
    rfl
  set Klist : List α := adedup eqa ((iterOrder eqa D).filter q) with hKdef
  have hKmem : ∀ x, x ∈ Klist ↔ x ∈ D.Set ∧ F x = C.e := by
    intro x
    rw [hKdef, mem_adedup heqa, List.mem_filter, mem_iterOrder heqa hD, hqdef]
    exact and_congr_right (fun _ => heqb _ _)
  have hKne : Klist ≠ [] :=
    List.ne_nil_of_mem ((hKmem D.e).mpr ⟨hD.e_mem, hFe⟩)
  have hKsub : ∀ x ∈ Klist, x ∈ D.Set := fun x hx => ((hKmem x).mp hx).1
  have hKnd : Klist.Nodup := nodup_adedup heqa
  have hKclosed : ∀ x ∈ Klist, ∀ y ∈ Klist, D.bin_op.rule (x, y) ∈ Klist := by
    intro x hx y hy
    obtain ⟨hxS, hxK⟩ := (hKmem x).mp hx
    obtain ⟨hyS, hyK⟩ := (hKmem y).mp hy
    refine (hKmem _).mpr ⟨hD.closed _ hxS _ hyS, ?_⟩
    rw [hhom _ hxS _ hyS, hxK, hyK, hC.e_left _ hC.e_mem]
  have hKchecks := closure_GChecks heqa hD hndD hKne hKsub hKnd hKclosed
  obtain ⟨eK, heK, _⟩ := hKchecks.identFound
  have hKmk := mkGroup_ok_of_checks heqa hKchecks heK
  -- the image list
  have himap : mapE h.function (iterOrder eqa h.domain) =
      Except.ok ((iterOrder eqa D).map F) := by
    rw [hhd, hhf]
    exact mapE_ok (fun g hg => (hF g ((mem_iterOrder heqa hD).mp hg)).1)
  set Ilist : List β := adedup eqb ((iterOrder eqa D).map F) with hIdef
  have hImem : ∀ y, y ∈ Ilist ↔ ∃ g ∈ D.Set, F g = y := by
    intro y
    rw [hIdef, mem_adedup heqb, List.mem_map]
    constructor
    · rintro ⟨g, hg, rfl⟩
      exact ⟨g, (mem_iterOrder heqa hD).mp hg, rfl⟩
    · rintro ⟨g, hg, rfl⟩
      exact ⟨g, (mem_iterOrder heqa hD).mpr hg, rfl⟩
  have hIne : Ilist ≠ [] :=
    List.ne_nil_of_mem ((hImem (F D.e)).mpr ⟨D.e, hD.e_mem, rfl⟩)
  have hIsub : ∀ y ∈ Ilist, y ∈ C.Set := by
    intro y hy
    obtain ⟨g, hg, rfl⟩ := (hImem y).mp hy
    exact (hF g hg).2
  have hInd : Ilist.Nodup := nodup_adedup heqb
  have hIclosed : ∀ x ∈ Ilist, ∀ y ∈ Ilist, C.bin_op.rule (x, y) ∈ Ilist := by
    intro x hx y hy
    obtain ⟨g₁, hg₁, rfl⟩ := (hImem x).mp hx
    obtain ⟨g₂, hg₂, rfl⟩ := (hImem y).mp hy
    exact (hImem _).mpr ⟨D.bin_op.rule (g₁, g₂), hD.closed _ hg₁ _ hg₂,
      hhom _ hg₁ _ hg₂⟩
  have hIchecks := closure_GChecks heqb hC hndC hIne hIsub hInd hIclosed
  obtain ⟨eI, heI, _⟩ := hIchecks.identFound
  have hImk := mkGroup_ok_of_checks heqb hIchecks heI
  -- run kernel and image
  refine ⟨PyGroup.mk Klist (D.bin_op.new_domains (aprod Klist Klist) Klist) eK
      (abelB eqa Klist (D.bin_op.new_domains (aprod Klist Klist) Klist)),
    PyGroup.mk Ilist (C.bin_op.new_domains (aprod Ilist Ilist) Ilist) eI
      (abelB eqb Ilist (C.bin_op.new_domains (aprod Ilist Ilist) Ilist)),
    ?_, ?_, ?_⟩
  · rw [kernel, hkfilter, ok_bind]
    rw [show h.domain.bin_op = D.bin_op from by rw [hhd]]
    exact hKmk
  · rw [image, himap, ok_bind]
    rw [show h.codomain.bin_op = C.bin_op from by rw [hhc]]
    exact hImk
  · -- the counting argument
    show Klist.length * Ilist.length = glen h.domain
    rw [hhd]
    have hKcard : Klist.length = Klist.toFinset.card :=
      (List.toFinset_card_of_nodup hKnd).symm
    have hIcard : Ilist.length = Ilist.toFinset.card :=
      (List.toFinset_card_of_nodup hInd).symm
    have hDcard : glen D = D.Set.toFinset.card :=
      (List.toFinset_card_of_nodup hndD).symm
    have hmaps : ∀ x ∈ D.Set.toFinset, F x ∈ Ilist.toFinset := by
      intro x hx
      exact List.mem_toFinset.mpr
        ((hImem _).mpr ⟨x, List.mem_toFinset.mp hx, rfl⟩)
    have hsum := Finset.card_eq_sum_card_fiberwise hmaps
    have hfiber : ∀ y ∈ Ilist.toFinset,
        (D.Set.toFinset.filter (fun x => F x = y)).card =
          Klist.toFinset.card := by
      intro y hy
      obtain ⟨x₀, hx₀S, hx₀y⟩ := (hImem y).mp (List.mem_toFinset.mp hy)
      have hyC : y ∈ C.Set := hx₀y ▸ (hF _ hx₀S).2
      refine (Finset.card_bij
        (fun (t : α) (_ : t ∈ Klist.toFinset) => D.bin_op.rule (x₀, t))
        ?_ ?_ ?_).symm
      · intro t htK
        obtain ⟨htS, htF⟩ := (hKmem t).mp (List.mem_toFinset.mp htK)
        refine Finset.mem_filter.mpr ⟨List.mem_toFinset.mpr
          (hD.closed _ hx₀S _ htS), ?_⟩
        rw [hhom _ hx₀S _ htS, htF, hx₀y, htC _ hyC]
      · intro t₁ ht₁ t₂ ht₂ hteq
        exact cancel_left hD htD hx₀S
          (hKsub _ (List.mem_toFinset.mp ht₁))
          (hKsub _ (List.mem_toFinset.mp ht₂)) hteq
      · intro g hg
        obtain ⟨hgS, hgF⟩ := Finset.mem_filter.mp hg
        have hgS' : g ∈ D.Set := List.mem_toFinset.mp hgS
        obtain ⟨b, hbS, hxb⟩ := hD.inv x₀ hx₀S
        have hbx : D.bin_op.rule (b, x₀) = D.e :=
          left_inv_of_right hD htD hx₀S hbS hxb
        refine ⟨D.bin_op.rule (b, g), List.mem_toFinset.mpr
          ((hKmem _).mpr ⟨hD.closed _ hbS _ hgS', ?_⟩), ?_⟩
        · rw [hhom _ hbS _ hgS', hgF, ← hx₀y,
            ← hhom _ hbS _ hx₀S, hbx, hFe]
        · show D.bin_op.rule (x₀, D.bin_op.rule (b, g)) = g
          rw [hD.assoc _ hx₀S _ hbS _ hgS', hxb, hD.e_left _ hgS']
    rw [hDcard, hsum, Finset.sum_congr rfl hfiber, Finset.sum_const,
      smul_eq_mul, hKcard, hIcard, Nat.mul_comm]

/-- The identity map on `Zn(3)` as the lambda fed to `GroupHomomorphism`. -/
def zn3idf : Nat → Except PyErr Nat := fun g => Except.ok g

theorem claimC8_witness :
    ∃ K I, kernel Nat.beq Nat.beq (PyHom.mk zn3V zn3V zn3idf) = Except.ok K ∧
      image Nat.beq Nat.beq (PyHom.mk zn3V zn3V zn3idf) = Except.ok I ∧
      glen K * glen I = glen (PyHom.mk zn3V zn3V zn3idf).domain :=
  claimC8 (f := zn3idf) lawEq_nat lawEq_nat zn3_constr zn3_nodup zn3_twoSided
    zn3_constr zn3_nodup zn3_twoSided (by rfl)

/-- A function on the constructed right-zero structure on three elements:
`0 ↦ 0`, everything else `↦ 2`.  `GroupHomomorphism.__init__` accepts it
(in a right-zero magma `f(a*b) = f(b) = f(a)*f(b)` always holds). -/
def rz3f : Nat → Except PyErr Nat :=
  fun g => Except.ok (if g = 0 then 0 else 2)

/-- The `GroupHomomorphism` object built from `rz3f`. -/
def rz3hom : PyHom Nat Nat := PyHom.mk rz3V rz3V rz3f

/-- C8 counterexample: `GroupHomomorphism(rz3, rz3, rz3f)` is successfully
constructed (the Group on which it lives passed `Group.__init__`), yet its
kernel has order 1, its image order 2, and its domain order 3, so
`len(kernel) * len(image) == len(domain)` fails: the one-sided axiom checks
admit structures on which the first isomorphism theorem is false. -/
theorem claimC8_counterexample :
    mkHom Nat.beq Nat.beq rz3V rz3V rz3f = Except.ok rz3hom ∧
    Except.map glen (kernel Nat.beq Nat.beq rz3hom) = Except.ok 1 ∧
    Except.map glen (image Nat.beq Nat.beq rz3hom) = Except.ok 2 ∧
    glen rz3hom.domain = 3 ∧ 1 * 2 ≠ 3 :=
  ⟨rfl, rfl, rfl, rfl, by decide⟩

/-! ## Claim C9: `Group.subgroups` -/

section SubgroupsSpec

variable {α : Type} {eq : α → α → Bool} {H : PyGroup α}

/-- The shape of every `Group` object produced by `Group.generate` from a
parent group `H`: a constructed, deduplicated, nonempty, product-closed
subset of the parent's carrier, with the parent's operation restricted. -/
structure SubShape (eq : α → α → Bool) (H : PyGroup α) (K : PyGroup α) :
    Prop where
  constr : IsConstrG eq K
  nodup : K.Set.Nodup
  ne : K.Set ≠ []
  sub : ∀ x ∈ K.Set, x ∈ H.Set
  closed : ∀ a ∈ K.Set, ∀ b ∈ K.Set, H.bin_op.rule (a, b) ∈ K.Set
  op : K.bin_op = H.bin_op.new_domains (aprod K.Set K.Set) K.Set

/-- Membership test semantics for an arbitrary (not necessarily lawful)
element equality, as used with `Group.__eq__` on collections of groups. -/
theorem amem_exists {β : Type} {eqb : β → β → Bool} {a : β} {l : List β} :
    amem eqb a l = true ↔ ∃ b ∈ l, eqb a b = true := by
  simp [amem, List.any_eq_true]

theorem aseteq_exists {β : Type} {eqb : β → β → Bool} {l₁ l₂ : List β} :
    aseteq eqb l₁ l₂ = true ↔
      (∀ a ∈ l₁, ∃ b ∈ l₂, eqb a b = true) ∧
      (∀ a ∈ l₂, ∃ b ∈ l₁, eqb a b = true) := by
  simp [aseteq, asubset, List.all_eq_true, amem_exists]

theorem aseteq_refl {β : Type} {eqb : β → β → Bool} (heq : LawEq eqb)
    (l : List β) : aseteq eqb l l = true :=
  aseteq_exists.mpr ⟨fun a ha => ⟨a, ha, lawEq_refl heq a⟩,
    fun a ha => ⟨a, ha, lawEq_refl heq a⟩⟩

theorem mem_of_mem_adedupAux {β : Type} {eqb : β → β → Bool}
    {l seen : List β} {x : β} (hx : x ∈ adedupAux eqb seen l) : x ∈ l := by
  induction l generalizing seen with
  | nil => cases hx
  | cons a l ih =>
    rw [adedupAux] at hx
    by_cases h : seen.any (fun s => eqb s a) = true
    · rw [if_pos h] at hx
      exact List.mem_cons_of_mem _ (ih hx)
    · rw [if_neg h] at hx
      rcases List.mem_cons.mp hx with rfl | hx
      · exact List.mem_cons_self _ _
      · exact List.mem_cons_of_mem _ (ih hx)

theorem seen_false_of_mem_adedupAux {β : Type} {eqb : β → β → Bool}
    {l seen : List β} {x : β} (hx : x ∈ adedupAux eqb seen l) :
    ∀ s ∈ seen, eqb s x = false := by
  induction l generalizing seen with
  | nil => cases hx
  | cons a l ih =>
    rw [adedupAux] at hx
    by_cases h : seen.any (fun s => eqb s a) = true
    · rw [if_pos h] at hx
      exact ih hx
    · rw [if_neg h] at hx
      rcases List.mem_cons.mp hx with rfl | hx
      · intro s hs
        exact Bool.eq_false_iff.mpr
          (fun hc => h (List.any_eq_true.mpr ⟨s, hs, hc⟩))
      · intro s hs
        exact ih hx s (List.mem_append_left _ hs)

theorem pairwise_adedupAux {β : Type} {eqb : β → β → Bool}
    {l seen : List β} :
    List.Pairwise (fun a b => eqb a b = false) (adedupAux eqb seen l) := by
  induction l generalizing seen with
  | nil => exact List.Pairwise.nil
  | cons a l ih =>
    rw [adedupAux]
    by_cases h : seen.any (fun s => eqb s a) = true
    · rw [if_pos h]
      exact ih
    · rw [if_neg h]
      refine List.Pairwise.cons ?_ ih
      intro b hb
      exact seen_false_of_mem_adedupAux hb a (List.mem_append_right _ (List.mem_singleton.mpr rfl))

theorem adedupAux_append_clean {β : Type} {eqb : β → β → Bool} :
    ∀ {l₁ : List β} (seen : List β) (l₂ : List β),
    (∀ s ∈ seen, ∀ x ∈ l₁, eqb s x = false) →
    List.Pairwise (fun a b => eqb a b = false) l₁ →
    adedupAux eqb seen (l₁ ++ l₂) = l₁ ++ adedupAux eqb (seen ++ l₁) l₂ := by
  intro l₁
  induction l₁ with
  | nil => intro seen l₂ _ _; simp
  | cons a l ih =>
    intro seen l₂ hclean hpw
    rw [List.cons_append, adedupAux]
    have hno : seen.any (fun s => eqb s a) = false := by
      rw [Bool.eq_false_iff]
      intro hc
      obtain ⟨s, hs, he⟩ := List.any_eq_true.mp hc
      rw [hclean s hs a (List.mem_cons_self _ _)] at he
      cases he
    rw [hno]
    simp only [Bool.false_eq_true, if_false]
    rw [ih (seen ++ [a]) l₂ ?_ hpw.of_cons]
    · rw [List.cons_append, List.append_assoc]
      rfl
    · intro s hs x hx
      rcases List.mem_append.mp hs with hs | hs
      · exact hclean s hs x (List.mem_cons_of_mem _ hx)
      · rw [List.mem_singleton.mp hs]
        exact (List.pairwise_cons.mp hpw).1 x hx

theorem dropped_matched {β : Type} {eqb : β → β → Bool} :
    ∀ {l seen : List β} {x : β}, x ∈ l →
    x ∈ adedupAux eqb seen l ∨
      ∃ s, (s ∈ seen ∨ s ∈ adedupAux eqb seen l) ∧ eqb s x = true := by
  intro l
  induction l with
  | nil => intro seen x hx; cases hx
  | cons a l ih =>
    intro seen x hx
    rw [adedupAux]
    by_cases h : seen.any (fun s => eqb s a) = true
    · rw [if_pos h]
      rcases List.mem_cons.mp hx with rfl | hx
      · obtain ⟨s, hs, he⟩ := List.any_eq_true.mp h
        exact Or.inr ⟨s, Or.inl hs, he⟩
      · exact ih hx
    · rw [if_neg h]
      rcases List.mem_cons.mp hx with rfl | hx
      · exact Or.inl (List.mem_cons_self _ _)
      · rcases @ih (seen ++ [a]) x hx with hin | ⟨s, hctx, he⟩
        · exact Or.inl (List.mem_cons_of_mem _ hin)
        · rcases hctx with hs | hs
          · rcases List.mem_append.mp hs with hs | hs
            · exact Or.inr ⟨s, Or.inl hs, he⟩
            · obtain rfl := List.mem_singleton.mp hs
              exact Or.inr ⟨s, Or.inr (List.mem_cons_self _ _), he⟩
          · exact Or.inr ⟨s, Or.inr (List.mem_cons_of_mem _ hs), he⟩

/-- `Group.__eq__` (restricted-operation form): two `generate`-shaped
subgroups of the same parent are equal exactly when their carriers are
set-equal. -/
theorem groupEqB_iff_carrier (heq : LawEq eq) {K K' : PyGroup α}
    (hK : SubShape eq H K) (hK' : SubShape eq H K') :
    groupEqB eq K K' = true ↔ ∀ x, x ∈ K.Set ↔ x ∈ K'.Set := by
  constructor
  · intro h
    rw [groupEqB, Bool.and_eq_true] at h
    exact fun x => (aseteq_iff heq).mp h.1 x
  · intro h
    rw [groupEqB, Bool.and_eq_true]
    refine ⟨(aseteq_iff heq).mpr h, ?_⟩
    rw [hK.op, hK'.op, funcEq, Bool.and_eq_true, Bool.and_eq_true]
    refine ⟨⟨?_, ?_⟩, ?_⟩
    · refine (aseteq_iff (lawEq_peq heq heq)).mpr (fun p => ?_)
      rw [PyFunc.new_domains, PyFunc.new_domains]
      constructor
      · intro hp
        obtain ⟨h1, h2⟩ := mem_aprod.mp hp
        exact mem_aprod.mpr ⟨(h _).mp h1, (h _).mp h2⟩
      · intro hp
        obtain ⟨h1, h2⟩ := mem_aprod.mp hp
        exact mem_aprod.mpr ⟨(h _).mpr h1, (h _).mpr h2⟩
    · exact (aseteq_iff heq).mpr h
    · refine List.all_eq_true.mpr (fun p _ => ?_)
      exact lawEq_refl heq _

theorem groupEqB_refl (heq : LawEq eq) {K : PyGroup α}
    (hK : SubShape eq H K) : groupEqB eq K K = true :=
  (groupEqB_iff_carrier heq hK hK).mpr (fun x => Iff.rfl)

/-- The generator expression of `Group.subgroups`: the (subgroup, element)
pairs with the element outside the subgroup, in iteration order. -/
theorem mem_sgPairs (heq : LawEq eq) {old : List (PyGroup α)}
    {p : PyGroup α × α} :
    p ∈ old.flatMap (fun sg => (iterOrder eq H).filterMap
      (fun g => if amem eq g sg.Set then none else some (sg, g))) ↔
    p.1 ∈ old ∧ p.2 ∈ iterOrder eq H ∧ p.2 ∉ p.1.Set := by
  simp only [List.mem_flatMap, List.mem_filterMap]
  constructor
  · rintro ⟨sg, hsg, g, hg, hif⟩
    by_cases h : amem eq g sg.Set = true
    · rw [if_pos h] at hif
      cases hif
    · rw [if_neg h] at hif
      obtain rfl := Option.some.inj hif
      exact ⟨hsg, hg, fun hc => h ((amem_iff heq).mpr hc)⟩
  · rintro ⟨h1, h2, h3⟩
    refine ⟨p.1, h1, p.2, h2, ?_⟩
    rw [if_neg (fun hc => h3 ((amem_iff heq).mp hc))]

/-- Every `generate` call issued by one `subgroups` iteration succeeds, and
the results are the closures of one-element extensions of known subgroups. -/
theorem fresh_ok (heq : LawEq eq) (hG : IsConstrG eq H)
    (hnd : H.Set.Nodup) {old : List (PyGroup α)}
    (hsh : ∀ K ∈ old, SubShape eq H K) :
    ∃ fresh, mapE (fun p => generate eq H (p.1.Set ++ [p.2]))
      (old.flatMap (fun sg => (iterOrder eq H).filterMap
        (fun g => if amem eq g sg.Set then none else some (sg, g)))) =
      Except.ok fresh ∧
      (∀ K ∈ fresh, SubShape eq H K) ∧
      (∀ sg ∈ old, ∀ g ∈ H.Set, g ∉ sg.Set → ∃ K ∈ fresh,
        ∀ x, x ∈ K.Set ↔ GenBy H.bin_op.rule (sg.Set ++ [g]) x) := by
  have hgen : ∀ p ∈ old.flatMap (fun sg => (iterOrder eq H).filterMap
      (fun g => if amem eq g sg.Set then none else some (sg, g))),
      ∃ K, generate eq H (p.1.Set ++ [p.2]) = Except.ok K ∧
        SubShape eq H K ∧
        (∀ x, x ∈ K.Set ↔ GenBy H.bin_op.rule (p.1.Set ++ [p.2]) x) := by
    intro p hp
    obtain ⟨h1, h2, _⟩ := (mem_sgPairs heq).mp hp
    have hsub : ∀ x ∈ p.1.Set ++ [p.2], x ∈ H.Set := by
      intro x hx
      rcases List.mem_append.mp hx with hx | hx
      · exact (hsh _ h1).sub _ hx
      · obtain rfl := List.mem_singleton.mp hx
        exact (mem_iterOrder heq hG).mp h2
    have hne : p.1.Set ++ [p.2] ≠ [] := by simp
    obtain ⟨K, hK, hc, hnd', hseed, hsub', hgen', hcl, hop⟩ :=
      generate_ok_spec heq hG hnd hsub hne
    refine ⟨K, hK, ⟨hc, hnd', ?_, hsub', hcl, hop⟩, hgen'⟩
    exact List.ne_nil_of_mem (hseed _ (List.mem_append_right _
      (List.mem_singleton.mpr rfl)))
  set Q : PyGroup α × α → PyGroup α := fun p =>
    match generate eq H (p.1.Set ++ [p.2]) with
    | .ok v => v
    | .error _ => p.1 with hQ
  have hok : ∀ p ∈ old.flatMap (fun sg => (iterOrder eq H).filterMap
      (fun g => if amem eq g sg.Set then none else some (sg, g))),
      generate eq H (p.1.Set ++ [p.2]) = Except.ok (Q p) ∧
        SubShape eq H (Q p) ∧
        (∀ x, x ∈ (Q p).Set ↔ GenBy H.bin_op.rule (p.1.Set ++ [p.2]) x) := by
    intro p hp
    obtain ⟨K, hK, hsK, hgK⟩ := hgen p hp
    have : Q p = K := by rw [hQ]; simp only [hK]
    rw [this]
    exact ⟨hK, hsK, hgK⟩
  refine ⟨_, mapE_ok (fun p hp => (hok p hp).1), ?_, ?_⟩
  · intro K hK
    obtain ⟨p, hp, rfl⟩ := List.mem_map.mp hK
    exact (hok p hp).2.1
  · intro sg hsg g hg hgn
    have hp : (sg, g) ∈ old.flatMap (fun sg => (iterOrder eq H).filterMap
        (fun g => if amem eq g sg.Set then none else some (sg, g))) :=
      (mem_sgPairs heq).mpr ⟨hsg, (mem_iterOrder heq hG).mpr hg, hgn⟩
    exact ⟨Q (sg, g), List.mem_map.mpr ⟨(sg, g), hp, rfl⟩, (hok _ hp).2.2⟩

/-- Pairwise-distinct `generate`-shaped subgroups are counted by their
carrier sets, of which there are at most `2 ^ |G|`. -/
theorem length_le_pow (heq : LawEq eq) (hnd : H.Set.Nodup)
    {l : List (PyGroup α)} (hsh : ∀ K ∈ l, SubShape eq H K)
    (hpw : List.Pairwise (fun K K' => groupEqB eq K K' = false) l) :
    l.length ≤ 2 ^ H.Set.length := by
  haveI : DecidableEq α := lawEq_decEq heq
  have hne : List.Pairwise (fun K K' =>
      K.Set.toFinset ≠ K'.Set.toFinset) l := by
    refine List.Pairwise.imp_of_mem ?_ hpw
    intro K K' hK hK' hfalse hc
    have : groupEqB eq K K' = true := by
      refine (groupEqB_iff_carrier heq (hsh _ hK) (hsh _ hK')).mpr (fun x => ?_)
      rw [← List.mem_toFinset, ← List.mem_toFinset, hc]
    rw [this] at hfalse
    cases hfalse
  have hmapnd : (l.map (fun K => K.Set.toFinset)).Nodup :=
    List.pairwise_map.mpr hne
  have hsubs : ∀ s ∈ l.map (fun K => K.Set.toFinset),
      s ∈ H.Set.toFinset.powerset := by
    intro s hs
    obtain ⟨K, hK, rfl⟩ := List.mem_map.mp hs
    refine Finset.mem_powerset.mpr (fun x hx => ?_)
    exact List.mem_toFinset.mpr ((hsh _ hK).sub _ (List.mem_toFinset.mp hx))
  have h1 : l.length = (l.map (fun K => K.Set.toFinset)).length :=
    (List.length_map _ _).symm
  have h2 : (l.map (fun K => K.Set.toFinset)).length =
      (l.map (fun K => K.Set.toFinset)).toFinset.card :=
    (List.toFinset_card_of_nodup hmapnd).symm
  have h3 : (l.map (fun K => K.Set.toFinset)).toFinset ⊆
      H.Set.toFinset.powerset := by
    intro s hs
    exact hsubs _ (List.mem_toFinset.mp hs)
  have h4 := Finset.card_le_card h3
  rw [Finset.card_powerset, List.toFinset_card_of_nodup hnd] at h4
  omega

/-- The `while True` loop of `Group.subgroups`, when given enough fuel:
it terminates at a fixed point containing the initial subgroups, every
member is a `generate`-shaped subgroup, members are pairwise distinct, and
the fixed point is closed under one-element extension. -/
theorem subgroupsLoop_spec (heq : LawEq eq) (hG : IsConstrG eq H)
    (hnd : H.Set.Nodup) :
    ∀ (fuel : Nat) (old : List (PyGroup α)),
    (∀ K ∈ old, SubShape eq H K) →
    List.Pairwise (fun K K' => groupEqB eq K K' = false) old →
    2 ^ H.Set.length + 1 - old.length ≤ fuel →
    ∃ res, subgroupsLoop eq H fuel old = Except.ok res ∧
      (∀ K ∈ old, K ∈ res) ∧
      (∀ K ∈ res, SubShape eq H K) ∧
      List.Pairwise (fun K K' => groupEqB eq K K' = false) res ∧
      (∀ sg ∈ res, ∀ g ∈ H.Set, g ∉ sg.Set → ∃ K ∈ res,
        ∀ x, x ∈ K.Set ↔ GenBy H.bin_op.rule (sg.Set ++ [g]) x) := by
  intro fuel
  induction fuel with
  | zero =>
    intro old hsh hpw hfuel
    exfalso
    have := length_le_pow heq hnd hsh hpw
    omega
  | succ fuel ih =>
    intro old hsh hpw hfuel
    obtain ⟨fresh, hfresh, hfsh, hfall⟩ := fresh_ok heq hG hnd hsh
    have hclean : ∀ s ∈ old, ∀ x ∈ old, groupEqB eq s x = false →
        True := fun _ _ _ _ _ => trivial
    have haunion : aunion (groupEqB eq) old fresh =
        old ++ adedupAux (groupEqB eq) old fresh := by
      rw [aunion, adedup]
      rw [adedupAux_append_clean [] fresh (fun s hs => nomatch hs) hpw]
      rw [List.nil_append]
    rw [subgroupsLoop, hfresh, ok_bind, haunion]
    set rest := adedupAux (groupEqB eq) old fresh with hrest
    have hrsh : ∀ K ∈ rest, SubShape eq H K :=
      fun K hK => hfsh _ (mem_of_mem_adedupAux hK)
    by_cases hstop : aseteq (groupEqB eq) old (old ++ rest) = true
    · rw [if_pos hstop]
      refine ⟨old, rfl, fun K hK => hK, hsh, hpw, ?_⟩
      -- every freshly generated closure is already matched in `old`
      have hmatched : ∀ y, y ∈ old ++ rest →
          ∃ K ∈ old, ∀ x, x ∈ K.Set ↔ x ∈ y.Set := by
        intro y hy
        have hysh : SubShape eq H y := by
          rcases List.mem_append.mp hy with hy | hy
          · exact hsh _ hy
          · exact hrsh _ hy
        obtain ⟨K, hK, he⟩ := (aseteq_exists.mp hstop).2 y hy
        have := (groupEqB_iff_carrier heq hysh (hsh _ hK)).mp he
        exact ⟨K, hK, fun x => (this x).symm⟩
      intro sg hsg g hg hgn
      obtain ⟨Kf, hKf, hKfgen⟩ := hfall sg hsg g hg hgn
      have hKfsh : SubShape eq H Kf := hfsh _ hKf
      rcases dropped_matched hKf with hin | ⟨s, hctx, he⟩
      · obtain ⟨K, hK, hiff⟩ := hmatched Kf (List.mem_append_right _ hin)
        exact ⟨K, hK, fun x => (hiff x).trans (hKfgen x)⟩
      · have hs : s ∈ old ++ rest := by
          rcases hctx with hs | hs
          · exact List.mem_append_left _ hs
          · exact List.mem_append_right _ hs
        have hssh : SubShape eq H s := by
          rcases List.mem_append.mp hs with h' | h'
          · exact hsh _ h'
          · exact hrsh _ h'
        have hsKf := (groupEqB_iff_carrier heq hssh hKfsh).mp he
        obtain ⟨K, hK, hiff⟩ := hmatched s hs
        refine ⟨K, hK, fun x => ((hiff x).trans (hsKf x)).trans (hKfgen x)⟩
    · rw [if_neg hstop]
      have hrne : rest ≠ [] := by
        intro hc
        refine hstop ?_
        rw [hc, List.append_nil]
        refine aseteq_exists.mpr ⟨?_, ?_⟩ <;>
          exact fun a ha => ⟨a, ha, groupEqB_refl heq (hsh _ ha)⟩
      have hsh' : ∀ K ∈ old ++ rest, SubShape eq H K := by
        intro K hK
        rcases List.mem_append.mp hK with h' | h'
        · exact hsh _ h'
        · exact hrsh _ h'
      have hpw' : List.Pairwise (fun K K' => groupEqB eq K K' = false)
          (old ++ rest) := by
        rw [List.pairwise_append]
        exact ⟨hpw, pairwise_adedupAux,
          fun a ha b hb => seen_false_of_mem_adedupAux hb a ha⟩
      have hlen : old.length + 1 ≤ (old ++ rest).length := by
        rw [List.length_append]
        cases hr : rest with
        | nil => exact absurd hr hrne
        | cons x xs => simp
      have hbound := length_le_pow heq hnd hsh' hpw'
      have hfuel' : 2 ^ H.Set.length + 1 - (old ++ rest).length ≤ fuel := by
        omega
      obtain ⟨res, hres, hold, hressh, hrespw, hresfix⟩ :=
        ih (old ++ rest) hsh' hpw' hfuel'
      exact ⟨res, hres, fun K hK => hold _ (List.mem_append_left _ hK),
        hressh, hrespw, hresfix⟩

/-- In a genuine group every nonempty product-closed subset contains the
identity (its internal left identity is idempotent, and idempotents are
trivial under cancellation). -/
theorem e_mem_closed (heq : LawEq eq) (hG : IsConstrG eq H)
    (hnd : H.Set.Nodup) (ht : TwoSided H) {S : List α} (hne : S ≠ [])
    (hsub : ∀ x ∈ S, x ∈ H.Set) (hSnd : S.Nodup)
    (hclosed : ∀ a ∈ S, ∀ b ∈ S, H.bin_op.rule (a, b) ∈ S) : H.e ∈ S := by
  obtain ⟨f, hfS, hfid⟩ := closed_has_leftId heq hG hnd hne hsub hSnd hclosed
  have h1 : H.bin_op.rule (f, f) = f := hfid f hfS
  have h2 : H.bin_op.rule (H.e, f) = f := hG.e_left _ (hsub _ hfS)
  have h3 : f = H.e := cancel_right hG ht (hsub f hfS) (hsub f hfS)
    hG.e_mem (h1.trans h2.symm)
  exact h3 ▸ hfS

/-- Walking up from any member of a fixed point towards a closed superset:
the extension property reaches a member with exactly that carrier. -/
theorem reach_up (heq : LawEq eq) (hG : IsConstrG eq H)
    (hnd : H.Set.Nodup) {res : List (PyGroup α)}
    (hsh : ∀ K ∈ res, SubShape eq H K)
    (hfix : ∀ sg ∈ res, ∀ g ∈ H.Set, g ∉ sg.Set → ∃ K ∈ res,
      ∀ x, x ∈ K.Set ↔ GenBy H.bin_op.rule (sg.Set ++ [g]) x)
    {S : List α} (hSnd : S.Nodup) (hSsub : ∀ x ∈ S, x ∈ H.Set)
    (hSclosed : ∀ a ∈ S, ∀ b ∈ S, H.bin_op.rule (a, b) ∈ S) :
    ∀ (n : Nat) (K : PyGroup α), K ∈ res → (∀ x ∈ K.Set, x ∈ S) →
    S.length - K.Set.length ≤ n →
    ∃ K' ∈ res, ∀ x, x ∈ K'.Set ↔ x ∈ S := by
  haveI : DecidableEq α := lawEq_decEq heq
  have hSlen : S.length = S.toFinset.card :=
    (List.toFinset_card_of_nodup hSnd).symm
  intro n
  induction n with
  | zero =>
    intro K hK hKS hcard
    by_cases hall : ∀ x ∈ S, x ∈ K.Set
    · exact ⟨K, hK, fun x => ⟨fun h => hKS _ h, fun h => hall _ h⟩⟩
    · exfalso
      push_neg at hall
      obtain ⟨g, hgS, hgn⟩ := hall
      obtain ⟨K₁, hK₁, hK₁gen⟩ := hfix K hK g (hSsub _ hgS) hgn
      have hK₁S : ∀ x ∈ K₁.Set, x ∈ S := by
        intro x hx
        refine GenBy_minimal hSclosed ?_ x ((hK₁gen x).mp hx)
        intro y hy
        rcases List.mem_append.mp hy with hy | hy
        · exact hKS _ hy
        · obtain rfl := List.mem_singleton.mp hy
          exact hgS
      have hsub1 : K.Set.toFinset ⊂ K₁.Set.toFinset := by
        constructor
        · intro x hx
          refine List.mem_toFinset.mpr ((hK₁gen _).mpr
            (GenBy.base (List.mem_append_left _ (List.mem_toFinset.mp hx))))
        · intro hc
          refine hgn (List.mem_toFinset.mp (hc ?_))
          exact List.mem_toFinset.mpr ((hK₁gen _).mpr
            (GenBy.base (List.mem_append_right _ (List.mem_singleton.mpr rfl))))
      have hlt := Finset.card_lt_card hsub1
      have hle : K₁.Set.toFinset.card ≤ S.toFinset.card := by
        refine Finset.card_le_card (fun x hx => ?_)
        exact List.mem_toFinset.mpr (hK₁S _ (List.mem_toFinset.mp hx))
      have hKlen : K.Set.length = K.Set.toFinset.card :=
        (List.toFinset_card_of_nodup (hsh _ hK).nodup).symm
      omega
  | succ n ih =>
    intro K hK hKS hcard
    by_cases hall : ∀ x ∈ S, x ∈ K.Set
    · exact ⟨K, hK, fun x => ⟨fun h => hKS _ h, fun h => hall _ h⟩⟩
    · push_neg at hall
      obtain ⟨g, hgS, hgn⟩ := hall
      obtain ⟨K₁, hK₁, hK₁gen⟩ := hfix K hK g (hSsub _ hgS) hgn
      have hK₁S : ∀ x ∈ K₁.Set, x ∈ S := by
        intro x hx
        refine GenBy_minimal hSclosed ?_ x ((hK₁gen x).mp hx)
        intro y hy
        rcases List.mem_append.mp hy with hy | hy
        · exact hKS _ hy
        · obtain rfl := List.mem_singleton.mp hy
          exact hgS
      have hsub1 : K.Set.toFinset ⊂ K₁.Set.toFinset := by
        constructor
        · intro x hx
          refine List.mem_toFinset.mpr ((hK₁gen _).mpr
            (GenBy.base (List.mem_append_left _ (List.mem_toFinset.mp hx))))
        · intro hc
          refine hgn (List.mem_toFinset.mp (hc ?_))
          exact List.mem_toFinset.mpr ((hK₁gen _).mpr
            (GenBy.base (List.mem_append_right _ (List.mem_singleton.mpr rfl))))
      have hlt := Finset.card_lt_card hsub1
      have hle : K₁.Set.toFinset.card ≤ S.toFinset.card := by
        refine Finset.card_le_card (fun x hx => ?_)
        exact List.mem_toFinset.mpr (hK₁S _ (List.mem_toFinset.mp hx))
      have hKlen : K.Set.length = K.Set.toFinset.card :=
        (List.toFinset_card_of_nodup (hsh _ hK).nodup).symm
      have hK₁len : K₁.Set.length = K₁.Set.toFinset.card :=
        (List.toFinset_card_of_nodup (hsh _ hK₁).nodup).symm
      exact ih K₁ hK₁ hK₁S (by omega)

end SubgroupsSpec

/-- C9 (amended).  For every constructed `Group` whose identity is two-sided
(a genuine group), `subgroups()` succeeds and returns exactly the distinct
subgroups: every member is a constructed subgroup (product-closed nonempty
subset of the carrier, `<=` the group), every nonempty product-closed subset
of the carrier appears as the carrier of exactly one member, and distinct
members have distinct carriers.  On constructed Groups that only pass the
one-sided checks the enumeration can miss subgroups
(`claimC9_counterexample`). -/
theorem claimC9 {α : Type} {eq : α → α → Bool} {H : PyGroup α}
    (heq : LawEq eq) (hG : IsConstrG eq H) (hnd : H.Set.Nodup)
    (ht : TwoSided H) :
    ∃ l, subgroups eq H = Except.ok l ∧
      (∀ K ∈ l, IsConstrG eq K ∧ K.Set ≠ [] ∧ K.Set.Nodup ∧
        (∀ x ∈ K.Set, x ∈ H.Set) ∧
        (∀ a ∈ K.Set, ∀ b ∈ K.Set, H.bin_op.rule (a, b) ∈ K.Set) ∧
        gle eq K H = Except.ok true) ∧
      (∀ S : List α, S ≠ [] → (∀ x ∈ S, x ∈ H.Set) →
        (∀ a ∈ S, ∀ b ∈ S, H.bin_op.rule (a, b) ∈ S) →
        ∃ K ∈ l, ∀ x, x ∈ K.Set ↔ x ∈ S) ∧
      List.Pairwise (fun K K' => ¬ ∀ x, x ∈ K.Set ↔ x ∈ K'.Set) l := by
  obtain ⟨triv, htriv, hc, hndt, hseed, hsubt, hgent, hclt, hopt⟩ :=
    generate_ok_spec heq hG hnd (S := [H.e]) (fun x hx => by
      obtain rfl := List.mem_singleton.mp hx
      exact hG.e_mem) (by simp)
  have htrivsh : SubShape eq H triv :=
    ⟨hc, hndt, List.ne_nil_of_mem (hseed _ (List.mem_singleton.mpr rfl)),
      hsubt, hclt, hopt⟩
  obtain ⟨res, hres, holdres, hressh, hrespw, hresfix⟩ :=
    subgroupsLoop_spec heq hG hnd (2 ^ glen H + 1) [triv]
      (fun K hK => by
        obtain rfl := List.mem_singleton.mp hK
        exact htrivsh)
      (by simp)
      (by simp [glen])
  refine ⟨res, ?_, ?_, ?_, ?_⟩
  · rw [subgroups, htriv, ok_bind]
    exact hres
  · intro K hK
    have sh := hressh _ hK
    exact ⟨sh.constr, sh.ne, sh.nodup, sh.sub, sh.closed,
      gle_ok heq hG sh.sub sh.op⟩
  · intro S hSne hSsub hSclosed
    have hS'ne : adedup eq S ≠ [] := adedup_ne_nil heq hSne
    have hS'sub : ∀ x ∈ adedup eq S, x ∈ H.Set :=
      fun x hx => hSsub _ ((mem_adedup heq).mp hx)
    have hS'nd : (adedup eq S).Nodup := nodup_adedup heq
    have hS'cl : ∀ a ∈ adedup eq S, ∀ b ∈ adedup eq S,
        H.bin_op.rule (a, b) ∈ adedup eq S := by
      intro a ha b hb
      exact (mem_adedup heq).mpr (hSclosed _ ((mem_adedup heq).mp ha) _
        ((mem_adedup heq).mp hb))
    have he : H.e ∈ adedup eq S :=
      e_mem_closed heq hG hnd ht hS'ne hS'sub hS'nd hS'cl
    have htrivres : triv ∈ res := holdres _ (List.mem_singleton.mpr rfl)
    have htrivsub : ∀ x ∈ triv.Set, x ∈ adedup eq S := by
      intro x hx
      rw [GenBy_single_e hG ((hgent x).mp hx)]
      exact he
    obtain ⟨K, hK, hiff⟩ := reach_up heq hG hnd hressh hresfix hS'nd hS'sub
      hS'cl (adedup eq S).length triv htrivres htrivsub (by omega)
    exact ⟨K, hK, fun x => (hiff x).trans
      ⟨fun h => (mem_adedup heq).mp h, fun h => (mem_adedup heq).mpr h⟩⟩
  · refine List.Pairwise.imp_of_mem ?_ hrespw
    intro K K' hK hK' hfalse hc
    rw [(groupEqB_iff_carrier heq (hressh _ hK) (hressh _ hK')).mpr hc]
      at hfalse
    cases hfalse

theorem sn3_constr : IsConstrG tupEq sn3V :=
  isConstrG_of_ok lawEq_tup Sn3_ok

theorem sn3_twoSided : TwoSided sn3V := by unfold TwoSided; decide

theorem sn3_nodup : sn3V.Set.Nodup := by decide

/-- The family of nonempty product-closed subsets of the carrier of `Sn(3)`,
i.e. the carriers of its subgroups. -/
def sn3SubCarriers : Finset (Finset (List Nat)) :=
  sn3V.Set.toFinset.powerset.filter
    (fun s => s.Nonempty ∧ ∀ a ∈ s, ∀ b ∈ s, sn3V.bin_op.rule (a, b) ∈ s)

theorem claimC9_witness :
    ∃ l, subgroups tupEq sn3V = Except.ok l ∧ l.length = 6 ∧
      l.countP (fun K => K.Set.length == 1) = 1 ∧
      l.countP (fun K => K.Set.length == 2) = 3 ∧
      l.countP (fun K => K.Set.length == 3) = 1 ∧
      l.countP (fun K => K.Set.length == 6) = 1 := by
  obtain ⟨l, hl, hsound, hcompl, hpw⟩ :=
    claimC9 lawEq_tup sn3_constr sn3_nodup sn3_twoSided
  have hndmap : (l.map (fun K => K.Set.toFinset)).Nodup := by
    refine List.pairwise_map.mpr (List.Pairwise.imp_of_mem ?_ hpw)
    intro K K' hK hK' hne hc
    refine hne (fun x => ?_)
    rw [← List.mem_toFinset, ← List.mem_toFinset, hc]
  have hfwd : ∀ K ∈ l, K.Set.toFinset ∈ sn3SubCarriers := by
    intro K hK
    obtain ⟨_, hne, _, hsub, hcl, _⟩ := hsound K hK
    refine Finset.mem_filter.mpr ⟨Finset.mem_powerset.mpr ?_, ?_, ?_⟩
    · intro x hx
      exact List.mem_toFinset.mpr (hsub _ (List.mem_toFinset.mp hx))
    · obtain ⟨x, hx⟩ := List.exists_mem_of_ne_nil _ hne
      exact ⟨x, List.mem_toFinset.mpr hx⟩
    · intro a ha b hb
      exact List.mem_toFinset.mpr
        (hcl _ (List.mem_toFinset.mp ha) _ (List.mem_toFinset.mp hb))
  have hsurj : ∀ s ∈ sn3SubCarriers, ∃ K ∈ l, K.Set.toFinset = s := by
    intro s hs
    obtain ⟨hpow, hsne, hscl⟩ := Finset.mem_filter.mp hs
    have h1 : s.toList ≠ [] := by
      obtain ⟨x, hx⟩ := hsne
      exact List.ne_nil_of_mem (Finset.mem_toList.mpr hx)
    have h2 : ∀ x ∈ s.toList, x ∈ sn3V.Set := by
      intro x hx
      exact List.mem_toFinset.mp
        (Finset.mem_powerset.mp hpow (Finset.mem_toList.mp hx))
    have h3 : ∀ a ∈ s.toList, ∀ b ∈ s.toList,
        sn3V.bin_op.rule (a, b) ∈ s.toList := by
      intro a ha b hb
      exact Finset.mem_toList.mpr
        (hscl _ (Finset.mem_toList.mp ha) _ (Finset.mem_toList.mp hb))
    obtain ⟨K, hK, hiff⟩ := hcompl s.toList h1 h2 h3
    refine ⟨K, hK, Finset.ext (fun x => ?_)⟩
    rw [List.mem_toFinset, hiff x, Finset.mem_toList]
  have hset : (l.map (fun K => K.Set.toFinset)).toFinset = sn3SubCarriers := by
    ext s
    rw [List.mem_toFinset, List.mem_map]
    constructor
    · rintro ⟨K, hK, rfl⟩
      exact hfwd K hK
    · intro hs
      obtain ⟨K, hK, hfK⟩ := hsurj s hs
      exact ⟨K, hK, hfK⟩
  have hlen6 : l.length = 6 := by
    have h1 : l.length = (l.map (fun K => K.Set.toFinset)).length :=
      (List.length_map _ _).symm
    have h2 : (l.map (fun K => K.Set.toFinset)).length =
        (l.map (fun K => K.Set.toFinset)).toFinset.card :=
      (List.toFinset_card_of_nodup hndmap).symm
    rw [h1, h2, hset]
    decide
  have hcnt : ∀ n : Nat, l.countP (fun K => K.Set.length == n) =
      (sn3SubCarriers.filter (fun s => s.card == n)).card := by
    intro n
    have h1 : l.countP (fun K => K.Set.length == n) =
        l.countP (fun K => K.Set.toFinset.card == n) := by
      refine List.countP_congr (fun K hK => ?_)
      obtain ⟨_, _, hknd, _⟩ := hsound K hK
      rw [List.toFinset_card_of_nodup hknd]
    have h2 : l.countP (fun K => K.Set.toFinset.card == n) =
        (l.map (fun K => K.Set.toFinset)).countP (fun s => s.card == n) := by
      rw [List.countP_map]
      rfl
    have h3 : (l.map (fun K => K.Set.toFinset)).countP
        (fun s => s.card == n) =
        ((l.map (fun K => K.Set.toFinset)).filter
          (fun s => s.card == n)).length :=
      List.countP_eq_length_filter _ _
    have h4 : ((l.map (fun K => K.Set.toFinset)).filter
        (fun s => s.card == n)).toFinset =
        (l.map (fun K => K.Set.toFinset)).toFinset.filter
          (fun s => s.card == n) := List.toFinset_filter _ _
    have h5 : ((l.map (fun K => K.Set.toFinset)).filter
        (fun s => s.card == n)).length =
        ((l.map (fun K => K.Set.toFinset)).filter
          (fun s => s.card == n)).toFinset.card :=
      (List.toFinset_card_of_nodup (hndmap.filter _)).symm
    rw [h1, h2, h3, h5, h4, hset]
  refine ⟨l, hl, hlen6, ?_, ?_, ?_, ?_⟩
  · rw [hcnt 1]; decide
  · rw [hcnt 2]; decide
  · rw [hcnt 3]; decide
  · rw [hcnt 6]; decide

/-- The subgroup `{1}` of the constructed right-zero structure on three
elements, as `Group.generate`-style construction would build it. -/
def rz3one : PyGroup Nat :=
  PyGroup.mk [1] (rz3V.bin_op.new_domains (aprod [1] [1]) [1]) 1
    (abelB Nat.beq [1] (rz3V.bin_op.new_domains (aprod [1] [1]) [1]))

/-- C9 counterexample: on the constructed right-zero Group on `{0,1,2}`
(accepted by `Group.__init__`), `subgroups()` terminates but misses the
subgroup `{1}`, although `Group({1}, ·)` constructs successfully and is
`<=` the parent: the enumeration only reaches subgroups containing the
construction-found identity `0`, so it does not return the set of all
distinct subgroups of every valid (successfully constructed) Group. -/
theorem claimC9_counterexample :
    rz 3 = Except.ok rz3V ∧
    mkGroup Nat.beq [1] (rz3V.bin_op.new_domains (aprod [1] [1]) [1]) =
      Except.ok rz3one ∧
    gle Nat.beq rz3one rz3V = Except.ok true ∧
    Except.map (fun l => l.all (fun K => !(aseteq Nat.beq K.Set rz3one.Set)))
      (subgroups Nat.beq rz3V) = Except.ok true :=
  ⟨rfl, rfl, rfl, rfl⟩

/-! ## Claim C1: `Group.find_isomorphism` -/

section IsoSpec

variable {α β : Type} {eqa : α → α → Bool} {eqb : β → β → Bool}
variable {Hs : PyGroup α} {Ho : PyGroup β}

theorem dlookup_ok_of_key (ha : LawEq eqa) {d : List (α × β)} {k : α}
    (hk : k ∈ d.map Prod.fst) :
    ∃ v, dlookup eqa d k = Except.ok v ∧ (k, v) ∈ d := by
  induction d with
  | nil => cases hk
  | cons p d ih =>
    obtain ⟨p1, p2⟩ := p
    by_cases h : p1 = k
    · subst h
      refine ⟨p2, ?_, List.mem_cons_self _ _⟩
      have hstep : ((p1, p2) :: d).find? (fun q => eqa q.1 p1) =
          some (p1, p2) := List.find?_cons_of_pos _ ((ha _ _).mpr rfl)
      rw [dlookup, hstep]
      rfl
    · have hk' : k ∈ d.map Prod.fst := by
        rcases List.mem_map.mp hk with ⟨q, hq, hqk⟩
        rcases List.mem_cons.mp hq with rfl | hq'
        · exact absurd hqk h
        · exact List.mem_map.mpr ⟨q, hq', hqk⟩
      obtain ⟨v, hv, hvm⟩ := ih hk'
      refine ⟨v, ?_, List.mem_cons_of_mem _ hvm⟩
      have hstep : ((p1, p2) :: d).find? (fun q => eqa q.1 k) =
          d.find? (fun q => eqa q.1 k) :=
        List.find?_cons_of_neg _ (fun hc => h ((ha _ _).mp hc))
      rw [dlookup, hstep]
      rw [dlookup] at hv
      exact hv

theorem dlookup_err_of_not_key (ha : LawEq eqa) {d : List (α × β)} {k : α}
    (hk : k ∉ d.map Prod.fst) :
    dlookup eqa d k = Except.error PyErr.keyError := by
  have hf : d.find? (fun p => eqa p.1 k) = none := by
    rw [List.find?_eq_none]
    intro p hp hc
    exact hk (List.mem_map.mpr ⟨p, hp, (ha _ _).mp hc⟩)
  rw [dlookup, hf]
  rfl

theorem dlookup_ok_mem (ha : LawEq eqa) {d : List (α × β)} {k : α} {v : β}
    (h : dlookup eqa d k = Except.ok v) : (k, v) ∈ d := by
  rw [dlookup] at h
  cases hf : d.find? (fun p => eqa p.1 k) with
  | none =>
    rw [hf] at h
    cases h
  | some p =>
    rw [hf] at h
    have hm := List.mem_of_find?_eq_some hf
    have hp := List.find?_some hf
    have h1 : p.1 = k := (ha _ _).mp hp
    have h2 : p.2 = v := by
      cases h
      rfl
    rw [← h1, ← h2]
    exact hm

theorem dinsert_entry (ha : LawEq eqa) {d : List (α × β)} {k : α} {v : β} :
    ∀ p ∈ dinsert eqa d k v, p ∈ d ∨ p = (k, v) := by
  intro p hp
  rw [dinsert] at hp
  by_cases h : d.any (fun q => eqa q.1 k) = true
  · rw [if_pos h] at hp
    obtain ⟨q, hq, hqe⟩ := List.mem_map.mp hp
    by_cases h' : eqa q.1 k = true
    · rw [if_pos h'] at hqe
      exact Or.inr hqe.symm
    · rw [if_neg h'] at hqe
      exact Or.inl (hqe ▸ hq)
  · rw [if_neg h] at hp
    rcases List.mem_append.mp hp with hp | hp
    · exact Or.inl hp
    · exact Or.inr (List.mem_singleton.mp hp)

theorem dinsert_key_mem (ha : LawEq eqa) {d : List (α × β)} {k : α} {v : β}
    {x : α} :
    x ∈ (dinsert eqa d k v).map Prod.fst ↔ x ∈ d.map Prod.fst ∨ x = k := by
  rw [dinsert]
  by_cases h : d.any (fun q => eqa q.1 k) = true
  · rw [if_pos h]
    constructor
    · intro hx
      obtain ⟨p, hp, hpe⟩ := List.mem_map.mp hx
      obtain ⟨q, hq, hqe⟩ := List.mem_map.mp hp
      by_cases h' : eqa q.1 k = true
      · rw [if_pos h'] at hqe
        rw [← hqe] at hpe
        exact Or.inr hpe.symm
      · rw [if_neg h'] at hqe
        rw [← hqe] at hpe
        exact Or.inl (List.mem_map.mpr ⟨q, hq, hpe⟩)
    · intro hx
      rcases hx with hx | hxk
      · obtain ⟨q, hq, hqe⟩ := List.mem_map.mp hx
        by_cases h' : eqa q.1 k = true
        · refine List.mem_map.mpr ⟨(k, v), List.mem_map.mpr ⟨q, hq, ?_⟩, ?_⟩
          · rw [if_pos h']
          · rw [← hqe, (ha _ _).mp h']
        · refine List.mem_map.mpr ⟨q, List.mem_map.mpr ⟨q, hq, ?_⟩, hqe⟩
          rw [if_neg h']
      · rw [hxk]
        obtain ⟨q, hq, hqe⟩ := List.any_eq_true.mp h
        refine List.mem_map.mpr ⟨(k, v), List.mem_map.mpr ⟨q, hq, ?_⟩, rfl⟩
        rw [if_pos hqe]
  · rw [if_neg h, List.map_append]
    rw [List.mem_append]
    constructor
    · rintro (hx | hx)
      · exact Or.inl hx
      · exact Or.inr (List.mem_singleton.mp hx)
    · rintro (hx | hxk)
      · exact Or.inl hx
      · rw [hxk]
        exact Or.inr (List.mem_singleton.mpr rfl)

theorem dinsert_keys_nodup (ha : LawEq eqa) {d : List (α × β)} {k : α}
    {v : β} (hnd : (d.map Prod.fst).Nodup) :
    ((dinsert eqa d k v).map Prod.fst).Nodup := by
  have hpw : List.Pairwise (fun p q : α × β => p.1 ≠ q.1) d :=
    List.pairwise_map.mp hnd
  rw [dinsert]
  by_cases h : d.any (fun q => eqa q.1 k) = true
  · rw [if_pos h, List.map_map]
    refine List.pairwise_map.mpr ?_
    refine hpw.imp ?_
    intro p q hpq
    show (Prod.fst (if eqa p.1 k then (k, v) else p)) ≠
      (Prod.fst (if eqa q.1 k then (k, v) else q))
    by_cases hp : eqa p.1 k = true <;> by_cases hq : eqa q.1 k = true
    · exact absurd (((ha _ _).mp hp).trans ((ha _ _).mp hq).symm) hpq
    · rw [if_pos hp, if_neg hq]
      intro hc
      exact hq ((ha _ _).mpr hc.symm)
    · rw [if_neg hp, if_pos hq]
      intro hc
      exact hp ((ha _ _).mpr hc)
    · rw [if_neg hp, if_neg hq]
      exact hpq
  · rw [if_neg h, List.map_append]
    rw [List.nodup_append]
    refine ⟨hnd, List.nodup_singleton _, ?_⟩
    intro x hx hx'
    obtain ⟨q, hq, hqe⟩ := List.mem_map.mp hx
    have hxk : x = k := List.mem_singleton.mp hx'
    refine h (List.any_eq_true.mpr ⟨q, hq, ?_⟩)
    exact (ha _ _).mpr (hqe.trans hxk)

theorem dinsert_not_key (ha : LawEq eqa) {d : List (α × β)} {k : α} {v : β}
    (hk : k ∉ d.map Prod.fst) : dinsert eqa d k v = d ++ [(k, v)] := by
  rw [dinsert, if_neg]
  intro hc
  obtain ⟨q, hq, hqe⟩ := List.any_eq_true.mp hc
  exact hk (List.mem_map.mpr ⟨q, hq, (ha _ _).mp hqe⟩)

theorem dzip_keys_sub (ha : LawEq eqa) :
    ∀ {A : List α} {B : List β} {x : α},
    x ∈ (dzip eqa A B).map Prod.fst → x ∈ A := by
  intro A
  induction A with
  | nil =>
    intro B x hx
    cases B with
    | nil => cases hx
    | cons b bs => cases hx
  | cons a as ih =>
    intro B x hx
    cases B with
    | nil => cases hx
    | cons b bs =>
      rw [dzip] at hx
      rcases (dinsert_key_mem ha).mp hx with hx | rfl
      · exact List.mem_cons_of_mem _ (ih hx)
      · exact List.mem_cons_self _ _

theorem dzip_cons_nodup (ha : LawEq eqa) {a : α} {as : List α} {b : β}
    {bs : List β} (hnd : (a :: as).Nodup) :
    dzip eqa (a :: as) (b :: bs) = dzip eqa as bs ++ [(a, b)] := by
  rw [dzip]
  refine dinsert_not_key ha (fun hc => ?_)
  exact (List.nodup_cons.mp hnd).1 (dzip_keys_sub ha hc)

/-- The initial mapping `dict(zip(A, B))` for distinct keys and values:
its keys are exactly `A`, its values are among `B`, both without
duplicates. -/
theorem dzip_spec (ha : LawEq eqa) :
    ∀ {A : List α} {B : List β}, A.Nodup → A.length = B.length → B.Nodup →
    (dzip eqa A B).length = A.length ∧
    (∀ x, x ∈ (dzip eqa A B).map Prod.fst ↔ x ∈ A) ∧
    ((dzip eqa A B).map Prod.fst).Nodup ∧
    ((dzip eqa A B).map Prod.snd).Nodup ∧
    (∀ p ∈ dzip eqa A B, p.1 ∈ A ∧ p.2 ∈ B) := by
  intro A
  induction A with
  | nil =>
    intro B hnd hlen hndB
    cases B with
    | nil =>
      refine ⟨rfl, fun x => ?_, List.nodup_nil, List.nodup_nil,
        fun p hp => absurd hp (by simp [dzip])⟩
      rw [show dzip eqa ([] : List α) ([] : List β) = [] from rfl]
      simp
    | cons b bs => cases hlen
  | cons a as ih =>
    intro B hnd hlen hndB
    cases B with
    | nil => cases hlen
    | cons b bs =>
      obtain ⟨hlen', hmem, hknd, hvnd, hent⟩ := ih (List.nodup_cons.mp hnd).2
        (Nat.succ.inj hlen) (List.nodup_cons.mp hndB).2
      have hce : dzip eqa (a :: as) (b :: bs) = dzip eqa as bs ++ [(a, b)] :=
        dzip_cons_nodup ha hnd
      refine ⟨?_, ?_, ?_, ?_, ?_⟩
      · rw [hce, List.length_append, hlen']
        simp
      · intro x
        rw [hce, List.map_append, List.mem_append]
        constructor
        · rintro (hx | hx)
          · exact List.mem_cons_of_mem _ ((hmem x).mp hx)
          · rcases List.mem_singleton.mp hx with rfl
            exact List.mem_cons_self _ _
        · intro hx
          rcases List.mem_cons.mp hx with rfl | hx
          · exact Or.inr (List.mem_singleton.mpr rfl)
          · exact Or.inl ((hmem x).mpr hx)
      · rw [hce, List.map_append, List.nodup_append]
        refine ⟨hknd, List.nodup_singleton _, ?_⟩
        intro x hx hx'
        rcases List.mem_singleton.mp hx' with rfl
        exact (List.nodup_cons.mp hnd).1 ((hmem x).mp hx)
      · rw [hce, List.map_append, List.nodup_append]
        refine ⟨hvnd, List.nodup_singleton _, ?_⟩
        intro y hy hy'
        rcases List.mem_singleton.mp hy' with rfl
        obtain ⟨p, hp, hpy⟩ := List.mem_map.mp hy
        exact (List.nodup_cons.mp hndB).1 (hpy ▸ (hent p hp).2)
      · intro p hp
        rw [hce] at hp
        rcases List.mem_append.mp hp with hp | hp
        · exact ⟨List.mem_cons_of_mem _ (hent p hp).1,
            List.mem_cons_of_mem _ (hent p hp).2⟩
        · rcases List.mem_singleton.mp hp with rfl
          exact ⟨List.mem_cons_self _ _, List.mem_cons_self _ _⟩

/-- When the candidate images are `F` applied to the generators, the initial
mapping is a fragment of the graph of `F`. -/
theorem dzip_graph (ha : LawEq eqa) {F : α → β} :
    ∀ {A : List α}, A.Nodup →
    ∀ p ∈ dzip eqa A (A.map F), p.2 = F p.1 := by
  intro A
  induction A with
  | nil => intro _ p hp; cases hp
  | cons a as ih =>
    intro hnd p hp
    rw [List.map_cons, dzip_cons_nodup ha hnd] at hp
    rcases List.mem_append.mp hp with hp | hp
    · exact ih (List.nodup_cons.mp hnd).2 p hp
    · rcases List.mem_singleton.mp hp with rfl
      rfl

/-- One pass of the extension loop (`for g, h in product(func, func)`):
full characterization.  With no counterexample the accumulated `noobs` holds
exactly the forced images of the key-products missing from the mapping; a
counterexample is a genuine violation of the homomorphism law on the
mapped fragment. -/
theorem isoPassAux_spec (ha : LawEq eqa) (hb : LawEq eqb)
    (hS : IsConstrG eqa Hs) (hO : IsConstrG eqb Ho)
    {func : List (α × β)}
    (hent : ∀ p ∈ func, p.1 ∈ Hs.Set ∧ p.2 ∈ Ho.Set) :
    ∀ (rest : List (α × α)) (noobs : List (α × β)),
    (∀ q ∈ rest, q.1 ∈ func.map Prod.fst ∧ q.2 ∈ func.map Prod.fst) →
    (noobs.map Prod.fst).Nodup →
    (∀ p ∈ noobs, p.1 ∈ Hs.Set ∧ p.2 ∈ Ho.Set ∧ p.1 ∉ func.map Prod.fst) →
    ∃ no cex, isoPassAux eqa eqb Hs Ho func rest noobs = Except.ok (no, cex) ∧
      (no.map Prod.fst).Nodup ∧
      (∀ p ∈ no, p.1 ∈ Hs.Set ∧ p.2 ∈ Ho.Set ∧ p.1 ∉ func.map Prod.fst) ∧
      (∀ p ∈ no, p ∈ noobs ∨ ∃ g u h v,
        (g, h) ∈ rest ∧ (g, u) ∈ func ∧ (h, v) ∈ func ∧
        p.1 = Hs.bin_op.rule (g, h) ∧ p.2 = Ho.bin_op.rule (u, v)) ∧
      (cex = false → ∀ x, (x ∈ no.map Prod.fst ↔ x ∈ noobs.map Prod.fst ∨
        ∃ q ∈ rest, Hs.bin_op.rule (q.1, q.2) = x ∧
          x ∉ func.map Prod.fst)) ∧
      (cex = false → ∀ q ∈ rest, ∀ w,
        dlookup eqa func (Hs.bin_op.rule (q.1, q.2)) = Except.ok w →
        ∃ u v, dlookup eqa func q.1 = Except.ok u ∧
          dlookup eqa func q.2 = Except.ok v ∧ Ho.bin_op.rule (u, v) = w) ∧
      (cex = true → ∃ q ∈ rest, ∃ u v w,
        dlookup eqa func q.1 = Except.ok u ∧
        dlookup eqa func q.2 = Except.ok v ∧
        dlookup eqa func (Hs.bin_op.rule (q.1, q.2)) = Except.ok w ∧
        Ho.bin_op.rule (u, v) ≠ w) := by
  intro rest
  induction rest with
  | nil =>
    intro noobs _ hnnd hnent
    refine ⟨noobs, false, rfl, hnnd, hnent, fun p hp => Or.inl hp, ?_, ?_, ?_⟩
    · intro _ x
      constructor
      · exact fun h => Or.inl h
      · rintro (h | ⟨q, hq, _⟩)
        · exact h
        · cases hq
    · intro _ q hq
      cases hq
    · intro hc
      cases hc
  | cons q rest ih =>
    obtain ⟨g, h⟩ := q
    intro noobs hrest hnnd hnent
    obtain ⟨hgk, hhk⟩ := hrest (g, h) (List.mem_cons_self _ _)
    obtain ⟨u, hul, hum⟩ := dlookup_ok_of_key ha hgk
    obtain ⟨v, hvl, hvm⟩ := dlookup_ok_of_key ha hhk
    have hgS : g ∈ Hs.Set := (hent _ hum).1
    have hhS : h ∈ Hs.Set := (hent _ hvm).1
    have huO : u ∈ Ho.Set := (hent _ hum).2
    have hvO : v ∈ Ho.Set := (hent _ hvm).2
    have hghS : Hs.bin_op.rule (g, h) ∈ Hs.Set := hS.closed _ hgS _ hhS
    have hemul : emul eqa Hs g h = Except.ok (Hs.bin_op.rule (g, h)) :=
      emul_ok ha hS hgS hhS
    have hemulb : emul eqb Ho u v = Except.ok (Ho.bin_op.rule (u, v)) :=
      emul_ok hb hO huO hvO
    have hrest' : ∀ q ∈ rest, q.1 ∈ func.map Prod.fst ∧
        q.2 ∈ func.map Prod.fst :=
      fun q hq => hrest q (List.mem_cons_of_mem _ hq)
    by_cases hgh : Hs.bin_op.rule (g, h) ∈ func.map Prod.fst
    · -- the product is already mapped: consistency check
      obtain ⟨w, hwl, hwm⟩ := dlookup_ok_of_key ha hgh
      by_cases hok : eqb (Ho.bin_op.rule (u, v)) w = true
      · -- consistent: continue with the same accumulator
        obtain ⟨no, cex, hrun, c2, c3, c4, c5, c6, c7⟩ :=
          ih noobs hrest' hnnd hnent
        refine ⟨no, cex, ?_, c2, c3, ?_, ?_, ?_, ?_⟩
        · rw [isoPassAux, hemul, ok_bind, hwl]
          show (do
            let fg ← dlookup eqa func g
            let fh ← dlookup eqa func h
            let prod ← emul eqb Ho fg fh
            if !(eqb prod w) then pure (noobs, true)
            else isoPassAux eqa eqb Hs Ho func rest noobs) = _
          rw [hul, ok_bind, hvl, ok_bind, hemulb, ok_bind, hok]
          show isoPassAux eqa eqb Hs Ho func rest noobs = _
          exact hrun
        · intro p hp
          rcases c4 p hp with hp' | ⟨g', u', h', v', hq, h1, h2, h3, h4⟩
          · exact Or.inl hp'
          · exact Or.inr ⟨g', u', h', v',
              List.mem_cons_of_mem _ hq, h1, h2, h3, h4⟩
        · intro hcf x
          rw [c5 hcf x]
          constructor
          · rintro (hx | ⟨q', hq', hx1, hx2⟩)
            · exact Or.inl hx
            · exact Or.inr ⟨q', List.mem_cons_of_mem _ hq', hx1, hx2⟩
          · rintro (hx | ⟨q', hq', hx1, hx2⟩)
            · exact Or.inl hx
            · rcases List.mem_cons.mp hq' with rfl | hq''
              · exact absurd (hx1 ▸ hgh) hx2
              · exact Or.inr ⟨q', hq'', hx1, hx2⟩
        · intro hcf q' hq' w' hw'
          rcases List.mem_cons.mp hq' with rfl | hq''
          · have hww : w' = w := by
              rw [hwl] at hw'
              exact (Except.ok.inj hw').symm
            exact ⟨u, v, hul, hvl, by rw [hww]; exact (hb _ _).mp hok⟩
          · exact c6 hcf q' hq'' w' hw'
        · intro hct
          obtain ⟨q', hq', hwit⟩ := c7 hct
          exact ⟨q', List.mem_cons_of_mem _ hq', hwit⟩
      · -- counterexample: stop the pass
        refine ⟨noobs, true, ?_, hnnd, hnent, fun p hp => Or.inl hp,
          ?_, ?_, ?_⟩
        · rw [isoPassAux, hemul, ok_bind, hwl]
          show (do
            let fg ← dlookup eqa func g
            let fh ← dlookup eqa func h
            let prod ← emul eqb Ho fg fh
            if !(eqb prod w) then pure (noobs, true)
            else isoPassAux eqa eqb Hs Ho func rest noobs) = _
          rw [hul, ok_bind, hvl, ok_bind, hemulb, ok_bind,
            Bool.eq_false_iff.mpr hok]
          rfl
        · intro hc
          cases hc
        · intro hc
          cases hc
        · intro _
          refine ⟨(g, h), List.mem_cons_self _ _, u, v, w, hul, hvl, hwl, ?_⟩
          intro hc
          exact hok ((hb _ _).mpr hc)
    · -- new forced image
      have hwl : dlookup eqa func (Hs.bin_op.rule (g, h)) =
          Except.error PyErr.keyError := dlookup_err_of_not_key ha hgh
      have hnnd' : ((dinsert eqa noobs (Hs.bin_op.rule (g, h))
          (Ho.bin_op.rule (u, v))).map Prod.fst).Nodup :=
        dinsert_keys_nodup ha hnnd
      have hnent' : ∀ p ∈ dinsert eqa noobs (Hs.bin_op.rule (g, h))
          (Ho.bin_op.rule (u, v)),
          p.1 ∈ Hs.Set ∧ p.2 ∈ Ho.Set ∧ p.1 ∉ func.map Prod.fst := by
        intro p hp
        rcases dinsert_entry ha p hp with hp' | rfl
        · exact hnent p hp'
        · exact ⟨hghS, hO.closed _ huO _ hvO, hgh⟩
      obtain ⟨no, cex, hrun, c2, c3, c4, c5, c6, c7⟩ :=
        ih (dinsert eqa noobs (Hs.bin_op.rule (g, h))
          (Ho.bin_op.rule (u, v))) hrest' hnnd' hnent'
      refine ⟨no, cex, ?_, c2, c3, ?_, ?_, ?_, ?_⟩
      · rw [isoPassAux, hemul, ok_bind, hwl]
        show (do
          let fg ← dlookup eqa func g
          let fh ← dlookup eqa func h
          let prod ← emul eqb Ho fg fh
          isoPassAux eqa eqb Hs Ho func rest
            (dinsert eqa noobs (Hs.bin_op.rule (g, h)) prod)) = _
        rw [hul, ok_bind, hvl, ok_bind, hemulb, ok_bind]
        exact hrun
      · intro p hp
        rcases c4 p hp with hp' | ⟨g', u', h', v', hq, h1, h2, h3, h4⟩
        · rcases dinsert_entry ha p hp' with hp'' | rfl
          · exact Or.inl hp''
          · exact Or.inr ⟨g, u, h, v, List.mem_cons_self _ _, hum, hvm,
              rfl, rfl⟩
        · exact Or.inr ⟨g', u', h', v',
            List.mem_cons_of_mem _ hq, h1, h2, h3, h4⟩
      · intro hcf x
        rw [c5 hcf x]
        constructor
        · rintro (hx | ⟨q', hq', hx1, hx2⟩)
          · rcases (dinsert_key_mem ha).mp hx with hx' | rfl
            · exact Or.inl hx'
            · exact Or.inr ⟨(g, h), List.mem_cons_self _ _, rfl, hgh⟩
          · exact Or.inr ⟨q', List.mem_cons_of_mem _ hq', hx1, hx2⟩
        · rintro (hx | ⟨q', hq', hx1, hx2⟩)
          · exact Or.inl ((dinsert_key_mem ha).mpr (Or.inl hx))
          · rcases List.mem_cons.mp hq' with rfl | hq''
            · exact Or.inl ((dinsert_key_mem ha).mpr (Or.inr hx1.symm))
            · exact Or.inr ⟨q', hq'', hx1, hx2⟩
      · intro hcf q' hq' w' hw'
        rcases List.mem_cons.mp hq' with rfl | hq''
        · rw [hwl] at hw'
          cases hw'
        · exact c6 hcf q' hq'' w' hw'
      · intro hct
        obtain ⟨q', hq', hwit⟩ := c7 hct
        exact ⟨q', List.mem_cons_of_mem _ hq', hwit⟩

/-- The invariant of the partial mapping built by the isomorphism search:
distinct keys, distinct values, keys and values in the respective carriers,
and the generator seeds among the keys. -/
structure FuncInv (eqa : α → α → Bool) (Hs : PyGroup α) (Ho : PyGroup β)
    (A : List α) (func : List (α × β)) : Prop where
  knd : (func.map Prod.fst).Nodup
  vnd : (func.map Prod.snd).Nodup
  ent : ∀ p ∈ func, p.1 ∈ Hs.Set ∧ p.2 ∈ Ho.Set
  seeds : ∀ a ∈ A, a ∈ func.map Prod.fst

/-- What holds of the mapping when the extension loop succeeds: it is a
total consistent assignment on the whole source carrier. -/
structure ExtDone (eqa : α → α → Bool) (eqb : β → β → Bool)
    (Hs : PyGroup α) (Ho : PyGroup β) (A : List α)
    (f' : List (α × β)) : Prop where
  inv : FuncInv eqa Hs Ho A f'
  len : f'.length = glen Hs
  covers : ∀ x ∈ Hs.Set, x ∈ f'.map Prod.fst
  law : ∀ g ∈ Hs.Set, ∀ h ∈ Hs.Set, ∀ u v w,
    dlookup eqa f' g = Except.ok u → dlookup eqa f' h = Except.ok v →
    dlookup eqa f' (Hs.bin_op.rule (g, h)) = Except.ok w →
    Ho.bin_op.rule (u, v) = w

theorem adedupAux_sublist {γ : Type} {eqc : γ → γ → Bool} :
    ∀ {l seen : List γ}, (adedupAux eqc seen l).Sublist l := by
  intro l
  induction l with
  | nil => intro seen; exact List.Sublist.refl _
  | cons a l ih =>
    intro seen
    rw [adedupAux]
    by_cases h : seen.any (fun s => eqc s a) = true
    · rw [if_pos h]
      exact List.Sublist.cons _ ih
    · rw [if_neg h]
      exact List.Sublist.cons₂ _ ih

theorem adedup_eq_self_of_nodup {γ : Type} {eqc : γ → γ → Bool}
    (hc : LawEq eqc) {l : List γ} (hnd : l.Nodup) : adedup eqc l = l := by
  have haux : ∀ (l' seen : List γ), l'.Nodup → (∀ x ∈ l', x ∉ seen) →
      adedupAux eqc seen l' = l' := by
    intro l'
    induction l' with
    | nil => intro seen _ _; rfl
    | cons a l' ih =>
      intro seen hnd' hdis
      rw [adedupAux, if_neg]
      · rw [ih (seen ++ [a]) (List.nodup_cons.mp hnd').2]
        intro x hx
        rw [List.mem_append]
        rintro (hx' | hx')
        · exact hdis x (List.mem_cons_of_mem _ hx) hx'
        · rcases List.mem_singleton.mp hx' with rfl
          exact (List.nodup_cons.mp hnd').1 hx
      · intro hc'
        obtain ⟨s, hs, hse⟩ := List.any_eq_true.mp hc'
        exact hdis a (List.mem_cons_self _ _) ((hc _ _).mp hse ▸ hs)
  exact haux l [] hnd (fun x _ hx => (List.not_mem_nil x) hx)

theorem adedup_length_eq_iff {γ : Type} {eqc : γ → γ → Bool}
    (hc : LawEq eqc) {l : List γ} :
    (adedup eqc l).length = l.length ↔ l.Nodup := by
  constructor
  · intro hlen
    have hsub : (adedup eqc l).Sublist l := adedupAux_sublist
    have := hsub.eq_of_length hlen
    rw [← this]
    exact nodup_adedup hc
  · intro hnd
    rw [adedup_eq_self_of_nodup hc hnd]

theorem length_le_of_sub (ha : LawEq eqa) {l m : List α} (hlnd : l.Nodup)
    (hmnd : m.Nodup) (hsub : ∀ x ∈ l, x ∈ m) : l.length ≤ m.length := by
  haveI : DecidableEq α := lawEq_decEq ha
  have h1 : l.toFinset ⊆ m.toFinset := by
    intro x hx
    exact List.mem_toFinset.mpr (hsub _ (List.mem_toFinset.mp hx))
  have := Finset.card_le_card h1
  rwa [List.toFinset_card_of_nodup hlnd, List.toFinset_card_of_nodup hmnd]
    at this

theorem mem_of_sub_lengths (ha : LawEq eqa) {l m : List α} (hlnd : l.Nodup)
    (hmnd : m.Nodup) (hsub : ∀ x ∈ l, x ∈ m) (hlen : m.length ≤ l.length) :
    ∀ x ∈ m, x ∈ l := by
  haveI : DecidableEq α := lawEq_decEq ha
  have h1 : l.toFinset ⊆ m.toFinset := by
    intro x hx
    exact List.mem_toFinset.mpr (hsub _ (List.mem_toFinset.mp hx))
  have h2 : m.toFinset.card ≤ l.toFinset.card := by
    rw [List.toFinset_card_of_nodup hlnd, List.toFinset_card_of_nodup hmnd]
    exact hlen
  have h3 : l.toFinset = m.toFinset := Finset.eq_of_subset_of_card_le h1 h2
  intro x hx
  have : x ∈ l.toFinset := h3 ▸ List.mem_toFinset.mpr hx
  exact List.mem_toFinset.mp this

theorem funcInv_length_le (ha : LawEq eqa) (hndS : Hs.Set.Nodup)
    {A : List α} {func : List (α × β)}
    (hI : FuncInv eqa Hs Ho A func) : func.length ≤ glen Hs := by
  have h1 : (func.map Prod.fst).length ≤ Hs.Set.length := by
    refine length_le_of_sub ha hI.knd hndS ?_
    intro x hx
    obtain ⟨p, hp, rfl⟩ := List.mem_map.mp hx
    exact (hI.ent p hp).1
  rw [List.length_map] at h1
  exact h1

/-- The extension loop on a valid partial mapping, for a generating seed
set: it never raises and, when it answers with a mapping, that mapping is
total and consistent. -/
theorem isoExtend_spec (ha : LawEq eqa) (hb : LawEq eqb)
    (hS : IsConstrG eqa Hs) (hndS : Hs.Set.Nodup) (hO : IsConstrG eqb Ho)
    {A : List α} (hgen : ∀ x ∈ Hs.Set, GenBy Hs.bin_op.rule A x) :
    ∀ (fuel : Nat) (func : List (α × β)),
    FuncInv eqa Hs Ho A func →
    glen Hs + 1 - func.length ≤ fuel →
    ∃ r, isoExtend eqa eqb Hs Ho fuel func = Except.ok r ∧
      ∀ f', r = some f' → ExtDone eqa eqb Hs Ho A f' := by
  have hglen : glen Hs = Hs.Set.length := rfl
  intro fuel
  induction fuel with
  | zero =>
    intro func hI hfuel
    exfalso
    have := funcInv_length_le ha hndS hI
    omega
  | succ fuel ih =>
    intro func hI hfuel
    obtain ⟨no, cex, hpass, c2, c3, c4, c5, c6, c7⟩ :=
      isoPassAux_spec ha hb hS hO hI.ent
        (aprod (func.map Prod.fst) (func.map Prod.fst)) []
        (fun q hq => mem_aprod.mp hq) List.nodup_nil
        (fun p hp => absurd hp (List.not_mem_nil p))
    have hpassrun : isoPass eqa eqb Hs Ho func = Except.ok (no, cex) := hpass
    have hstep : isoExtend eqa eqb Hs Ho (fuel + 1) func =
        (if func.length == glen Hs then
          (if cex then pure none else pure (some func))
        else
          (if (cex || !((adedup eqb (no.map Prod.snd ++
              func.map Prod.snd)).length == no.length + func.length)) then
            pure none
          else isoExtend eqa eqb Hs Ho fuel (func ++ no))) := by
      rw [isoExtend, hpassrun, ok_bind]
    by_cases hfull : func.length = glen Hs
    · have h1 : (func.length == glen Hs) = true := by simpa using hfull
      cases cex with
      | true =>
        refine ⟨none, ?_, fun f' hf' => by cases hf'⟩
        rw [hstep, h1, if_pos rfl, if_pos rfl]
        rfl
      | false =>
        have hkeys_sub : ∀ x ∈ func.map Prod.fst, x ∈ Hs.Set := by
          intro x hx
          obtain ⟨p, hp, rfl⟩ := List.mem_map.mp hx
          exact (hI.ent p hp).1
        have hcov : ∀ x ∈ Hs.Set, x ∈ func.map Prod.fst := by
          refine mem_of_sub_lengths ha hI.knd hndS hkeys_sub ?_
          rw [List.length_map, hfull]
          exact le_of_eq hglen.symm
        refine ⟨some func, ?_, ?_⟩
        · rw [hstep, h1, if_pos rfl]
          rfl
        · intro f' hf'
          obtain rfl : func = f' := Option.some.inj hf'
          refine ⟨hI, hfull, hcov, ?_⟩
          intro g hg h hh u v w hu hv hw
          have hq : (g, h) ∈ aprod (func.map Prod.fst) (func.map Prod.fst) :=
            mem_aprod.mpr ⟨hcov _ hg, hcov _ hh⟩
          obtain ⟨u', v', hu', hv', heq⟩ := c6 rfl (g, h) hq w hw
          obtain rfl : u' = u := by
            rw [hu] at hu'
            exact (Except.ok.inj hu').symm
          obtain rfl : v' = v := by
            rw [hv] at hv'
            exact (Except.ok.inj hv').symm
          exact heq
    · have h0 : (func.length == glen Hs) = false := by simpa using hfull
      have hlt : func.length < glen Hs :=
        lt_of_le_of_ne (funcInv_length_le ha hndS hI) hfull
      by_cases hC : (cex || !((adedup eqb (no.map Prod.snd ++
          func.map Prod.snd)).length == no.length + func.length)) = true
      · refine ⟨none, ?_, fun f' hf' => by cases hf'⟩
        rw [hstep, h0]
        simp only [Bool.false_eq_true, if_false]
        rw [hC, if_pos rfl]
        rfl
      · have hCf : (cex || !((adedup eqb (no.map Prod.snd ++
            func.map Prod.snd)).length == no.length + func.length)) = false :=
          Bool.eq_false_iff.mpr hC
        obtain ⟨hcex, hchk⟩ := Bool.or_eq_false_iff.mp hCf
        have hchk' : ((adedup eqb (no.map Prod.snd ++
            func.map Prod.snd)).length == no.length + func.length) = true := by
          cases hv : ((adedup eqb (no.map Prod.snd ++
              func.map Prod.snd)).length == no.length + func.length) with
          | true => rfl
          | false =>
            rw [hv] at hchk
            cases hchk
        have hlens : (adedup eqb (no.map Prod.snd ++
            func.map Prod.snd)).length = no.length + func.length := by
          simpa using hchk'
        have hlen2 : (no.map Prod.snd ++ func.map Prod.snd).length =
            no.length + func.length := by
          rw [List.length_append, List.length_map, List.length_map]
        have hvnodup : (no.map Prod.snd ++ func.map Prod.snd).Nodup := by
          refine (adedup_length_eq_iff hb).mp ?_
          rw [hlen2, hlens]
        have hnotclosed : ∃ q ∈ aprod (func.map Prod.fst)
            (func.map Prod.fst),
            Hs.bin_op.rule (q.1, q.2) ∉ func.map Prod.fst := by
          by_contra hcl
          push_neg at hcl
          have hclosed : ∀ a ∈ func.map Prod.fst, ∀ b ∈ func.map Prod.fst,
              Hs.bin_op.rule (a, b) ∈ func.map Prod.fst := by
            intro a haa b hbb
            exact hcl (a, b) (mem_aprod.mpr ⟨haa, hbb⟩)
          have hsub : ∀ x ∈ Hs.Set, x ∈ func.map Prod.fst := by
            intro x hx
            exact GenBy_minimal hclosed hI.seeds x (hgen x hx)
          have hle := length_le_of_sub ha hndS hI.knd hsub
          rw [List.length_map] at hle
          omega
        obtain ⟨q0, hq0, hq0n⟩ := hnotclosed
        have hkx : Hs.bin_op.rule (q0.1, q0.2) ∈ no.map Prod.fst := by
          rw [c5 hcex _]
          exact Or.inr ⟨q0, hq0, rfl, hq0n⟩
        have hnone : no ≠ [] := by
          intro hc
          rw [hc] at hkx
          cases hkx
        have hI' : FuncInv eqa Hs Ho A (func ++ no) := by
          refine ⟨?_, ?_, ?_, ?_⟩
          · rw [List.map_append, List.nodup_append]
            refine ⟨hI.knd, c2, ?_⟩
            intro x hx hx'
            obtain ⟨p, hp, rfl⟩ := List.mem_map.mp hx'
            exact (c3 p hp).2.2 hx
          · rw [List.map_append, List.nodup_append]
            obtain ⟨h1', h2', h3'⟩ := List.nodup_append.mp hvnodup
            exact ⟨h2', h1', fun a haa hbb => h3' hbb haa⟩
          · intro p hp
            rcases List.mem_append.mp hp with hp' | hp'
            · exact hI.ent p hp'
            · exact ⟨(c3 p hp').1, (c3 p hp').2.1⟩
          · intro a haa
            rw [List.map_append, List.mem_append]
            exact Or.inl (hI.seeds a haa)
        have hfuel' : glen Hs + 1 - (func ++ no).length ≤ fuel := by
          have hlp : 1 ≤ no.length := List.length_pos.mpr hnone
          rw [List.length_append]
          omega
        obtain ⟨r, hrun, hdone⟩ := ih (func ++ no) hI' hfuel'
        refine ⟨r, ?_, hdone⟩
        rw [hstep, h0]
        simp only [Bool.false_eq_true, if_false]
        rw [hCf]
        simp only [Bool.false_eq_true, if_false]
        exact hrun

/-- When the candidate images agree with a genuine isomorphism `F`, the
extension loop succeeds: no counterexample ever arises, no collision check
fails, and the mapping grows to the whole carrier. -/
theorem isoExtend_graph (ha : LawEq eqa) (hb : LawEq eqb)
    (hS : IsConstrG eqa Hs) (hndS : Hs.Set.Nodup) (hO : IsConstrG eqb Ho)
    {A : List α} (hgen : ∀ x ∈ Hs.Set, GenBy Hs.bin_op.rule A x)
    {F : α → β}
    (hFm : ∀ x ∈ Hs.Set, F x ∈ Ho.Set)
    (hFh : ∀ a ∈ Hs.Set, ∀ b ∈ Hs.Set,
      F (Hs.bin_op.rule (a, b)) = Ho.bin_op.rule (F a, F b))
    (hFi : ∀ a ∈ Hs.Set, ∀ b ∈ Hs.Set, F a = F b → a = b) :
    ∀ (fuel : Nat) (func : List (α × β)),
    FuncInv eqa Hs Ho A func →
    (∀ p ∈ func, p.2 = F p.1) →
    glen Hs + 1 - func.length ≤ fuel →
    ∃ f', isoExtend eqa eqb Hs Ho fuel func = Except.ok (some f') := by
  have hglen : glen Hs = Hs.Set.length := rfl
  intro fuel
  induction fuel with
  | zero =>
    intro func hI _ hfuel
    exfalso
    have := funcInv_length_le ha hndS hI
    omega
  | succ fuel ih =>
    intro func hI hgr hfuel
    obtain ⟨no, cex, hpass, c2, c3, c4, c5, c6, c7⟩ :=
      isoPassAux_spec ha hb hS hO hI.ent
        (aprod (func.map Prod.fst) (func.map Prod.fst)) []
        (fun q hq => mem_aprod.mp hq) List.nodup_nil
        (fun p hp => absurd hp (List.not_mem_nil p))
    have hpassrun : isoPass eqa eqb Hs Ho func = Except.ok (no, cex) := hpass
    have hstep : isoExtend eqa eqb Hs Ho (fuel + 1) func =
        (if func.length == glen Hs then
          (if cex then pure none else pure (some func))
        else
          (if (cex || !((adedup eqb (no.map Prod.snd ++
              func.map Prod.snd)).length == no.length + func.length)) then
            pure none
          else isoExtend eqa eqb Hs Ho fuel (func ++ no))) := by
      rw [isoExtend, hpassrun, ok_bind]
    -- on a graph fragment of an isomorphism, the pass never finds a
    -- counterexample
    have hcex : cex = false := by
      cases hc : cex with
      | false => rfl
      | true =>
        exfalso
        obtain ⟨q, hq, u, v, w, hu, hv, hw, hne⟩ := c7 hc
        have hum := dlookup_ok_mem ha hu
        have hvm := dlookup_ok_mem ha hv
        have hwm := dlookup_ok_mem ha hw
        have h1S : q.1 ∈ Hs.Set := (hI.ent _ hum).1
        have h2S : q.2 ∈ Hs.Set := (hI.ent _ hvm).1
        have hu' : u = F q.1 := hgr _ hum
        have hv' : v = F q.2 := hgr _ hvm
        have hw' : w = F (Hs.bin_op.rule (q.1, q.2)) := hgr _ hwm
        refine hne ?_
        rw [hu', hv', hw', hFh _ h1S _ h2S]
    subst hcex
    -- all new entries also lie on the graph of F
    have hnogr : ∀ p ∈ no, p.2 = F p.1 ∧ p.1 ∈ Hs.Set := by
      intro p hp
      rcases c4 p hp with hp' | ⟨g, u, h, v, _, hgm, hhm, h3, h4⟩
      · cases hp'
      · have hgS : g ∈ Hs.Set := (hI.ent _ hgm).1
        have hhS : h ∈ Hs.Set := (hI.ent _ hhm).1
        have hu' : u = F g := hgr _ hgm
        have hv' : v = F h := hgr _ hhm
        constructor
        · rw [h3, h4, hu', hv', hFh _ hgS _ hhS]
        · rw [h3]
          exact hS.closed _ hgS _ hhS
    by_cases hfull : func.length = glen Hs
    · have h1 : (func.length == glen Hs) = true := by simpa using hfull
      refine ⟨func, ?_⟩
      rw [hstep, h1, if_pos rfl]
      rfl
    · have h0 : (func.length == glen Hs) = false := by simpa using hfull
      have hlt : func.length < glen Hs :=
        lt_of_le_of_ne (funcInv_length_le ha hndS hI) hfull
      -- the combined values are distinct, so the collision check passes
      have hkeysnd : ((no ++ func).map Prod.fst).Nodup := by
        rw [List.map_append, List.nodup_append]
        refine ⟨c2, hI.knd, ?_⟩
        intro x hx hx'
        obtain ⟨p, hp, rfl⟩ := List.mem_map.mp hx
        exact (c3 p hp).2.2 hx'
      have hvalsnd : ((no ++ func).map Prod.snd).Nodup := by
        refine List.pairwise_map.mpr ?_
        have hk := List.pairwise_map.mp hkeysnd
        refine List.Pairwise.imp_of_mem ?_ hk
        intro p q hp hq hne hc
        have hpgr : p.2 = F p.1 ∧ p.1 ∈ Hs.Set := by
          rcases List.mem_append.mp hp with hp' | hp'
          · exact hnogr p hp'
          · exact ⟨hgr p hp', (hI.ent p hp').1⟩
        have hqgr : q.2 = F q.1 ∧ q.1 ∈ Hs.Set := by
          rcases List.mem_append.mp hq with hq' | hq'
          · exact hnogr q hq'
          · exact ⟨hgr q hq', (hI.ent q hq').1⟩
        rw [hpgr.1, hqgr.1] at hc
        exact hne (hFi _ hpgr.2 _ hqgr.2 hc)
      have hchk : ((adedup eqb (no.map Prod.snd ++
          func.map Prod.snd)).length == no.length + func.length) = true := by
        have hnd2 : (no.map Prod.snd ++ func.map Prod.snd).Nodup := by
          rw [← List.map_append]
          exact hvalsnd
        rw [adedup_eq_self_of_nodup hb hnd2]
        simp [List.length_append]
      have hCf : (false || !((adedup eqb (no.map Prod.snd ++
          func.map Prod.snd)).length == no.length + func.length)) = false := by
        rw [Bool.false_or, hchk]
        rfl
      -- the mapping strictly grows
      have hnotclosed : ∃ q ∈ aprod (func.map Prod.fst)
          (func.map Prod.fst),
          Hs.bin_op.rule (q.1, q.2) ∉ func.map Prod.fst := by
        by_contra hcl
        push_neg at hcl
        have hclosed : ∀ a ∈ func.map Prod.fst, ∀ b ∈ func.map Prod.fst,
            Hs.bin_op.rule (a, b) ∈ func.map Prod.fst := by
          intro a haa b hbb
          exact hcl (a, b) (mem_aprod.mpr ⟨haa, hbb⟩)
        have hsub : ∀ x ∈ Hs.Set, x ∈ func.map Prod.fst := by
          intro x hx
          exact GenBy_minimal hclosed hI.seeds x (hgen x hx)
        have hle := length_le_of_sub ha hndS hI.knd hsub
        rw [List.length_map] at hle
        omega
      obtain ⟨q0, hq0, hq0n⟩ := hnotclosed
      have hkx : Hs.bin_op.rule (q0.1, q0.2) ∈ no.map Prod.fst := by
        rw [c5 rfl _]
        exact Or.inr ⟨q0, hq0, rfl, hq0n⟩
      have hnone : no ≠ [] := by
        intro hc
        rw [hc] at hkx
        cases hkx
      have hI' : FuncInv eqa Hs Ho A (func ++ no) := by
        refine ⟨?_, ?_, ?_, ?_⟩
        · rw [List.map_append, List.nodup_append]
          refine ⟨hI.knd, c2, ?_⟩
          intro x hx hx'
          obtain ⟨p, hp, rfl⟩ := List.mem_map.mp hx'
          exact (c3 p hp).2.2 hx
        · rw [List.map_append, List.nodup_append]
          have h3' := List.nodup_append.mp (by
            rw [← List.map_append]
            exact hvalsnd : (no.map Prod.snd ++ func.map Prod.snd).Nodup)
          exact ⟨h3'.2.1, h3'.1, fun a haa hbb => h3'.2.2 hbb haa⟩
        · intro p hp
          rcases List.mem_append.mp hp with hp' | hp'
          · exact hI.ent p hp'
          · exact ⟨(c3 p hp').1, (c3 p hp').2.1⟩
        · intro a haa
          rw [List.map_append, List.mem_append]
          exact Or.inl (hI.seeds a haa)
      have hgr' : ∀ p ∈ func ++ no, p.2 = F p.1 := by
        intro p hp
        rcases List.mem_append.mp hp with hp' | hp'
        · exact hgr p hp'
        · exact (hnogr p hp').1
      have hfuel' : glen Hs + 1 - (func ++ no).length ≤ fuel := by
        have hlp : 1 ≤ no.length := List.length_pos.mpr hnone
        rw [List.length_append]
        omega
      obtain ⟨f', hrun⟩ := ih (func ++ no) hI' hgr' hfuel'
      refine ⟨f', ?_⟩
      rw [hstep, h0]
      simp only [Bool.false_eq_true, if_false]
      rw [hCf]
      simp only [Bool.false_eq_true, if_false]
      exact hrun

/-- What `itertools.permutations(l, r)` yields: ordered selections of `r`
distinct positions of `l`. -/
theorem arrangements_sound {γ : Type} :
    ∀ {r : Nat} {l t : List γ}, t ∈ arrangements r l →
    t.length = r ∧ (∀ x ∈ t, x ∈ l) ∧ (l.Nodup → t.Nodup) := by
  intro r
  induction r with
  | zero =>
    intro l t ht
    rw [arrangements] at ht
    obtain rfl := List.mem_singleton.mp ht
    exact ⟨rfl, fun x hx => absurd hx (List.not_mem_nil x),
      fun _ => List.nodup_nil⟩
  | succ r ih =>
    intro l t ht
    rw [arrangements] at ht
    obtain ⟨p, hp, ht'⟩ := List.mem_flatMap.mp ht
    obtain ⟨t', ht'', rfl⟩ := List.mem_map.mp ht'
    have hpg : l[p.1]? = some p.2 := List.mem_enum_iff_getElem?.mp hp
    have hp2 : p.2 ∈ l := List.mem_iff_getElem?.mpr ⟨p.1, hpg⟩
    obtain ⟨hlen, hsub, hnd⟩ := ih ht''
    refine ⟨by rw [List.length_cons, hlen], ?_, ?_⟩
    · intro x hx
      rcases List.mem_cons.mp hx with rfl | hx'
      · exact hp2
      · exact (List.eraseIdx_sublist l p.1).mem (hsub x hx')
    · intro hlnd
      refine List.nodup_cons.mpr ⟨?_, hnd (hlnd.eraseIdx p.1)⟩
      intro hc
      obtain ⟨i, hi, hig⟩ := List.mem_eraseIdx_iff_getElem?.mp (hsub _ hc)
      have hlt : p.1 < l.length := by
        by_contra hge
        rw [List.getElem?_eq_none (Nat.le_of_not_lt hge)] at hpg
        cases hpg
      exact hi (List.getElem?_inj hlt hlnd (by rw [hpg, hig])).symm

/-- Completeness of the `itertools.permutations` enumeration: every list of
distinct elements of a duplicate-free `l` appears. -/
theorem arrangements_complete {γ : Type} :
    ∀ {t l : List γ}, l.Nodup → t.Nodup → (∀ x ∈ t, x ∈ l) →
    t ∈ arrangements t.length l := by
  intro t
  induction t with
  | nil =>
    intro l _ _ _
    rw [List.length_nil, arrangements]
    exact List.mem_singleton.mpr rfl
  | cons x t ih =>
    intro l hlnd htnd hsub
    obtain ⟨i, hig⟩ := List.mem_iff_getElem?.mp (hsub x (List.mem_cons_self _ _))
    rw [List.length_cons, arrangements]
    refine List.mem_flatMap.mpr ⟨(i, x), List.mem_enum_iff_getElem?.mpr hig, ?_⟩
    refine List.mem_map.mpr ⟨t, ?_, rfl⟩
    refine ih (hlnd.eraseIdx i) (List.nodup_cons.mp htnd).2 ?_
    intro y hy
    obtain ⟨j, hjg⟩ := List.mem_iff_getElem?.mp
      (hsub y (List.mem_cons_of_mem _ hy))
    refine List.mem_eraseIdx_iff_getElem?.mpr ⟨j, ?_, hjg⟩
    intro hji
    rw [hji, hig] at hjg
    obtain rfl := Option.some.inj hjg
    exact (List.nodup_cons.mp htnd).1 hy

/-- A (pure) isomorphism between the two structures: carrier-respecting,
multiplicative, injective and surjective on the carriers. -/
def IsIsoF (Hs : PyGroup α) (Ho : PyGroup β) (F : α → β) : Prop :=
  (∀ x ∈ Hs.Set, F x ∈ Ho.Set) ∧
  (∀ a ∈ Hs.Set, ∀ b ∈ Hs.Set,
    F (Hs.bin_op.rule (a, b)) = Ho.bin_op.rule (F a, F b)) ∧
  (∀ a ∈ Hs.Set, ∀ b ∈ Hs.Set, F a = F b → a = b) ∧
  (∀ y ∈ Ho.Set, ∃ x ∈ Hs.Set, F x = y)

/-- The returned `GroupHomomorphism` realizes a (pure) isomorphism. -/
def IsoFound (Hs : PyGroup α) (Ho : PyGroup β) (h : PyHom α β) : Prop :=
  ∃ F, (∀ x ∈ Hs.Set, h.function x = Except.ok (F x)) ∧ IsIsoF Hs Ho F

/-- `GroupHomomorphism.__init__` succeeds on a mapping that is total on the
domain, lands in the codomain, and satisfies the homomorphism law. -/
theorem mkHom_ok_of (ha : LawEq eqa) (hb : LawEq eqb)
    (hS : IsConstrG eqa Hs) (hO : IsConstrG eqb Ho)
    {f : α → Except PyErr β} {F : α → β}
    (hf : ∀ x ∈ Hs.Set, f x = Except.ok (F x))
    (hFm : ∀ x ∈ Hs.Set, F x ∈ Ho.Set)
    (hFh : ∀ a ∈ Hs.Set, ∀ b ∈ Hs.Set,
      F (Hs.bin_op.rule (a, b)) = Ho.bin_op.rule (F a, F b)) :
    mkHom eqa eqb Hs Ho f = Except.ok (PyHom.mk Hs Ho f) := by
  have hall1 : allE (fun g => do
      let v ← f g
      pure (amem eqb v Ho.Set)) (iterOrder eqa Hs) =
      Except.ok ((iterOrder eqa Hs).all (fun g => amem eqb (F g) Ho.Set)) := by
    refine allE_ok (fun g hg => ?_)
    have hgS : g ∈ Hs.Set := (mem_iterOrder ha hS).mp hg
    rw [hf g hgS, ok_bind]
    rfl
  have hall1t : (iterOrder eqa Hs).all
      (fun g => amem eqb (F g) Ho.Set) = true := by
    rw [List.all_eq_true]
    intro g hg
    exact (amem_iff hb).mpr (hFm g ((mem_iterOrder ha hS).mp hg))
  have hall2 : allE (fun p => do
      let ab ← emul eqa Hs p.1 p.2
      let l ← f ab
      let fa ← f p.1
      let fb ← f p.2
      let r ← emul eqb Ho fa fb
      pure (eqb l r)) (aprod (iterOrder eqa Hs) (iterOrder eqa Hs)) =
      Except.ok ((aprod (iterOrder eqa Hs) (iterOrder eqa Hs)).all
        (fun p => eqb (F (Hs.bin_op.rule (p.1, p.2)))
          (Ho.bin_op.rule (F p.1, F p.2)))) := by
    refine allE_ok (fun p hp => ?_)
    obtain ⟨h1, h2⟩ := mem_aprod.mp hp
    have h1S : p.1 ∈ Hs.Set := (mem_iterOrder ha hS).mp h1
    have h2S : p.2 ∈ Hs.Set := (mem_iterOrder ha hS).mp h2
    have habS : Hs.bin_op.rule (p.1, p.2) ∈ Hs.Set := hS.closed _ h1S _ h2S
    rw [emul_ok ha hS h1S h2S, ok_bind, hf _ habS, ok_bind, hf _ h1S,
      ok_bind, hf _ h2S, ok_bind, emul_ok hb hO (hFm _ h1S) (hFm _ h2S),
      ok_bind]
    rfl
  have hall2t : (aprod (iterOrder eqa Hs) (iterOrder eqa Hs)).all
      (fun p => eqb (F (Hs.bin_op.rule (p.1, p.2)))
        (Ho.bin_op.rule (F p.1, F p.2))) = true := by
    rw [List.all_eq_true]
    intro p hp
    obtain ⟨h1, h2⟩ := mem_aprod.mp hp
    rw [hFh _ ((mem_iterOrder ha hS).mp h1) _ ((mem_iterOrder ha hS).mp h2)]
    exact lawEq_refl hb _
  rw [mkHom, hall1, ok_bind, hall1t]
  simp only [Bool.not_true, Bool.false_eq_true, if_false]
  rw [hall2, ok_bind, hall2t]
  simp only [Bool.not_true, Bool.false_eq_true, if_false]
  rfl

/-- A successful extension yields a `GroupHomomorphism` realizing an
isomorphism, provided the two orders agree. -/
theorem extDone_iso (ha : LawEq eqa) (hb : LawEq eqb)
    (hS : IsConstrG eqa Hs) (hndS : Hs.Set.Nodup)
    (hO : IsConstrG eqb Ho) (hndO : Ho.Set.Nodup)
    (hglen : glen Hs = glen Ho) {A : List α} {f' : List (α × β)}
    (hD : ExtDone eqa eqb Hs Ho A f') :
    mkHom eqa eqb Hs Ho (fun x => dlookup eqa f' x) =
      Except.ok (PyHom.mk Hs Ho (fun x => dlookup eqa f' x)) ∧
    IsoFound Hs Ho (PyHom.mk Hs Ho (fun x => dlookup eqa f' x)) := by
  set F : α → β := fun x =>
    match dlookup eqa f' x with
    | .ok v => v
    | .error _ => Ho.e with hF
  have hfF : ∀ x ∈ Hs.Set, dlookup eqa f' x = Except.ok (F x) := by
    intro x hx
    obtain ⟨v, hv, _⟩ := dlookup_ok_of_key ha (hD.covers x hx)
    rw [hv, hF]
    simp only [hv]
  have hFmem : ∀ x ∈ Hs.Set, (x, F x) ∈ f' :=
    fun x hx => dlookup_ok_mem ha (hfF x hx)
  have hFm : ∀ x ∈ Hs.Set, F x ∈ Ho.Set :=
    fun x hx => (hD.inv.ent _ (hFmem x hx)).2
  have hFh : ∀ a ∈ Hs.Set, ∀ b ∈ Hs.Set,
      F (Hs.bin_op.rule (a, b)) = Ho.bin_op.rule (F a, F b) := by
    intro a haa b hbb
    have habS : Hs.bin_op.rule (a, b) ∈ Hs.Set := hS.closed _ haa _ hbb
    exact (hD.law a haa b hbb (F a) (F b) (F (Hs.bin_op.rule (a, b)))
      (hfF _ haa) (hfF _ hbb) (hfF _ habS)).symm
  have hvpw : ∀ p ∈ f', ∀ q ∈ f', p ≠ q → p.2 ≠ q.2 := by
    have hsym : Symmetric (fun p q : α × β => p.2 ≠ q.2) := by
      intro p q hpq hc
      exact hpq hc.symm
    have hpw : List.Pairwise (fun p q : α × β => p.2 ≠ q.2) f' :=
      List.pairwise_map.mp hD.inv.vnd
    exact fun p hp q hq hne => hpw.forall hsym hp hq hne
  have hkpw : ∀ p ∈ f', ∀ q ∈ f', p ≠ q → p.1 ≠ q.1 := by
    have hsym : Symmetric (fun p q : α × β => p.1 ≠ q.1) := by
      intro p q hpq hc
      exact hpq hc.symm
    have hpw : List.Pairwise (fun p q : α × β => p.1 ≠ q.1) f' :=
      List.pairwise_map.mp hD.inv.knd
    exact fun p hp q hq hne => hpw.forall hsym hp hq hne
  have hFi : ∀ a ∈ Hs.Set, ∀ b ∈ Hs.Set, F a = F b → a = b := by
    intro a haa b hbb hab
    by_contra hne
    refine hvpw (a, F a) (hFmem a haa) (b, F b) (hFmem b hbb) ?_ hab
    intro hc
    exact hne (congrArg Prod.fst hc)
  have hFs : ∀ y ∈ Ho.Set, ∃ x ∈ Hs.Set, F x = y := by
    have hvsub : ∀ v ∈ f'.map Prod.snd, v ∈ Ho.Set := by
      intro v hv
      obtain ⟨p, hp, rfl⟩ := List.mem_map.mp hv
      exact (hD.inv.ent p hp).2
    have hvlen : Ho.Set.length ≤ (f'.map Prod.snd).length := by
      rw [List.length_map, hD.len]
      exact le_of_eq (by rw [hglen]; rfl)
    have hmem := mem_of_sub_lengths hb hD.inv.vnd hndO hvsub hvlen
    intro y hy
    obtain ⟨p, hp, hpy⟩ := List.mem_map.mp (hmem y hy)
    have hpS : p.1 ∈ Hs.Set := (hD.inv.ent p hp).1
    refine ⟨p.1, hpS, ?_⟩
    have h1 : (p.1, F p.1) ∈ f' := hFmem _ hpS
    by_cases hpq : p = (p.1, F p.1)
    · rw [← hpy, hpq]
    · exact absurd rfl (hkpw p hp (p.1, F p.1) h1 hpq)
  refine ⟨mkHom_ok_of ha hb hS hO hfF hFm hFh, F, hfF, hFm, hFh, hFi, hFs⟩

/-- An isomorphism forces equal orders. -/
theorem iso_glen_eq (ha : LawEq eqa) (hb : LawEq eqb)
    (hndS : Hs.Set.Nodup) (hndO : Ho.Set.Nodup) {F : α → β}
    (hF : IsIsoF Hs Ho F) : glen Hs = glen Ho := by
  obtain ⟨hFm, _, hFi, hFs⟩ := hF
  have hmnd : (Hs.Set.map F).Nodup := by
    refine List.pairwise_map.mpr ?_
    have hpw : List.Pairwise (fun a b : α => a ≠ b) Hs.Set := hndS
    refine List.Pairwise.imp_of_mem ?_ hpw
    intro a b haa hbb hne hc
    exact hne (hFi _ haa _ hbb hc)
  have h1 : (Hs.Set.map F).length ≤ Ho.Set.length := by
    refine length_le_of_sub hb hmnd hndO ?_
    intro y hy
    obtain ⟨x, hx, rfl⟩ := List.mem_map.mp hy
    exact hFm _ hx
  have h2 : Ho.Set.length ≤ (Hs.Set.map F).length := by
    refine length_le_of_sub hb hndO hmnd ?_
    intro y hy
    obtain ⟨x, hx, hxy⟩ := hFs y hy
    exact List.mem_map.mpr ⟨x, hx, hxy⟩
  have h3 := List.length_map Hs.Set F
  show Hs.Set.length = Ho.Set.length
  omega

/-- An isomorphism forces equal cached abelian flags on constructed
Groups. -/
theorem iso_abelian_eq (hS : IsConstrG eqa Hs) (hO : IsConstrG eqb Ho)
    {F : α → β} (hF : IsIsoF Hs Ho F) : Hs.abelian = Ho.abelian := by
  obtain ⟨hFm, hFh, hFi, hFs⟩ := hF
  have hiff : (∀ a ∈ Hs.Set, ∀ b ∈ Hs.Set,
      Hs.bin_op.rule (a, b) = Hs.bin_op.rule (b, a)) ↔
      (∀ a ∈ Ho.Set, ∀ b ∈ Ho.Set,
        Ho.bin_op.rule (a, b) = Ho.bin_op.rule (b, a)) := by
    constructor
    · intro hcomm y1 hy1 y2 hy2
      obtain ⟨x1, hx1, rfl⟩ := hFs y1 hy1
      obtain ⟨x2, hx2, rfl⟩ := hFs y2 hy2
      rw [← hFh _ hx1 _ hx2, ← hFh _ hx2 _ hx1, hcomm _ hx1 _ hx2]
    · intro hcomm x1 hx1 x2 hx2
      refine hFi _ (hS.closed _ hx1 _ hx2) _ (hS.closed _ hx2 _ hx1) ?_
      rw [hFh _ hx1 _ hx2, hFh _ hx2 _ hx1,
        hcomm _ (hFm _ hx1) _ (hFm _ hx2)]
  cases hsa : Hs.abelian with
  | true =>
    have := hO.abel.mpr (hiff.mp (hS.abel.mp hsa))
    exact this.symm
  | false =>
    cases hoa : Ho.abelian with
    | false => rfl
    | true =>
      have := hS.abel.mpr (hiff.mpr (hO.abel.mp hoa))
      rw [hsa] at this
      cases this

/-- The candidate loop: it terminates, answers only with realized
isomorphisms, and cannot answer `None` while a candidate matching a genuine
isomorphism remains. -/
theorem isoCandidates_spec (ha : LawEq eqa) (hb : LawEq eqb)
    (hS : IsConstrG eqa Hs) (hndS : Hs.Set.Nodup)
    (hO : IsConstrG eqb Ho) (hndO : Ho.Set.Nodup)
    (hglen : glen Hs = glen Ho)
    {A : List α} (hgen : ∀ x ∈ Hs.Set, GenBy Hs.bin_op.rule A x)
    (hAnd : A.Nodup) (hAsub : ∀ x ∈ A, x ∈ Hs.Set) :
    ∀ (Bs : List (List β)),
    (∀ B ∈ Bs, B.length = A.length ∧ B.Nodup ∧ ∀ x ∈ B, x ∈ Ho.Set) →
    ∃ r, isoCandidates eqa eqb Hs Ho A Bs = Except.ok r ∧
      (∀ h, r = some h → h.domain = Hs ∧ h.codomain = Ho ∧
        IsoFound Hs Ho h) ∧
      (r = none → ∀ B ∈ Bs, ∀ F : α → β, IsIsoF Hs Ho F → B ≠ A.map F) := by
  intro Bs
  induction Bs with
  | nil =>
    intro _
    refine ⟨none, rfl, ?_, ?_⟩
    · intro h hc
      cases hc
    · intro _ B hB
      cases hB
  | cons B Bs ih =>
    intro hBs
    obtain ⟨hBlen, hBnd, hBsub⟩ := hBs B (List.mem_cons_self _ _)
    obtain ⟨hdl, hdk, hdknd, hdvnd, hdent⟩ :=
      dzip_spec ha hAnd hBlen.symm hBnd
    have hI : FuncInv eqa Hs Ho A (dzip eqa A B) := by
      refine ⟨hdknd, hdvnd, ?_, ?_⟩
      · intro p hp
        exact ⟨hAsub _ (hdent p hp).1, hBsub _ (hdent p hp).2⟩
      · intro a haa
        exact (hdk a).mpr haa
    obtain ⟨r0, hrun0, hdone0⟩ := isoExtend_spec ha hb hS hndS hO hgen
      (glen Hs + 2) (dzip eqa A B) hI (by omega)
    cases r0 with
    | some f' =>
      have hD := hdone0 f' rfl
      obtain ⟨hmk, hiso⟩ := extDone_iso ha hb hS hndS hO hndO hglen hD
      refine ⟨some (PyHom.mk Hs Ho (fun x => dlookup eqa f' x)), ?_, ?_, ?_⟩
      · rw [isoCandidates, hrun0, ok_bind]
        show (do
          let h ← mkHom eqa eqb Hs Ho (fun x => dlookup eqa f' x)
          pure (some h)) = _
        rw [hmk, ok_bind]
        rfl
      · intro h hh
        obtain rfl := Option.some.inj hh.symm
        exact ⟨rfl, rfl, hiso⟩
      · intro hc
        cases hc
    | none =>
      obtain ⟨r, hrun, hsound, hnone⟩ := ih
        (fun B' hB' => hBs B' (List.mem_cons_of_mem _ hB'))
      refine ⟨r, ?_, hsound, ?_⟩
      · rw [isoCandidates, hrun0, ok_bind]
        exact hrun
      · intro hrn B' hB' F hF hBF
        rcases List.mem_cons.mp hB' with rfl | hB''
        · -- the matching candidate cannot have been rejected
          have hFm := hF.1
          have hFh := hF.2.1
          have hFi := hF.2.2.1
          have hgr : ∀ p ∈ dzip eqa A (A.map F), p.2 = F p.1 :=
            dzip_graph ha hAnd
          have hI' : FuncInv eqa Hs Ho A (dzip eqa A (A.map F)) := by
            rw [← hBF]
            exact hI
          obtain ⟨f', hrun'⟩ := isoExtend_graph ha hb hS hndS hO hgen
            hFm hFh hFi (glen Hs + 2) (dzip eqa A (A.map F)) hI'
            (dzip_graph ha hAnd) (by omega)
          rw [hBF] at hrun0
          rw [hrun'] at hrun0
          cases Except.ok.inj hrun0
        · exact hnone hrn B' hB'' F hF hBF

end IsoSpec

/-- C1 (amended).  For a genuine source Group (constructed, two-sided
identity) and a constructed target Group, `find_isomorphism` terminates and
fulfills the contract: any returned `GroupHomomorphism` realizes a bijective
homomorphism between the two carriers, the negative answer `None` is
returned only when no isomorphism exists, and an order or abelian-flag
mismatch short-circuits to `None`.  On merely constructed (one-sided)
source Groups the search can instead hang forever
(`claimC1_counterexample`). -/
theorem claimC1 {α β : Type} {eqa : α → α → Bool} {eqb : β → β → Bool}
    {Hs : PyGroup α} {Ho : PyGroup β}
    (ha : LawEq eqa) (hb : LawEq eqb)
    (hS : IsConstrG eqa Hs) (hndS : Hs.Set.Nodup) (htS : TwoSided Hs)
    (hO : IsConstrG eqb Ho) (hndO : Ho.Set.Nodup) :
    ∃ r, find_isomorphism eqa eqb Hs Ho = Except.ok r ∧
      (∀ h, r = some h → h.domain = Hs ∧ h.codomain = Ho ∧
        IsoFound Hs Ho h) ∧
      ((∃ F, IsIsoF Hs Ho F) → ∃ h, r = some h) ∧
      ((glen Hs ≠ glen Ho ∨ Hs.abelian ≠ Ho.abelian) → r = none) := by
  by_cases hguard : (!(glen Hs == glen Ho) ||
      !(Hs.abelian == Ho.abelian)) = true
  · refine ⟨none, ?_, ?_, ?_, fun _ => rfl⟩
    · rw [find_isomorphism, hguard, if_pos rfl]
      rfl
    · intro h hc
      cases hc
    · rintro ⟨F, hF⟩
      exfalso
      have h1 := iso_glen_eq ha hb hndS hndO hF
      have h2 := iso_abelian_eq hS hO hF
      rcases Bool.or_eq_true_iff.mp hguard with hx | hx
      · rw [Bool.not_eq_true'] at hx
        rw [h1] at hx
        simp at hx
      · rw [Bool.not_eq_true'] at hx
        rw [h2] at hx
        simp at hx
  · have hguardf : (!(glen Hs == glen Ho) ||
        !(Hs.abelian == Ho.abelian)) = false := Bool.eq_false_iff.mpr hguard
    obtain ⟨hx1, hx2⟩ := Bool.or_eq_false_iff.mp hguardf
    have hgleq : glen Hs = glen Ho := by
      have : (glen Hs == glen Ho) = true := by
        cases hv : (glen Hs == glen Ho) with
        | true => rfl
        | false =>
          rw [hv] at hx1
          cases hx1
      simpa using this
    have habeq : Hs.abelian = Ho.abelian := by
      have : (Hs.abelian == Ho.abelian) = true := by
        cases hv : (Hs.abelian == Ho.abelian) with
        | true => rfl
        | false =>
          rw [hv] at hx2
          cases hx2
      simpa using this
    obtain ⟨A, hArun, _, ⟨K, hKgen, hKlen⟩, _, _, hAne, hAsub, hAnd⟩ :=
      generators_spec ha hS hndS htS
    obtain ⟨K', hK'run, _, hK'nd, _, hK'sub, hK'gen, _, _⟩ :=
      generate_ok_spec ha hS hndS hAsub hAne
    rw [hKgen] at hK'run
    obtain rfl : K = K' := Except.ok.inj hK'run
    have hcov : ∀ x ∈ Hs.Set, x ∈ K.Set := by
      refine mem_of_sub_lengths ha hK'nd hndS hK'sub ?_
      have h5 : glen K = glen Hs := hKlen
      have h6 : K.Set.length = Hs.Set.length := h5
      omega
    have hgen : ∀ x ∈ Hs.Set, GenBy Hs.bin_op.rule A x :=
      fun x hx => (hK'gen x).mp (hcov x hx)
    have hiternd : (iterOrder eqb Ho).Nodup := nodup_iterOrder hb hO hndO
    have hBs : ∀ B ∈ arrangements A.length (iterOrder eqb Ho),
        B.length = A.length ∧ B.Nodup ∧ ∀ x ∈ B, x ∈ Ho.Set := by
      intro B hB
      obtain ⟨hl, hsub, hnd⟩ := arrangements_sound hB
      exact ⟨hl, hnd hiternd,
        fun x hx => (mem_iterOrder hb hO).mp (hsub x hx)⟩
    obtain ⟨r, hrun, hsound, hnonecl⟩ := isoCandidates_spec ha hb hS hndS
      hO hndO hgleq hgen hAnd hAsub
      (arrangements A.length (iterOrder eqb Ho)) hBs
    refine ⟨r, ?_, hsound, ?_, ?_⟩
    · rw [find_isomorphism, hguardf]
      simp only [Bool.false_eq_true, if_false]
      rw [hArun, ok_bind]
      exact hrun
    · rintro ⟨F, hF⟩
      cases hr : r with
      | some h => exact ⟨h, rfl⟩
      | none =>
        exfalso
        have hmnd : (A.map F).Nodup := by
          refine List.pairwise_map.mpr ?_
          have hpw : List.Pairwise (fun a b : α => a ≠ b) A := hAnd
          refine List.Pairwise.imp_of_mem ?_ hpw
          intro a b haa hbb hne hc
          exact hne (hF.2.2.1 _ (hAsub _ haa) _ (hAsub _ hbb) hc)
        have hBmem : A.map F ∈ arrangements A.length (iterOrder eqb Ho) := by
          have := arrangements_complete hiternd hmnd (fun y hy => ?_)
          · rw [List.length_map] at this
            exact this
          · obtain ⟨x, hx, rfl⟩ := List.mem_map.mp hy
            exact (mem_iterOrder hb hO).mpr (hF.1 _ (hAsub _ hx))
        exact hnonecl hr _ hBmem F hF rfl
    · rintro (hmis | hmis)
      · exact absurd hgleq hmis
      · exact absurd habeq hmis


theorem claimC1_witness :
    ∃ r, find_isomorphism Nat.beq Nat.beq zn3V zn3V = Except.ok r ∧
      (∀ h, r = some h → h.domain = zn3V ∧ h.codomain = zn3V ∧
        IsoFound zn3V zn3V h) ∧
      ((∃ F, IsIsoF zn3V zn3V F) → ∃ h, r = some h) ∧
      ((glen zn3V ≠ glen zn3V ∨ zn3V.abelian ≠ zn3V.abelian) → r = none) :=
  claimC1 lawEq_nat lawEq_nat zn3_constr zn3_nodup zn3_twoSided
    zn3_constr zn3_nodup

/-- C1 counterexample: the constructed right-zero Group on `{0,1,2}` (a
valid Group in the code's sense: `Group.__init__` accepts it) is isomorphic
to itself — the identity map is a bijective homomorphism and
`GroupHomomorphism.__init__` accepts it — yet
`find_isomorphism` never returns: the extension loop reaches a consistent
non-growing partial mapping and `while not counterexample` repeats it
forever (the model's fuel exhaustion witnesses the hang), so the search
neither produces the isomorphism nor the negative answer. -/
theorem claimC1_counterexample :
    rz 3 = Except.ok rz3V ∧
    IsIsoF rz3V rz3V (fun g => g) ∧
    mkHom Nat.beq Nat.beq rz3V rz3V (fun g => Except.ok g) =
      Except.ok (PyHom.mk rz3V rz3V (fun g => Except.ok g)) ∧
    find_isomorphism Nat.beq Nat.beq rz3V rz3V =
      Except.error PyErr.nonTermination := by
  refine ⟨rfl, ?_, rfl, rfl⟩
  unfold IsIsoF
  refine ⟨?_, ?_, ?_, ?_⟩ <;> decide
